import Mathlib

/-!
# Traffic navigation: a shallow embedding of `src/traffic.cpp`

The C++ program keeps a road network in two `std::map`s (`adj`, `cityNodes`) and
answers route queries with a priority-queue search (`findOptimizedPath`).

Modelling choices:
* `double` is read in two ways. In the definitions without a suffix a `double` is an
  exact rational (`ℚ`) and the constant `1e9` is `1000000000`; they carry the claims on
  which rounding has no bearing. The definitions with the suffix `D`
  (`Edge.getEffectiveWeightD`, `relaxEdgeD`, `findOptimizedPathD`, ...) are the same code
  over `Dbl`, the IEEE 754 binary64 values with round-to-nearest-even: every literal,
  product and sum is rounded to 53 significant bits, overflow gives an infinity, and a
  comparison with not-a-number is false. They carry the claims about the numbers the
  program computes (C1, C5, C13).
* The field `Edge.baseWeight` is the number passed to `addRoad`; in double arithmetic the
  double that is stored is `Dbl.ofRat baseWeight`.
* `std::map<int, T>` fields of `NavigationSystem` are key-sorted association
  lists; `m[k]` on a missing key inserts the default value, as in C++.
* The local maps `dist` and `parent` of `findOptimizedPath` are only ever read
  through `operator[]` / `count`, so they are total functions
  (`dist` with the C++ default `0`, `parent` into `Option`).
* `std::priority_queue<pair<double,int>, ..., greater<>>` is a list read as a
  multiset: `top` is the lexicographically least pair, `pop` removes one copy.
* The two `while` loops take a fuel argument; running out of fuel is `none`.
  `fuelBound` below is fuel that suffices when every base cost is positive.
* `findOptimizedPath` is the answer the method prints. The empty entries that
  `adj[u]` and `cityNodes[...]` insert for missing keys while it runs are not part
  of that answer; `findOptimizedPathStore` gives the store they leave behind.
* `showNetworkStatus` is the list of rows of the printed table, as ids and status.
* `main` is modelled by its seed network only.
-/

namespace TrafficNav

/-! ## Data model -/

/-- The enum `RoadStatus` of the source. -/
inductive RoadStatus where
  | CLEAR
  | MODERATE
  | HEAVY
  | BLOCKED
deriving DecidableEq, Repr

/-- The struct `Edge` of the source. -/
structure Edge where
  to_ : Int
  baseWeight : ℚ
  status : RoadStatus
deriving DecidableEq

/-- The literal `1e9` of the source. -/
def INF : ℚ := 1000000000

/-- The method `Edge::getEffectiveWeight`. -/
def Edge.getEffectiveWeight (e : Edge) : ℚ :=
  if e.status = RoadStatus.BLOCKED then INF
  else if e.status = RoadStatus.HEAVY then e.baseWeight * (7 / 2)
  else if e.status = RoadStatus.MODERATE then e.baseWeight * (9 / 5)
  else e.baseWeight

/-- Lookup in a `std::map<int, T>` (first entry with the key). -/
def mapFind {α : Type} : List (Int × α) → Int → Option α
  | [], _ => none
  | (k, v) :: rest, key => if key = k then some v else mapFind rest key

/-- Assignment `m[key] = v` on a `std::map<int, T>`: overwrite the entry when the key
is present, insert it at its sorted position otherwise. -/
def mapSet {α : Type} : List (Int × α) → Int → α → List (Int × α)
  | [], key, v => [(key, v)]
  | (k, w) :: rest, key, v =>
    if key < k then (key, v) :: (k, w) :: rest
    else if key = k then (key, v) :: rest
    else (k, w) :: mapSet rest key v

/-- The class `NavigationSystem`: its two private maps. -/
structure NavigationSystem where
  adj : List (Int × List Edge)
  cityNodes : List (Int × String)

/-- The default-constructed `NavigationSystem`. -/
def NavigationSystem.empty : NavigationSystem := ⟨[], []⟩

/-- The value read by `adj[u]`: the stored vector, or the empty one. -/
def adjOf (nav : NavigationSystem) (u : Int) : List Edge :=
  (mapFind nav.adj u).getD []

/-- Whether `id` is a key of `cityNodes`. -/
def registered (nav : NavigationSystem) (id : Int) : Bool :=
  (mapFind nav.cityNodes id).isSome

/-- The method `addLocation`: `cityNodes[id] = name`. -/
def addLocation (nav : NavigationSystem) (id : Int) (name : String) : NavigationSystem :=
  { nav with cityNodes := mapSet nav.cityNodes id name }

/-- The statement `adj[u].push_back(e)`. -/
def pushEdge (adj : List (Int × List Edge)) (u : Int) (e : Edge) : List (Int × List Edge) :=
  mapSet adj u ((mapFind adj u).getD [] ++ [e])

/-- The method `addRoad`. -/
def addRoad (nav : NavigationSystem) (u v : Int) (dist : ℚ) : NavigationSystem :=
  { nav with
    adj := pushEdge (pushEdge nav.adj u ⟨v, dist, RoadStatus.CLEAR⟩) v
      ⟨u, dist, RoadStatus.CLEAR⟩ }

/-- One loop of `updateTraffic`: `for (auto &e : adj[u]) if (e.to == v) e.status = s;`. -/
def setStatus (adj : List (Int × List Edge)) (u v : Int) (s : RoadStatus) :
    List (Int × List Edge) :=
  mapSet adj u
    (((mapFind adj u).getD []).map (fun e => if e.to_ = v then { e with status := s } else e))

/-- The method `updateTraffic`. -/
def updateTraffic (nav : NavigationSystem) (u v : Int) (s : RoadStatus) : NavigationSystem :=
  { nav with adj := setStatus (setStatus nav.adj u v s) v u s }

/-! ## The route search -/

/-- The comparison of `std::pair<double, int>`: lexicographic. -/
def pairLt (a b : ℚ × Int) : Bool :=
  decide (a.1 < b.1) || (decide (a.1 = b.1) && decide (a.2 < b.2))

/-- The value `pq.top()` of the min-queue: the least pair, `none` when the queue is empty. -/
def pqTop : List (ℚ × Int) → Option (ℚ × Int)
  | [] => none
  | x :: xs => some (xs.foldl (fun m y => if pairLt y m then y else m) x)

/-- The local variables `pq`, `dist`, `parent` of `findOptimizedPath`. -/
structure SearchState where
  pq : List (ℚ × Int)
  dist : Int → ℚ
  parent : Int → Option Int

/-- The body of the `for` loop over `adj[u]` for one edge. -/
def relaxEdge (u : Int) (st : SearchState) (edge : Edge) : SearchState :=
  let weight := edge.getEffectiveWeight
  if st.dist u + weight < st.dist edge.to_ then
    { pq := (st.dist u + weight, edge.to_) :: st.pq
      dist := Function.update st.dist edge.to_ (st.dist u + weight)
      parent := Function.update st.parent edge.to_ (some u) }
  else st

/-- The `for` loop over `adj[u]`. -/
def relaxAll (u : Int) (st : SearchState) (edges : List Edge) : SearchState :=
  edges.foldl (relaxEdge u) st

/-- The loop `while (!pq.empty())` with its `break` on `u == end`. -/
def searchLoop (nav : NavigationSystem) (finish : Int) : Nat → SearchState → Option SearchState
  | 0, _ => none
  | fuel + 1, st =>
    match pqTop st.pq with
    | none => some st
    | some top =>
      let st1 : SearchState := { st with pq := st.pq.erase top }
      if top.2 = finish then some st1
      else searchLoop nav finish fuel (relaxAll top.2 st1 (adjOf nav top.2))

/-- The state before the search loop: `dist` is `1e9` on every key of `cityNodes`,
`dist[start] = 0`, every other id reads the default `0`; the queue holds `(0, start)`. -/
def initState (nav : NavigationSystem) (start : Int) : SearchState :=
  { pq := [(0, start)]
    dist := fun v => if v = start then 0 else if registered nav v then INF else 0
    parent := fun _ => none }

/-- The loop `while (parent.count(curr)) { path.push_back(curr); curr = parent[curr]; }`. -/
def walkBack (parent : Int → Option Int) : Nat → Int → List Int → Option (List Int)
  | 0, _, _ => none
  | fuel + 1, curr, path =>
    match parent curr with
    | none => some path
    | some p => walkBack parent fuel p (path ++ [curr])

/-- What `findOptimizedPath` prints: the alert, or the path and its travel time. -/
inductive RouteResult where
  | NoPath
  | Route (path : List Int) (cost : ℚ)
deriving DecidableEq

/-- The method `findOptimizedPath` (`finish` is the parameter `end`). -/
def findOptimizedPath (fuel : Nat) (nav : NavigationSystem) (start finish : Int) :
    Option RouteResult :=
  match searchLoop nav finish fuel (initState nav start) with
  | none => none
  | some st =>
    if st.dist finish ≥ INF then some RouteResult.NoPath
    else
      match walkBack st.parent fuel finish [] with
      | none => none
      | some path => some (RouteResult.Route (path ++ [start]).reverse (st.dist finish))

/-- The seed network built in `main`. -/
def seed : NavigationSystem :=
  let n0 := NavigationSystem.empty
  let n1 := addLocation n0 0 "Central_Hub"
  let n2 := addLocation n1 1 "Airport"
  let n3 := addLocation n2 2 "West_End"
  let n4 := addLocation n3 3 "East_Gate"
  let n5 := addLocation n4 4 "South_Station"
  let r1 := addRoad n5 0 1 15
  let r2 := addRoad r1 0 2 10
  let r3 := addRoad r2 1 4 25
  let r4 := addRoad r3 2 3 5
  let r5 := addRoad r4 3 4 10
  addRoad r5 0 3 20

/-! ## Reads through `operator[]` and the printed table -/

/-- The access `m[key]` used for reading a `std::map<int, T>`: a missing key is inserted
with the default value, a present one leaves the map as it is. -/
def mapTouch {α : Type} (m : List (Int × α)) (key : Int) (dflt : α) : List (Int × α) :=
  match mapFind m key with
  | some _ => m
  | none => mapSet m key dflt

/-- The value read by `cityNodes[id]`, the label printed for `id`: the stored name, or the
empty string. -/
def lookupLabel (nav : NavigationSystem) (id : Int) : String :=
  (mapFind nav.cityNodes id).getD ""

/-- The `while` loop of `findOptimizedPath` together with the map `adj` it reads through
`adj[u]`: the same loop as `searchLoop`, with the insertions of `operator[]` kept. -/
def searchLoopAdj (finish : Int) :
    Nat → List (Int × List Edge) → SearchState → Option (List (Int × List Edge) × SearchState)
  | 0, _, _ => none
  | fuel + 1, adj, st =>
    match pqTop st.pq with
    | none => some (adj, st)
    | some top =>
      let st1 : SearchState := { st with pq := st.pq.erase top }
      if top.2 = finish then some (adj, st1)
      else searchLoopAdj finish fuel (mapTouch adj top.2 [])
        (relaxAll top.2 st1 ((mapFind adj top.2).getD []))

/-- The store after a call of `findOptimizedPath`: `adj` after the search loop, and
`cityNodes` after the names of the path were printed through `cityNodes[path[i]]`. -/
def findOptimizedPathStore (fuel : Nat) (nav : NavigationSystem) (start finish : Int) :
    Option NavigationSystem :=
  match searchLoopAdj finish fuel nav.adj (initState nav start) with
  | none => none
  | some (adj, st) =>
    if st.dist finish ≥ INF then some { adj := adj, cityNodes := nav.cityNodes }
    else
      match walkBack st.parent fuel finish [] with
      | none => none
      | some path =>
        some { adj := adj
               cityNodes := ((path ++ [start]).reverse).foldl (fun m id => mapTouch m id "")
                 nav.cityNodes }

/-- The rows printed for one entry of `adj` by `showNetworkStatus`: one row per edge
whose owner id is below its target id. -/
def rowsOf (p : Int × List Edge) : List (Int × Int × RoadStatus) :=
  (p.2.filter (fun e => decide (p.1 < e.to_))).map (fun e => (p.1, e.to_, e.status))

/-- The rows of the table printed by the method `showNetworkStatus`, as
`(owner id, target id, status)`, in the order of the two nested `for` loops. -/
def showNetworkStatus (nav : NavigationSystem) : List (Int × Int × RoadStatus) :=
  (nav.adj.map rowsOf).flatten

/-! ## Stores and call sequences -/

/-- Two locations joined by one clear road of base cost `1e9`. -/
def longRoad : NavigationSystem :=
  addRoad (addLocation (addLocation NavigationSystem.empty 0 "A") 1 "B") 0 1 1000000000

/-- Two locations joined by one road of base cost `3` whose status is `MODERATE`. -/
def moderateRoad : NavigationSystem :=
  updateTraffic
    (addRoad (addLocation (addLocation NavigationSystem.empty 0 "A") 1 "B") 0 1 3)
    0 1 RoadStatus.MODERATE

/-- Three locations: a direct road of cost `6.4` from `0` to `1`, and a detour over `2`
made of a `MODERATE` road of base cost `3` and a clear road of cost `1`. -/
def tieRoads : NavigationSystem :=
  updateTraffic
    (addRoad (addRoad (addRoad
      (addLocation (addLocation (addLocation NavigationSystem.empty 0 "A") 1 "B") 2 "C")
      0 1 (32 / 5)) 0 2 3) 2 1 1)
    0 2 RoadStatus.MODERATE

/-- Three locations in a row, joined by clear roads of cost `999999999` and `1 - 2^-31`. -/
def nearLimit : NavigationSystem :=
  addRoad (addRoad
    (addLocation (addLocation (addLocation NavigationSystem.empty 0 "A") 1 "B") 2 "C")
    0 1 999999999) 1 2 (2147483647 / 2147483648)

/-- A call of one of the three mutating methods. -/
inductive Op where
  | addLocation (id : Int) (name : String)
  | addRoad (u v : Int) (dist : ℚ)
  | updateTraffic (u v : Int) (s : RoadStatus)

/-- The store after one call. -/
def applyOp (nav : NavigationSystem) : Op → NavigationSystem
  | Op.addLocation id name => addLocation nav id name
  | Op.addRoad u v dist => addRoad nav u v dist
  | Op.updateTraffic u v s => updateTraffic nav u v s

/-- The store reached from the empty one by a sequence of calls. -/
def runOps (ops : List Op) : NavigationSystem := ops.foldl applyOp NavigationSystem.empty

/-- The calls of `main` that build the seed network. -/
def seedOps : List Op :=
  [Op.addLocation 0 "Central_Hub", Op.addLocation 1 "Airport", Op.addLocation 2 "West_End",
   Op.addLocation 3 "East_Gate", Op.addLocation 4 "South_Station",
   Op.addRoad 0 1 15, Op.addRoad 0 2 10, Op.addRoad 1 4 25, Op.addRoad 2 3 5,
   Op.addRoad 3 4 10, Op.addRoad 0 3 20]

/-- Whether a call is an `addRoad` between `a` and `b`, in either order. -/
def Op.joins (a b : Int) : Op → Bool
  | Op.addRoad u v _ => decide ((u = a ∧ v = b) ∨ (u = b ∧ v = a))
  | Op.addLocation _ _ => false
  | Op.updateTraffic _ _ _ => false

/-- The arguments of a call are ones a checking `add_road` would let through: positive
cost, two distinct registered ids, no entry yet from the first to the second. The other
two methods are not restricted. -/
def Op.accepted (nav : NavigationSystem) : Op → Prop
  | Op.addRoad u v d =>
    0 < d ∧ u ≠ v ∧ registered nav u = true ∧ registered nav v = true ∧
      ∀ e ∈ adjOf nav u, e.to_ ≠ v
  | Op.addLocation _ _ => True
  | Op.updateTraffic _ _ _ => True

instance (nav : NavigationSystem) : ∀ op : Op, Decidable (op.accepted nav)
  | Op.addRoad _ _ _ => by unfold Op.accepted; infer_instance
  | Op.addLocation _ _ => by unfold Op.accepted; infer_instance
  | Op.updateTraffic _ _ _ => by unfold Op.accepted; infer_instance

/-- Every call of the sequence is accepted in the store it is made on. -/
def acceptedRun : NavigationSystem → List Op → Prop
  | _, [] => True
  | nav, op :: ops => op.accepted nav ∧ acceptedRun (applyOp nav op) ops

instance : ∀ (ops : List Op) (nav : NavigationSystem), Decidable (acceptedRun nav ops)
  | [], _ => by unfold acceptedRun; infer_instance
  | op :: ops, nav => by
    unfold acceptedRun
    have := instDecidableAcceptedRun ops (applyOp nav op)
    infer_instance

/-! ## Vocabulary of the claims -/

/-- Every stored road has a positive base cost. -/
def PositiveCosts (nav : NavigationSystem) : Prop :=
  ∀ p ∈ nav.adj, ∀ e ∈ p.2, 0 < e.baseWeight

/-- Both endpoints of every stored road are keys of `cityNodes`. -/
def EndpointsRegistered (nav : NavigationSystem) : Prop :=
  ∀ p ∈ nav.adj, ∀ e ∈ p.2, registered nav p.1 = true ∧ registered nav e.to_ = true

instance (nav : NavigationSystem) : Decidable (PositiveCosts nav) := by
  unfold PositiveCosts; infer_instance

instance (nav : NavigationSystem) : Decidable (EndpointsRegistered nav) := by
  unfold EndpointsRegistered; infer_instance

/-- A walk over an adjacency function: `es` is a chain of edges leading from `u` to `v`. -/
def IsWalk (f : Int → List Edge) : Int → List Edge → Int → Prop
  | u, [], v => u = v
  | u, e :: es, v => e ∈ f u ∧ IsWalk f e.to_ es v

instance (f : Int → List Edge) : ∀ (es : List Edge) (u v : Int), Decidable (IsWalk f u es v)
  | [], u, v => by unfold IsWalk; infer_instance
  | e :: es, u, v => by
    unfold IsWalk
    have := instDecidableIsWalk f es e.to_ v
    infer_instance

/-- The total effective weight of a list of edges. -/
def walkWeight (es : List Edge) : ℚ := (es.map Edge.getEffectiveWeight).sum

/-- No edge of the list is `BLOCKED`. -/
def Unblocked (es : List Edge) : Prop := ∀ e ∈ es, e.status ≠ RoadStatus.BLOCKED

instance (es : List Edge) : Decidable (Unblocked es) := by
  unfold Unblocked; infer_instance

/-- The `(base cost, status)` pairs of the entries of `adj[a]` that point to `b`, in
stored order. -/
def roadView (nav : NavigationSystem) (a b : Int) : List (ℚ × RoadStatus) :=
  ((adjOf nav a).filter (fun e => decide (e.to_ = b))).map (fun e => (e.baseWeight, e.status))

/-- What `updateTraffic u v s` does to an entry `e` of `adj[x]`. -/
def retag (u v : Int) (s : RoadStatus) (x : Int) (e : Edge) : Edge :=
  if (x = u ∧ e.to_ = v) ∨ (x = v ∧ e.to_ = u) then { e with status := s } else e

/-- The number of adjacency entries of the store. -/
def totalEdges (nav : NavigationSystem) : Nat := (nav.adj.map (fun p => p.2.length)).sum

/-- Fuel that is enough for both loops of `findOptimizedPath`. -/
def fuelBound (nav : NavigationSystem) : Nat := totalEdges nav + 2

/-- The data-model invariants of the roads of a store, with the equality of the two
directional views that the induction needs. -/
structure EdgeInv (nav : NavigationSystem) : Prop where
  pos : PositiveCosts nav
  reg : EndpointsRegistered nav
  distinct : ∀ p ∈ nav.adj, ∀ e ∈ p.2, e.to_ ≠ p.1
  single : ∀ a b, (roadView nav a b).length ≤ 1
  sym : ∀ a b, roadView nav a b = roadView nav b a

/-- The keys of a map are strictly increasing, as in a `std::map`. -/
def keysSorted {α : Type} (m : List (Int × α)) : Prop :=
  List.Pairwise (fun p q => p.1 < q.1) m

/-- The entry `(k, v)` is the first one of the list whose key is not below `k`: the place
where `mapSet` writes. -/
def placed {α : Type} : List (Int × α) → Int → α → Prop
  | [], _, _ => False
  | (k', w) :: rest, k, v => (k' = k ∧ w = v) ∨ (k' < k ∧ placed rest k v)

/-! ## The loop with an explicit stale check -/

/-- The adjacency the search can use: ids that are neither `start` nor registered are
never pushed, so their edges are never relaxed. -/
def activeAdj (nav : NavigationSystem) (s : Int) (u : Int) : List Edge :=
  if u = s ∨ registered nav u = true then adjOf nav u else []

/-- Some unblocked walk from `s` to `v` over active ids has total weight `d`. -/
def HasWalk (nav : NavigationSystem) (s v : Int) (d : ℚ) : Prop :=
  ∃ es, IsWalk (activeAdj nav s) s es v ∧ Unblocked es ∧ walkWeight es = d

/-- No edge out of `u` can be relaxed any more. -/
def Closed (nav : NavigationSystem) (s : Int) (st : SearchState) (u : Int) : Prop :=
  ∀ e ∈ activeAdj nav s u, st.dist e.to_ ≤ st.dist u + e.getEffectiveWeight

/-- The value `dist[u]` is a lower bound of every walk from `s` to `u`. -/
def Final (nav : NavigationSystem) (s : Int) (st : SearchState) (u : Int) : Prop :=
  ∀ es, IsWalk (activeAdj nav s) s es u → st.dist u ≤ walkWeight es

/-- The part of the loop invariant that survives the `break`. -/
structure Core (nav : NavigationSystem) (s : Int) (st : SearchState) : Prop where
  nonneg : ∀ v, 0 ≤ st.dist v
  le_init : ∀ v, st.dist v ≤ (initState nav s).dist v
  attained : ∀ v, st.dist v = (initState nav s).dist v ∨ HasWalk nav s v (st.dist v)
  queued : ∀ x ∈ st.pq, HasWalk nav s x.2 (st.dist x.2) ∧ st.dist x.2 ≤ x.1 ∧
    (x.2 = s ∨ registered nav x.2 = true)
  tree : ∀ v u, st.parent v = some u → Final nav s st u ∧
    ∃ e ∈ activeAdj nav s u, e.to_ = v ∧ e.status ≠ RoadStatus.BLOCKED ∧
      st.dist v = st.dist u + e.getEffectiveWeight
  orphan : ∀ v, st.parent v = none → st.dist v = (initState nav s).dist v

/-- The loop invariant at the head of the `while` loop. -/
structure Inv (nav : NavigationSystem) (s : Int) (st : SearchState) : Prop where
  core : Core nav s st
  frontier : ∀ x, Closed nav s st x ∨ (st.dist x, x) ∈ st.pq

/-- The invariant inside the `for` loop over the edges of `u`. -/
structure Mid (nav : NavigationSystem) (s u : Int) (st : SearchState) : Prop where
  core : Core nav s st
  final : Final nav s st u
  walk : HasWalk nav s u (st.dist u)
  frontier : ∀ x, x ≠ u → Closed nav s st x ∨ (st.dist x, x) ∈ st.pq

/-- What one relaxation does to the state. -/
structure RelaxStep (nav : NavigationSystem) (s u : Int) (st st' : SearchState) : Prop where
  mid : Mid nav s u st'
  dist_self : st'.dist u = st.dist u
  dist_le : ∀ v, st'.dist v ≤ st.dist v
  dist_final : ∀ x, Final nav s st x → st'.dist x = st.dist x
  pq_len : st'.pq.length ≤ st.pq.length + 1

/-- What the `for` loop over a list of edges of `u` does to the state. -/
structure RelaxRun (nav : NavigationSystem) (s u : Int) (n : Nat) (st st' : SearchState) :
    Prop where
  mid : Mid nav s u st'
  dist_self : st'.dist u = st.dist u
  dist_le : ∀ v, st'.dist v ≤ st.dist v
  dist_final : ∀ x, Final nav s st x → st'.dist x = st.dist x
  pq_len : st'.pq.length ≤ st.pq.length + n

/-- The adjacency entries whose owner is not in `S` yet. -/
def remaining (adj : List (Int × List Edge)) (S : List Int) : Nat :=
  (adj.map (fun p => if p.1 ∈ S then 0 else p.2.length)).sum

/-- Every id some adjacency entry points to. -/
def targets (nav : NavigationSystem) : List Int :=
  (nav.adj.map (fun p => p.2.map Edge.to_)).flatten

/-- The values of the C++ type `double`: a finite value as the rational it denotes (the
two zeros are both `fin 0`), the two infinities, and not-a-number. -/
inductive Dbl where
  | fin (q : ℚ)
  | pinf
  | ninf
  | nan
deriving DecidableEq

/-- Rounding of a rational to an integer, to nearest, ties to even. -/
def roundHalfEven (y : ℚ) : ℤ :=
  if y - ⌊y⌋ < 1 / 2 then ⌊y⌋
  else if 1 / 2 < y - ⌊y⌋ then ⌊y⌋ + 1
  else if ⌊y⌋ % 2 = 0 then ⌊y⌋ else ⌊y⌋ + 1

/-- The number of halvings that take `n` below `2`, with `fuel` an upper bound of it. -/
def log2Aux : ℕ → ℕ → ℕ
  | 0, _ => 0
  | fuel + 1, n => if 2 ≤ n then log2Aux fuel (n / 2) + 1 else 0

/-- The binary exponent of a natural number `n ≥ 1`, the `k` with `2^k ≤ n < 2^(k+1)`. -/
def natLog2 (n : ℕ) : ℕ := log2Aux n n

/-- The binary exponent of a positive rational `x`, the `e` with `2^e ≤ x < 2^(e+1)`, found
from the binary exponents of numerator and denominator; `0` when `x ≤ 0`. -/
def floorLog2 (x : ℚ) : ℤ :=
  if x ≤ 0 then 0
  else if (2 : ℚ) ^ ((natLog2 x.num.natAbs : ℤ) - (natLog2 x.den : ℤ)) ≤ x then
    (natLog2 x.num.natAbs : ℤ) - (natLog2 x.den : ℤ)
  else (natLog2 x.num.natAbs : ℤ) - (natLog2 x.den : ℤ) - 1

/-- The exponent of the spacing of the doubles around `x`: 52 below the binary exponent of
`x`, and never below `-1074` (the subnormal range). -/
def quantumExp (x : ℚ) : ℤ := max (floorLog2 |x|) (-1022) - 52

/-- Rounding to 53 significant bits, to nearest, ties to even, with no upper bound on the
exponent. -/
def roundQ (x : ℚ) : ℚ := roundHalfEven (x / 2 ^ quantumExp x) * 2 ^ quantumExp x

/-- The double nearest to a real value (IEEE 754 round-to-nearest-even); overflow gives an
infinity. This is also how a decimal literal such as `1.8` becomes a double. -/
def Dbl.ofRat (x : ℚ) : Dbl :=
  if (2 : ℚ) ^ (1024 : ℤ) ≤ roundQ x then Dbl.pinf
  else if roundQ x ≤ -(2 : ℚ) ^ (1024 : ℤ) then Dbl.ninf
  else Dbl.fin (roundQ x)

/-- The sum of two doubles. -/
def Dbl.add : Dbl → Dbl → Dbl
  | Dbl.fin a, Dbl.fin b => Dbl.ofRat (a + b)
  | Dbl.nan, _ => Dbl.nan
  | _, Dbl.nan => Dbl.nan
  | Dbl.pinf, Dbl.ninf => Dbl.nan
  | Dbl.ninf, Dbl.pinf => Dbl.nan
  | Dbl.pinf, _ => Dbl.pinf
  | _, Dbl.pinf => Dbl.pinf
  | Dbl.ninf, _ => Dbl.ninf
  | _, Dbl.ninf => Dbl.ninf

/-- The sign rule for a product with an infinite factor: `a` stands for the sign of the
finite factor, `pos` says whether the infinite one is `+inf`. -/
def Dbl.infTimes (pos : Bool) (a : ℚ) : Dbl :=
  if a = 0 then Dbl.nan
  else if (0 < a) = pos then Dbl.pinf else Dbl.ninf

/-- The product of two doubles. -/
def Dbl.mul : Dbl → Dbl → Dbl
  | Dbl.fin a, Dbl.fin b => Dbl.ofRat (a * b)
  | Dbl.nan, _ => Dbl.nan
  | _, Dbl.nan => Dbl.nan
  | Dbl.pinf, Dbl.fin b => Dbl.infTimes true b
  | Dbl.ninf, Dbl.fin b => Dbl.infTimes false b
  | Dbl.fin a, Dbl.pinf => Dbl.infTimes true a
  | Dbl.fin a, Dbl.ninf => Dbl.infTimes false a
  | Dbl.pinf, Dbl.pinf => Dbl.pinf
  | Dbl.ninf, Dbl.ninf => Dbl.pinf
  | Dbl.pinf, Dbl.ninf => Dbl.ninf
  | Dbl.ninf, Dbl.pinf => Dbl.ninf

/-- The comparison `a < b` of two doubles; false when either is not-a-number. -/
def Dbl.lt : Dbl → Dbl → Bool
  | Dbl.fin a, Dbl.fin b => decide (a < b)
  | Dbl.fin _, Dbl.pinf => true
  | Dbl.ninf, Dbl.fin _ => true
  | Dbl.ninf, Dbl.pinf => true
  | _, _ => false

/-- The comparison `a >= b` of two doubles; false when either is not-a-number. -/
def Dbl.ge : Dbl → Dbl → Bool
  | Dbl.nan, _ => false
  | _, Dbl.nan => false
  | a, b => !(Dbl.lt a b)

/-! ## The route search in double arithmetic

The definitions of the section on the route search once more, with `Dbl` in the place of
`ℚ` and nothing else changed. The walk along the parent links computes with no double and
is shared (`walkBack`). -/

/-- The method `Edge::getEffectiveWeight` in double arithmetic: `baseWeight`, `1.8`, `3.5`
and `1e9` are doubles and each product is rounded. -/
def Edge.getEffectiveWeightD (e : Edge) : Dbl :=
  if e.status = RoadStatus.BLOCKED then Dbl.ofRat 1000000000
  else if e.status = RoadStatus.HEAVY then Dbl.mul (Dbl.ofRat e.baseWeight) (Dbl.ofRat (7 / 2))
  else if e.status = RoadStatus.MODERATE then
    Dbl.mul (Dbl.ofRat e.baseWeight) (Dbl.ofRat (9 / 5))
  else Dbl.ofRat e.baseWeight

/-- The comparison of `std::pair<double, int>`: `operator<` of `std::pair`. -/
def pairLtD (a b : Dbl × Int) : Bool :=
  Dbl.lt a.1 b.1 || (!(Dbl.lt b.1 a.1) && decide (a.2 < b.2))

/-- The value `pq.top()` of the min-queue over doubles. -/
def pqTopD : List (Dbl × Int) → Option (Dbl × Int)
  | [] => none
  | x :: xs => some (xs.foldl (fun m y => if pairLtD y m then y else m) x)

/-- The local variables `pq`, `dist`, `parent` of `findOptimizedPath`, with doubles. -/
structure SearchStateD where
  pq : List (Dbl × Int)
  dist : Int → Dbl
  parent : Int → Option Int

/-- The body of the `for` loop over `adj[u]` for one edge, in double arithmetic. -/
def relaxEdgeD (u : Int) (st : SearchStateD) (edge : Edge) : SearchStateD :=
  let weight := edge.getEffectiveWeightD
  if Dbl.lt (Dbl.add (st.dist u) weight) (st.dist edge.to_) = true then
    { pq := (Dbl.add (st.dist u) weight, edge.to_) :: st.pq
      dist := Function.update st.dist edge.to_ (Dbl.add (st.dist u) weight)
      parent := Function.update st.parent edge.to_ (some u) }
  else st

/-- The `for` loop over `adj[u]`, in double arithmetic. -/
def relaxAllD (u : Int) (st : SearchStateD) (edges : List Edge) : SearchStateD :=
  edges.foldl (relaxEdgeD u) st

/-- The loop `while (!pq.empty())` with its `break`, in double arithmetic. -/
def searchLoopD (nav : NavigationSystem) (finish : Int) :
    Nat → SearchStateD → Option SearchStateD
  | 0, _ => none
  | fuel + 1, st =>
    match pqTopD st.pq with
    | none => some st
    | some top =>
      let st1 : SearchStateD := { st with pq := st.pq.erase top }
      if top.2 = finish then some st1
      else searchLoopD nav finish fuel (relaxAllD top.2 st1 (adjOf nav top.2))

/-- The state before the search loop, with doubles. -/
def initStateD (nav : NavigationSystem) (start : Int) : SearchStateD :=
  { pq := [(Dbl.fin 0, start)]
    dist := fun v =>
      if v = start then Dbl.fin 0
      else if registered nav v then Dbl.ofRat 1000000000 else Dbl.fin 0
    parent := fun _ => none }

/-- What `findOptimizedPath` prints, the travel time being a double. -/
inductive RouteResultD where
  | NoPath
  | Route (path : List Int) (cost : Dbl)
deriving DecidableEq

/-- The method `findOptimizedPath` in double arithmetic. -/
def findOptimizedPathD (fuel : Nat) (nav : NavigationSystem) (start finish : Int) :
    Option RouteResultD :=
  match searchLoopD nav finish fuel (initStateD nav start) with
  | none => none
  | some st =>
    if Dbl.ge (st.dist finish) (Dbl.ofRat 1000000000) = true then some RouteResultD.NoPath
    else
      match walkBack st.parent fuel finish [] with
      | none => none
      | some path => some (RouteResultD.Route (path ++ [start]).reverse (st.dist finish))

/-- The cost of a chain of edges as the search accumulates it: from `0`, one rounded
addition of a rounded weight per edge, in path order. -/
def walkWeightD (es : List Edge) : Dbl :=
  es.foldl (fun acc e => Dbl.add acc e.getEffectiveWeightD) (Dbl.fin 0)

/-! ## Invariants of the search in double arithmetic

With positive base costs every double the search holds is non-negative or `+inf`. On
these, rounded addition does not decrease its first argument and is monotone in it, which
is what the invariant of the search needs; it may leave the first argument unchanged, so
the parent links are ordered by a rank and not by `dist`. -/

/-- The rational a double stands for in comparisons between non-negative doubles; `+inf`
is above every finite double. -/
def Dbl.val : Dbl → ℚ
  | Dbl.fin q => q
  | Dbl.pinf => 2 ^ (1024 : ℤ)
  | Dbl.ninf => -(2 ^ (1024 : ℤ))
  | Dbl.nan => 0

/-- A non-negative double: a rounded non-negative value below `2^1024`, or `+inf`. -/
def Dbl.NN : Dbl → Prop
  | Dbl.fin q => 0 ≤ q ∧ roundQ q = q ∧ q < 2 ^ (1024 : ℤ)
  | Dbl.pinf => True
  | Dbl.ninf => False
  | Dbl.nan => False

instance : DecidablePred Dbl.NN := fun a => by
  cases a <;> unfold Dbl.NN <;> infer_instance

/-- No edge out of `u` can be relaxed any more, in double arithmetic. -/
def ClosedD (nav : NavigationSystem) (st : SearchStateD) (u : Int) : Prop :=
  ∀ e ∈ adjOf nav u,
    (st.dist e.to_).val ≤ (Dbl.add (st.dist u) e.getEffectiveWeightD).val

/-- The value `dist[u]` is not above the accumulated cost of any walk from `s` to `u`. -/
def FinalD (nav : NavigationSystem) (s : Int) (st : SearchStateD) (u : Int) : Prop :=
  ∀ es, IsWalk (adjOf nav) s es u → (st.dist u).val ≤ (walkWeightD es).val

/-- The value `dist[v]` is the accumulated cost of some walk from `s` to `v`. -/
def AttainedD (nav : NavigationSystem) (s : Int) (st : SearchStateD) (v : Int) : Prop :=
  ∃ es, IsWalk (adjOf nav) s es v ∧ walkWeightD es = st.dist v

/-- The part of the loop invariant of the search over doubles that survives the `break`. -/
structure CoreD (nav : NavigationSystem) (s : Int) (st : SearchStateD) : Prop where
  nn : ∀ v, (st.dist v).NN
  start : st.dist s = Dbl.fin 0
  queued : ∀ x ∈ st.pq, x.1.NN ∧ (st.dist x.2).val ≤ x.1.val ∧ AttainedD nav s st x.2
  tree : ∀ v u, st.parent v = some u → FinalD nav s st u ∧ ∃ e ∈ adjOf nav u, e.to_ = v
  ranked : ∃ r : Int → ℕ, ∀ v u, st.parent v = some u → r u < r v

/-- The loop invariant at the head of the `while` loop over doubles. -/
structure InvD (nav : NavigationSystem) (s : Int) (st : SearchStateD) : Prop where
  core : CoreD nav s st
  frontier : ∀ x, ClosedD nav st x ∨ (st.dist x, x) ∈ st.pq

/-- The invariant inside the `for` loop over the edges of `u`, over doubles. -/
structure MidD (nav : NavigationSystem) (s u : Int) (st : SearchStateD) : Prop where
  core : CoreD nav s st
  final : FinalD nav s st u
  walk : AttainedD nav s st u
  frontier : ∀ x, x ≠ u → ClosedD nav st x ∨ (st.dist x, x) ∈ st.pq

/-- What the `for` loop over `n` edges of `u` does to the state, over doubles. -/
structure RelaxRunD (nav : NavigationSystem) (s u : Int) (n : Nat) (st st' : SearchStateD) :
    Prop where
  mid : MidD nav s u st'
  dist_self : st'.dist u = st.dist u
  dist_le : ∀ v, (st'.dist v).val ≤ (st.dist v).val
  dist_final : ∀ x, FinalD nav s st x → st'.dist x = st.dist x
  pq_len : st'.pq.length ≤ st.pq.length + n

/-! ## Supporting lemmas -/

/-! ### Maps -/

theorem mapFind_mem {α : Type} (m : List (Int × α)) (k : Int) (v : α)
    (h : mapFind m k = some v) : (k, v) ∈ m := by
  induction m with
  | nil => simp [mapFind] at h
  | cons p rest ih =>
    obtain ⟨k', v'⟩ := p
    simp only [mapFind] at h
    split at h
    · rename_i hk
      simp only [Option.some.injEq] at h
      subst hk; subst h
      exact List.mem_cons_self _ _
    · exact List.mem_cons_of_mem _ (ih h)

theorem mapFind_mapSet {α : Type} (m : List (Int × α)) (k : Int) (v : α) (j : Int) :
    mapFind (mapSet m k v) j = if j = k then some v else mapFind m j := by
  induction m with
  | nil => simp [mapSet, mapFind]
  | cons p rest ih =>
    obtain ⟨k', v'⟩ := p
    simp only [mapSet]
    split_ifs with h1 h2 h3 <;> simp_all [mapFind]

theorem adjOf_mem (nav : NavigationSystem) (u : Int) (e : Edge) (h : e ∈ adjOf nav u) :
    ∃ p ∈ nav.adj, p.1 = u ∧ e ∈ p.2 := by
  unfold adjOf at h
  cases hf : mapFind nav.adj u with
  | none => simp [hf] at h
  | some es =>
    rw [hf] at h
    exact ⟨(u, es), mapFind_mem _ _ _ hf, rfl, h⟩

/-! ### Weights -/

theorem INF_pos : (0 : ℚ) < INF := by unfold INF; norm_num

theorem getEffectiveWeight_pos (e : Edge) (h : 0 < e.baseWeight) : 0 < e.getEffectiveWeight := by
  unfold Edge.getEffectiveWeight
  split_ifs
  · exact INF_pos
  · positivity
  · positivity
  · exact h

theorem getEffectiveWeight_blocked (e : Edge) (h : e.status = RoadStatus.BLOCKED) :
    e.getEffectiveWeight = INF := by
  unfold Edge.getEffectiveWeight
  simp [h]

theorem walkWeight_nil : walkWeight [] = 0 := rfl

theorem walkWeight_append (es fs : List Edge) :
    walkWeight (es ++ fs) = walkWeight es + walkWeight fs := by
  simp [walkWeight]

theorem IsWalk.append {f : Int → List Edge} {es fs : List Edge} {u v w : Int}
    (h1 : IsWalk f u es v) (h2 : IsWalk f v fs w) : IsWalk f u (es ++ fs) w := by
  induction es generalizing u with
  | nil => simp only [IsWalk] at h1; subst h1; simpa using h2
  | cons e es ih => exact ⟨h1.1, ih h1.2⟩

theorem IsWalk.snoc {f : Int → List Edge} {es : List Edge} {u v : Int} {e : Edge}
    (h1 : IsWalk f u es v) (h2 : e ∈ f v) : IsWalk f u (es ++ [e]) e.to_ :=
  h1.append ⟨h2, rfl⟩

/-- Walks split at their last edge. -/
theorem IsWalk.of_snoc {f : Int → List Edge} {es : List Edge} {u v : Int} {e : Edge}
    (h : IsWalk f u (es ++ [e]) v) : ∃ x, IsWalk f u es x ∧ e ∈ f x ∧ e.to_ = v := by
  induction es generalizing u with
  | nil => exact ⟨u, rfl, h.1, h.2⟩
  | cons a es ih =>
    obtain ⟨x, hx1, hx2, hx3⟩ := ih h.2
    exact ⟨x, ⟨h.1, hx1⟩, hx2, hx3⟩

/-! ### The queue -/

theorem pqTop_fold (xs : List (ℚ × Int)) (x : ℚ × Int) :
    xs.foldl (fun m y => if pairLt y m then y else m) x ∈ x :: xs ∧
    ∀ y ∈ x :: xs, (xs.foldl (fun m y => if pairLt y m then y else m) x).1 ≤ y.1 := by
  induction xs generalizing x with
  | nil => simp
  | cons a xs ih =>
    simp only [List.foldl_cons]
    obtain ⟨h1, h2⟩ := ih (if pairLt a x then a else x)
    have hle : (if pairLt a x then a else x).1 ≤ a.1 ∧ (if pairLt a x then a else x).1 ≤ x.1 := by
      split_ifs with hp
      · refine ⟨le_refl _, ?_⟩
        simp only [pairLt, Bool.or_eq_true, decide_eq_true_eq, Bool.and_eq_true] at hp
        rcases hp with hp | hp
        · exact le_of_lt hp
        · exact le_of_eq hp.1
      · refine ⟨?_, le_refl _⟩
        simp only [pairLt, Bool.or_eq_true, decide_eq_true_eq, Bool.and_eq_true, not_or] at hp
        exact not_lt.mp hp.1
    constructor
    · rcases List.mem_cons.mp h1 with h | h
      · rw [h]; split_ifs <;> simp
      · exact List.mem_cons_of_mem _ (List.mem_cons_of_mem _ h)
    · intro y hy
      rcases List.mem_cons.mp hy with h | h
      · subst h; exact le_trans (h2 _ (List.mem_cons_self _ _)) hle.2
      · rcases List.mem_cons.mp h with h | h
        · subst h; exact le_trans (h2 _ (List.mem_cons_self _ _)) hle.1
        · exact h2 _ (List.mem_cons_of_mem _ h)

theorem pqTop_none {pq : List (ℚ × Int)} (h : pqTop pq = none) : pq = [] := by
  cases pq with
  | nil => rfl
  | cons x xs => simp [pqTop] at h

theorem pqTop_some {pq : List (ℚ × Int)} {top : ℚ × Int} (h : pqTop pq = some top) :
    top ∈ pq ∧ ∀ y ∈ pq, top.1 ≤ y.1 := by
  cases pq with
  | nil => simp [pqTop] at h
  | cons x xs =>
    simp only [pqTop, Option.some.injEq] at h
    subst h
    exact pqTop_fold xs x

theorem activeAdj_sub (nav : NavigationSystem) (s u : Int) (e : Edge)
    (h : e ∈ activeAdj nav s u) : e ∈ adjOf nav u := by
  unfold activeAdj at h
  split_ifs at h
  · exact h
  · simp at h

theorem activeAdj_pos {nav : NavigationSystem} (hpos : PositiveCosts nav) (s u : Int) (e : Edge)
    (h : e ∈ activeAdj nav s u) : 0 < e.getEffectiveWeight := by
  obtain ⟨p, hp, _, he⟩ := adjOf_mem nav u e (activeAdj_sub nav s u e h)
  exact getEffectiveWeight_pos e (hpos p hp e he)

theorem initDist_le_INF (nav : NavigationSystem) (s v : Int) : (initState nav s).dist v ≤ INF := by
  simp only [initState]
  split_ifs
  · exact le_of_lt INF_pos
  · exact le_refl _
  · exact le_of_lt INF_pos

theorem initDist_start (nav : NavigationSystem) (s : Int) : (initState nav s).dist s = 0 := by
  simp [initState]

theorem initDist_pos (nav : NavigationSystem) (s v : Int) (h : 0 < (initState nav s).dist v) :
    v ≠ s ∧ registered nav v = true := by
  simp only [initState] at h
  split_ifs at h with h1 h2
  · exact absurd h (lt_irrefl _)
  · exact ⟨h1, h2⟩
  · exact absurd h (lt_irrefl _)

theorem Core.dist_start {nav : NavigationSystem} {s : Int} {st : SearchState}
    (h : Core nav s st) : st.dist s = 0 :=
  le_antisymm (by simpa [initDist_start] using h.le_init s) (h.nonneg s)

/-- A value that is final cannot be lowered by a relaxation out of a node already reached. -/
theorem Final.not_relax {nav : NavigationSystem} {s u : Int} {st : SearchState} {e : Edge}
    (hw : HasWalk nav s u (st.dist u)) (he : e ∈ activeAdj nav s u)
    (hf : Final nav s st e.to_) : ¬ st.dist u + e.getEffectiveWeight < st.dist e.to_ := by
  obtain ⟨es, h1, _, h3⟩ := hw
  have := hf _ (h1.snoc he)
  rw [walkWeight_append, h3] at this
  simp only [walkWeight, List.map_cons, List.map_nil, List.sum_cons, List.sum_nil, add_zero] at this
  exact not_lt.mpr this

theorem relaxEdge_step {nav : NavigationSystem} (hpos : PositiveCosts nav) {s u : Int}
    {st : SearchState} (hm : Mid nav s u st) {e : Edge} (he : e ∈ activeAdj nav s u) :
    RelaxStep nav s u st (relaxEdge u st e) ∧
      (relaxEdge u st e).dist e.to_ ≤ st.dist u + e.getEffectiveWeight := by
  have hwpos := activeAdj_pos hpos s u e he
  by_cases hlt : st.dist u + e.getEffectiveWeight < st.dist e.to_
  · -- the relaxation succeeds
    have hne : e.to_ ≠ u := by
      intro h; rw [h] at hlt; linarith
    have hnb : e.status ≠ RoadStatus.BLOCKED := by
      intro hb
      rw [getEffectiveWeight_blocked e hb] at hlt
      have h1 := hm.core.nonneg u
      have h2 := le_trans (hm.core.le_init e.to_) (initDist_le_INF nav s e.to_)
      linarith
    have hnf : ¬ Final nav s st e.to_ := fun hf => Final.not_relax hm.walk he hf hlt
    have hst : relaxEdge u st e =
        { pq := (st.dist u + e.getEffectiveWeight, e.to_) :: st.pq
          dist := Function.update st.dist e.to_ (st.dist u + e.getEffectiveWeight)
          parent := Function.update st.parent e.to_ (some u) } := by
      simp [relaxEdge, hlt]
    have hd : ∀ v, (relaxEdge u st e).dist v =
        if v = e.to_ then st.dist u + e.getEffectiveWeight else st.dist v := by
      intro v; rw [hst]; simp [Function.update_apply]
    have hp : ∀ v, (relaxEdge u st e).parent v =
        if v = e.to_ then some u else st.parent v := by
      intro v; rw [hst]; simp [Function.update_apply]
    have hq : (relaxEdge u st e).pq = (st.dist u + e.getEffectiveWeight, e.to_) :: st.pq := by
      rw [hst]
    have hdu : (relaxEdge u st e).dist u = st.dist u := by
      rw [hd]; simp [Ne.symm hne]
    have hdle : ∀ v, (relaxEdge u st e).dist v ≤ st.dist v := by
      intro v; rw [hd]; split_ifs with h
      · rw [h]; exact le_of_lt hlt
      · exact le_refl _
    have hdf : ∀ x, Final nav s st x → (relaxEdge u st e).dist x = st.dist x := by
      intro x hx
      rw [hd]; split_ifs with h
      · exact absurd (h ▸ hx) hnf
      · rfl
    have hnew : HasWalk nav s e.to_ (st.dist u + e.getEffectiveWeight) := by
      obtain ⟨es, h1, h2, h3⟩ := hm.walk
      refine ⟨es ++ [e], h1.snoc he, ?_, ?_⟩
      · intro a ha
        rcases List.mem_append.mp ha with ha | ha
        · exact h2 a ha
        · simp only [List.mem_singleton] at ha; rw [ha]; exact hnb
      · rw [walkWeight_append, h3]; simp [walkWeight]
    have hfin : ∀ x, Final nav s st x → Final nav s (relaxEdge u st e) x := by
      intro x hx es hes
      rw [hdf x hx]; exact hx es hes
    refine ⟨⟨⟨⟨?_, ?_, ?_, ?_, ?_, ?_⟩, ?_, ?_, ?_⟩, hdu, hdle, hdf, ?_⟩, ?_⟩
    · intro v; rw [hd]; split_ifs
      · have := hm.core.nonneg u; linarith
      · exact hm.core.nonneg v
    · intro v; exact le_trans (hdle v) (hm.core.le_init v)
    · intro v
      by_cases h : v = e.to_
      · right; rw [hd, if_pos h, h]; exact hnew
      · rw [hd, if_neg h]; exact hm.core.attained v
    · intro x hx
      rw [hq] at hx
      rcases List.mem_cons.mp hx with hx | hx
      · subst hx
        refine ⟨?_, ?_, ?_⟩
        · simp only [hd, if_true]; exact hnew
        · simp only [hd, if_true]; exact le_refl _
        · right
          have h0 : 0 < (initState nav s).dist e.to_ := by
            have h1 := hm.core.nonneg u
            have h2 := hm.core.le_init e.to_
            linarith
          exact (initDist_pos nav s _ h0).2
      · obtain ⟨h1, h2, h3⟩ := hm.core.queued x hx
        refine ⟨?_, le_trans (hdle _) h2, h3⟩
        by_cases h : x.2 = e.to_
        · rw [hd, if_pos h, h]; exact hnew
        · rw [hd, if_neg h]; exact h1
    · intro v p hvp
      rw [hp] at hvp
      by_cases h : v = e.to_
      · rw [if_pos h] at hvp
        simp only [Option.some.injEq] at hvp
        subst hvp
        refine ⟨hfin _ hm.final, e, he, h.symm, hnb, ?_⟩
        rw [hdu, hd, if_pos h]
      · rw [if_neg h] at hvp
        obtain ⟨h1, a, ha1, ha2, ha3, ha4⟩ := hm.core.tree v p hvp
        refine ⟨hfin _ h1, a, ha1, ha2, ha3, ?_⟩
        rw [hdf p h1, hd, if_neg h]; exact ha4
    · intro v hv
      rw [hp] at hv
      by_cases h : v = e.to_
      · rw [if_pos h] at hv; exact absurd hv (by simp)
      · rw [if_neg h] at hv
        rw [hd, if_neg h]; exact hm.core.orphan v hv
    · exact hfin _ hm.final
    · rw [hdu]; exact hm.walk
    · intro x hx
      by_cases h : x = e.to_
      · right; rw [hq, hd, if_pos h, h]; exact List.mem_cons_self _ _
      · rcases hm.frontier x hx with hc | hc
        · left
          intro a ha
          rw [hd x, if_neg h]
          exact le_trans (hdle _) (hc a ha)
        · right; rw [hq, hd, if_neg h]; exact List.mem_cons_of_mem _ hc
    · rw [hq]; simp
    · rw [hd, if_pos rfl]
  · -- nothing changes
    have hst : relaxEdge u st e = st := by simp [relaxEdge, hlt]
    rw [hst]
    exact ⟨⟨hm, rfl, fun _ => le_refl _, fun _ _ => rfl, Nat.le_succ _⟩, not_lt.mp hlt⟩

theorem relaxAll_run {nav : NavigationSystem} (hpos : PositiveCosts nav) {s u : Int}
    (es : List Edge) (hes : ∀ e ∈ es, e ∈ activeAdj nav s u) :
    ∀ st : SearchState, Mid nav s u st →
      RelaxRun nav s u es.length st (relaxAll u st es) ∧
        ∀ e ∈ es, (relaxAll u st es).dist e.to_ ≤ st.dist u + e.getEffectiveWeight := by
  induction es with
  | nil =>
    intro st hm
    exact ⟨⟨hm, rfl, fun _ => le_refl _, fun _ _ => rfl, le_refl _⟩, by simp⟩
  | cons a es ih =>
    intro st hm
    have ha : a ∈ activeAdj nav s u := hes a (List.mem_cons_self _ _)
    obtain ⟨h1, h1a⟩ := relaxEdge_step hpos hm ha
    obtain ⟨h2, h2a⟩ := ih (fun e he => hes e (List.mem_cons_of_mem _ he)) (relaxEdge u st a) h1.mid
    have hfold : relaxAll u st (a :: es) = relaxAll u (relaxEdge u st a) es := rfl
    rw [hfold]
    refine ⟨⟨h2.mid, by rw [h2.dist_self, h1.dist_self],
      fun v => le_trans (h2.dist_le v) (h1.dist_le v), ?_, ?_⟩, ?_⟩
    · intro x hx
      have hx1 : Final nav s (relaxEdge u st a) x := by
        intro ws hws; rw [h1.dist_final x hx]; exact hx ws hws
      rw [h2.dist_final x hx1, h1.dist_final x hx]
    · have := h2.pq_len
      have := h1.pq_len
      simp only [List.length_cons]
      omega
    · intro e he
      rcases List.mem_cons.mp he with he | he
      · subst he; exact le_trans (h2.dist_le _) h1a
      · have := h2a e he
        rw [h1.dist_self] at this
        exact this

/-- The key used by the search is a lower bound: every walk from `s` either has been
accounted for in `dist`, or weighs at least as much as every queued key. -/
theorem Inv.walk_bound {nav : NavigationSystem} (hpos : PositiveCosts nav) {s : Int}
    {st : SearchState} (hinv : Inv nav s st) (m : ℚ) (hm : ∀ x ∈ st.pq, m ≤ x.1)
    (es : List Edge) :
    ∀ v, IsWalk (activeAdj nav s) s es v → st.dist v ≤ walkWeight es ∨ m ≤ walkWeight es := by
  induction es using List.reverseRecOn with
  | nil =>
    intro v hv
    left
    simp only [IsWalk] at hv
    subst hv
    rw [hinv.core.dist_start, walkWeight_nil]
  | append_singleton es e ih =>
    intro v hv
    obtain ⟨x, hx1, hx2, hx3⟩ := hv.of_snoc
    have hw := activeAdj_pos hpos s x e hx2
    have hww : walkWeight (es ++ [e]) = walkWeight es + e.getEffectiveWeight := by
      rw [walkWeight_append]; simp [walkWeight]
    rw [hww]
    rcases ih x hx1 with h | h
    · rcases hinv.frontier x with hc | hq
      · left
        have := hc e hx2
        rw [hx3] at this
        linarith
      · right
        have := hm _ hq
        simp only at this
        linarith
    · right; linarith

theorem Inv.final_of_top {nav : NavigationSystem} (hpos : PositiveCosts nav) {s : Int}
    {st : SearchState} (hinv : Inv nav s st) {top : ℚ × Int} (htop : pqTop st.pq = some top) :
    Final nav s st top.2 := by
  obtain ⟨hmem, hmin⟩ := pqTop_some htop
  intro es hes
  rcases hinv.walk_bound hpos top.1 hmin es top.2 hes with h | h
  · exact h
  · exact le_trans (hinv.core.queued top hmem).2.1 h

theorem Inv.final_of_empty {nav : NavigationSystem} (hpos : PositiveCosts nav) {s : Int}
    {st : SearchState} (hinv : Inv nav s st) (hq : st.pq = []) (v : Int) :
    Final nav s st v := by
  intro es hes
  rcases hinv.walk_bound hpos (walkWeight es + 1) (by simp [hq]) es v hes with h | h
  · exact h
  · linarith

theorem Core.erase {nav : NavigationSystem} {s : Int} {st : SearchState}
    (h : Core nav s st) (top : ℚ × Int) :
    Core nav s { st with pq := st.pq.erase top } :=
  ⟨h.nonneg, h.le_init, h.attained, fun x hx => h.queued x (List.mem_of_mem_erase hx),
    h.tree, h.orphan⟩

theorem Inv.pop {nav : NavigationSystem} (hpos : PositiveCosts nav) {s : Int}
    {st : SearchState} (hinv : Inv nav s st) {top : ℚ × Int} (htop : pqTop st.pq = some top) :
    Mid nav s top.2 { st with pq := st.pq.erase top } ∧
      activeAdj nav s top.2 = adjOf nav top.2 := by
  obtain ⟨hmem, _⟩ := pqTop_some htop
  obtain ⟨hw, _, hact⟩ := hinv.core.queued top hmem
  refine ⟨⟨hinv.core.erase top, hinv.final_of_top hpos htop, hw, ?_⟩, ?_⟩
  · intro x hx
    rcases hinv.frontier x with hc | hq
    · exact Or.inl hc
    · right
      have hne : (st.dist x, x) ≠ top := by
        intro h; apply hx; rw [← h]
      exact (List.mem_erase_of_ne hne).mpr hq
  · simp only [activeAdj]
    rw [if_pos hact]

/-- One full turn of the `while` loop keeps the invariant. -/
theorem Inv.turn {nav : NavigationSystem} (hpos : PositiveCosts nav) {s : Int}
    {st : SearchState} (hinv : Inv nav s st) {top : ℚ × Int} (htop : pqTop st.pq = some top) :
    Inv nav s (relaxAll top.2 { st with pq := st.pq.erase top } (adjOf nav top.2)) ∧
    RelaxRun nav s top.2 (adjOf nav top.2).length { st with pq := st.pq.erase top }
      (relaxAll top.2 { st with pq := st.pq.erase top } (adjOf nav top.2)) := by
  obtain ⟨hmid, hadj⟩ := hinv.pop hpos htop
  obtain ⟨hrun, hcl⟩ := relaxAll_run hpos (adjOf nav top.2)
    (fun e he => by rw [hadj]; exact he) _ hmid
  refine ⟨⟨hrun.mid.core, ?_⟩, hrun⟩
  intro x
  by_cases hx : x = top.2
  · left
    subst hx
    intro e he
    rw [hadj] at he
    have := hcl e he
    rw [hrun.dist_self]
    exact this
  · exact hrun.mid.frontier x hx

theorem initState_inv (nav : NavigationSystem) (hpos : PositiveCosts nav) (s : Int) :
    Inv nav s (initState nav s) := by
  have hs : HasWalk nav s s ((initState nav s).dist s) :=
    ⟨[], rfl, by simp [Unblocked], by rw [initDist_start]; rfl⟩
  refine ⟨⟨?_, fun _ => le_refl _, fun _ => Or.inl rfl, ?_, ?_, fun _ _ => rfl⟩, ?_⟩
  · intro v
    simp only [initState]
    split_ifs
    · exact le_refl _
    · exact le_of_lt INF_pos
    · exact le_refl _
  · intro x hx
    have : x = (0, s) := by simpa [initState] using hx
    subst this
    exact ⟨hs, by simp [initState], Or.inl rfl⟩
  · intro v u h
    simp [initState] at h
  · intro x
    by_cases hx : x = s
    · right; subst hx; simp [initState]
    · left
      intro e he
      have hw := activeAdj_pos hpos s x e he
      have hreg : registered nav x = true := by
        simp only [activeAdj] at he
        split_ifs at he with h
        · rcases h with h | h
          · exact absurd h hx
          · exact h
        · simp at he
      have h1 : (initState nav s).dist x = INF := by simp [initState, hx, hreg]
      have h2 := initDist_le_INF nav s e.to_
      rw [h1]; linarith

/-- Partial correctness of the search loop. -/
theorem searchLoop_post {nav : NavigationSystem} (hpos : PositiveCosts nav) {s t : Int} :
    ∀ (fuel : Nat) (st st' : SearchState), Inv nav s st →
      searchLoop nav t fuel st = some st' → Core nav s st' ∧ Final nav s st' t := by
  intro fuel
  induction fuel with
  | zero => intro st st' _ h; simp [searchLoop] at h
  | succ n ih =>
    intro st st' hinv h
    simp only [searchLoop] at h
    cases htop : pqTop st.pq with
    | none =>
      rw [htop] at h
      simp only [Option.some.injEq] at h
      subst h
      exact ⟨hinv.core, hinv.final_of_empty hpos (pqTop_none htop) t⟩
    | some top =>
      rw [htop] at h
      simp only at h
      split_ifs at h with hu
      · simp only [Option.some.injEq] at h
        subst h
        refine ⟨hinv.core.erase top, ?_⟩
        have := hinv.final_of_top hpos htop
        rw [hu] at this
        exact this
      · exact ih _ _ (hinv.turn hpos htop).1 h

theorem remaining_nil (nav : NavigationSystem) : remaining nav.adj [] = totalEdges nav := by
  simp [remaining, totalEdges]

theorem remaining_cons_le (adj : List (Int × List Edge)) (u : Int) (S : List Int) :
    remaining adj (u :: S) ≤ remaining adj S := by
  induction adj with
  | nil => simp [remaining]
  | cons p rest ih =>
    simp only [remaining, List.map_cons, List.sum_cons] at ih ⊢
    have : (if p.1 ∈ u :: S then 0 else p.2.length) ≤ (if p.1 ∈ S then 0 else p.2.length) := by
      by_cases h : p.1 ∈ S
      · simp [h]
      · simp only [h, if_false]; split_ifs <;> omega
    omega

theorem remaining_settle (adj : List (Int × List Edge)) (u : Int) (es : List Edge)
    (S : List Int) (hmem : (u, es) ∈ adj) (hu : u ∉ S) :
    remaining adj (u :: S) + es.length ≤ remaining adj S := by
  induction adj with
  | nil => simp at hmem
  | cons p rest ih =>
    rcases List.mem_cons.mp hmem with h | h
    · subst h
      have := remaining_cons_le rest u S
      simp only [remaining, List.map_cons, List.sum_cons] at this ⊢
      rw [if_pos (List.mem_cons_self _ _), if_neg hu]
      omega
    · have := ih h
      simp only [remaining, List.map_cons, List.sum_cons] at this ⊢
      have : (if p.1 ∈ u :: S then 0 else p.2.length) ≤ (if p.1 ∈ S then 0 else p.2.length) := by
        by_cases h : p.1 ∈ S
        · simp [h]
        · simp only [h, if_false]; split_ifs <;> omega
      omega

theorem adjOf_entry (nav : NavigationSystem) (u : Int) (h : adjOf nav u ≠ []) :
    (u, adjOf nav u) ∈ nav.adj := by
  unfold adjOf at h ⊢
  cases hf : mapFind nav.adj u with
  | none => simp [hf] at h
  | some es => simpa using mapFind_mem _ _ _ hf

theorem adjOf_target (nav : NavigationSystem) (u : Int) (e : Edge) (h : e ∈ adjOf nav u) :
    e.to_ ∈ targets nav := by
  obtain ⟨p, hp, _, he⟩ := adjOf_mem nav u e h
  simp only [targets, List.mem_flatten, List.mem_map]
  exact ⟨p.2.map Edge.to_, ⟨p, hp, rfl⟩, List.mem_map.mpr ⟨e, he, rfl⟩⟩

theorem targets_length (nav : NavigationSystem) : (targets nav).length = totalEdges nav := by
  simp only [targets, totalEdges, List.length_flatten, List.map_map]
  congr 1
  apply List.map_congr_left
  intro p _
  simp

theorem targets_card_le (nav : NavigationSystem) (P : Int → Prop) [DecidablePred P] :
    (((targets nav).toFinset).filter P).card + 2 ≤ fuelBound nav := by
  have h1 := Finset.card_filter_le (targets nav).toFinset P
  have h2 := List.toFinset_card_le (targets nav)
  rw [targets_length] at h2
  unfold fuelBound
  omega

/-! ### Fuel -/

theorem searchLoop_succ (nav : NavigationSystem) (t : Int) :
    ∀ (n : Nat) (st r : SearchState), searchLoop nav t n st = some r →
      searchLoop nav t (n + 1) st = some r := by
  intro n
  induction n with
  | zero => intro st r h; simp [searchLoop] at h
  | succ n ih =>
    intro st r h
    rw [searchLoop] at h ⊢
    cases htop : pqTop st.pq with
    | none => rw [htop] at h; exact h
    | some top =>
      rw [htop] at h
      simp only at h ⊢
      split_ifs at h ⊢ with hu
      · exact h
      · exact ih _ _ h

theorem searchLoop_mono (nav : NavigationSystem) (t : Int) {n m : Nat} (hnm : n ≤ m)
    (st r : SearchState) (h : searchLoop nav t n st = some r) :
    searchLoop nav t m st = some r := by
  induction hnm with
  | refl => exact h
  | step _ ih => exact searchLoop_succ nav t _ st r ih

theorem walkBack_succ (parent : Int → Option Int) :
    ∀ (n : Nat) (curr : Int) (path r : List Int), walkBack parent n curr path = some r →
      walkBack parent (n + 1) curr path = some r := by
  intro n
  induction n with
  | zero => intro curr path r h; simp [walkBack] at h
  | succ n ih =>
    intro curr path r h
    rw [walkBack] at h ⊢
    cases hp : parent curr with
    | none => rw [hp] at h; exact h
    | some p =>
      rw [hp] at h
      simp only at h ⊢
      exact ih _ _ _ h

theorem walkBack_mono (parent : Int → Option Int) {n m : Nat} (hnm : n ≤ m)
    (curr : Int) (path r : List Int) (h : walkBack parent n curr path = some r) :
    walkBack parent m curr path = some r := by
  induction hnm with
  | refl => exact h
  | step _ ih => exact walkBack_succ parent _ curr path r ih

/-- A result obtained with some fuel is the result with any larger fuel. -/
theorem findOptimizedPath_mono (nav : NavigationSystem) (s t : Int) {n m : Nat} (hnm : n ≤ m)
    (r : RouteResult) (h : findOptimizedPath n nav s t = some r) :
    findOptimizedPath m nav s t = some r := by
  unfold findOptimizedPath at h ⊢
  cases hl : searchLoop nav t n (initState nav s) with
  | none => rw [hl] at h; simp at h
  | some st =>
    rw [hl] at h
    rw [searchLoop_mono nav t hnm _ _ hl]
    simp only at h ⊢
    split_ifs at h ⊢ with hd
    · exact h
    · cases hw : walkBack st.parent n t [] with
      | none => rw [hw] at h; simp at h
      | some path =>
        rw [hw] at h
        rw [walkBack_mono st.parent hnm _ _ _ hw]
        exact h

/-! ### What a call computes -/

theorem IsWalk.split {f : Int → List Edge} {as bs : List Edge} {e : Edge} {u v : Int}
    (h : IsWalk f u (as ++ e :: bs) v) :
    ∃ x, IsWalk f u as x ∧ e ∈ f x ∧ IsWalk f e.to_ bs v := by
  induction as generalizing u with
  | nil => exact ⟨u, rfl, h.1, h.2⟩
  | cons a as ih =>
    obtain ⟨x, hx1, hx2, hx3⟩ := ih h.2
    exact ⟨x, ⟨h.1, hx1⟩, hx2, hx3⟩

/-- The end of a walk is determined by its start and its edges. -/
theorem IsWalk.end_unique {f : Int → List Edge} {es : List Edge} {u v w : Int}
    (h1 : IsWalk f u es v) (h2 : IsWalk f u es w) : v = w := by
  induction es generalizing u with
  | nil => simp only [IsWalk] at h1 h2; rw [← h1, ← h2]
  | cons e es ih => exact ih h1.2 h2.2

/-- C7 (route to oneself): for every store and every id `s`, registered or not, and any
positive fuel, `findOptimizedPath` from `s` to `s` reports the path `[s]` with cost `0`. -/
theorem find_route_self (nav : NavigationSystem) (s : Int) (fuel : Nat) :
    findOptimizedPath (fuel + 1) nav s s = some (RouteResult.Route [s] 0) := by
  have h : ¬ INF ≤ 0 := not_le.mpr INF_pos
  simp [findOptimizedPath, searchLoop, initState, pqTop, walkBack, h]

/-- C8, as stated, fails: `7` is not registered in the seed network, yet a query to it
reports a route and a query from it reports `NoPath`; there is no failure outcome. -/
theorem find_route_unregistered_answers :
    registered seed 7 = false ∧
    findOptimizedPath 50 seed 0 7 = some (RouteResult.Route [0] 0) ∧
    findOptimizedPath 50 seed 7 0 = some RouteResult.NoPath :=
  ⟨by decide!, by decide!, by decide!⟩

/-- C8, amended: the search makes no registration check. In a store whose roads have
registered endpoints, a query from an unregistered `s` to a registered `t` finishes with
any fuel from `2` on and reports `NoPath`. -/
theorem find_route_unregistered_source (nav : NavigationSystem) (s t : Int) (fuel : Nat)
    (hreg : EndpointsRegistered nav)
    (hs : registered nav s = false) (ht : registered nav t = true) (hfuel : 2 ≤ fuel) :
    findOptimizedPath fuel nav s t = some RouteResult.NoPath := by
  have hne : s ≠ t := by
    intro h; rw [h, ht] at hs; exact absurd hs (by simp)
  have hadj : adjOf nav s = [] := by
    cases hl : adjOf nav s with
    | nil => rfl
    | cons e es =>
      exfalso
      obtain ⟨p, hp, hps, hep⟩ := adjOf_mem nav s e (by rw [hl]; exact List.mem_cons_self _ _)
      have := (hreg p hp e hep).1
      rw [hps, hs] at this
      exact absurd this (by simp)
  obtain ⟨n, rfl⟩ : ∃ n, fuel = n + 2 := ⟨fuel - 2, by omega⟩
  have hloop : searchLoop nav t (n + 2) (initState nav s) =
      some { initState nav s with pq := [] } := by
    have htop : pqTop (initState nav s).pq = some (0, s) := rfl
    rw [searchLoop, htop]
    simp only [if_neg hne, hadj, relaxAll, List.foldl_nil]
    have herase : (initState nav s).pq.erase (0, s) = [] := by simp [initState]
    rw [herase, searchLoop]
    rfl
  have hd : (initState nav s).dist t = INF := by
    simp [initState, Ne.symm hne, ht]
  unfold findOptimizedPath
  rw [hloop]
  simp only [hd]
  simp

theorem find_route_unregistered_source_witness :
    EndpointsRegistered seed ∧ registered seed 7 = false ∧ registered seed 0 = true ∧
    2 ≤ 50 ∧ findOptimizedPath 50 seed 7 0 = some RouteResult.NoPath :=
  ⟨by decide!, by decide!, by decide!, by decide,
    find_route_unregistered_source seed 7 0 50 (by decide!) (by decide!) (by decide!)
      (by decide)⟩

theorem mem_mapSet {α : Type} (m : List (Int × α)) (k : Int) (v : α) (p : Int × α)
    (h : p ∈ mapSet m k v) : p ∈ m ∨ p = (k, v) := by
  induction m with
  | nil => right; simpa [mapSet] using h
  | cons q rest ih =>
    obtain ⟨k', v'⟩ := q
    simp only [mapSet] at h
    split_ifs at h with h1 h2
    · rcases List.mem_cons.mp h with h | h
      · exact Or.inr h
      · exact Or.inl h
    · rcases List.mem_cons.mp h with h | h
      · exact Or.inr h
      · exact Or.inl (List.mem_cons_of_mem _ h)
    · rcases List.mem_cons.mp h with h | h
      · exact Or.inl (h ▸ List.mem_cons_self _ _)
      · rcases ih h with h | h
        · exact Or.inl (List.mem_cons_of_mem _ h)
        · exact Or.inr h

theorem mapFind_setStatus (adj : List (Int × List Edge)) (u v : Int) (s : RoadStatus)
    (x : Int) :
    (mapFind (setStatus adj u v s) x).getD [] =
      ((mapFind adj x).getD []).map
        (fun e => if x = u ∧ e.to_ = v then { e with status := s } else e) := by
  unfold setStatus
  rw [mapFind_mapSet]
  by_cases h : x = u
  · subst h; simp
  · simp [h]

theorem adjOf_updateTraffic (nav : NavigationSystem) (u v : Int) (s : RoadStatus) (x : Int) :
    adjOf (updateTraffic nav u v s) x = (adjOf nav x).map (retag u v s x) := by
  unfold adjOf updateTraffic
  simp only
  rw [mapFind_setStatus, mapFind_setStatus, List.map_map]
  apply List.map_congr_left
  intro e _
  obtain ⟨t0, b0, s0⟩ := e
  simp only [Function.comp, retag]
  by_cases hxu : x = u <;> by_cases hxv : x = v <;> by_cases htv : t0 = v <;>
    by_cases htu : t0 = u <;> simp [hxu, hxv, htv, htu] <;> simp_all

theorem registered_updateTraffic (nav : NavigationSystem) (u v : Int) (s : RoadStatus)
    (x : Int) : registered (updateTraffic nav u v s) x = registered nav x := rfl

/-- Every entry stored after `setStatus` comes from an entry stored before, with the same
owner, target and base cost. -/
theorem setStatus_entries (adj : List (Int × List Edge)) (u v : Int) (s : RoadStatus)
    (p : Int × List Edge) (hp : p ∈ setStatus adj u v s) (e : Edge) (he : e ∈ p.2) :
    ∃ q ∈ adj, ∃ a ∈ q.2, q.1 = p.1 ∧ a.to_ = e.to_ ∧ a.baseWeight = e.baseWeight := by
  rcases mem_mapSet _ _ _ _ hp with h | h
  · exact ⟨p, h, e, he, rfl, rfl, rfl⟩
  · subst h
    simp only [List.mem_map] at he
    obtain ⟨a, ha, rfl⟩ := he
    cases hf : mapFind adj u with
    | none => simp [hf] at ha
    | some es =>
      rw [hf] at ha
      refine ⟨(u, es), mapFind_mem _ _ _ hf, a, ha, rfl, ?_, ?_⟩ <;> split_ifs <;> rfl

theorem updateTraffic_entries (nav : NavigationSystem) (u v : Int) (s : RoadStatus)
    (p : Int × List Edge) (hp : p ∈ (updateTraffic nav u v s).adj) (e : Edge) (he : e ∈ p.2) :
    ∃ q ∈ nav.adj, ∃ a ∈ q.2, q.1 = p.1 ∧ a.to_ = e.to_ ∧ a.baseWeight = e.baseWeight := by
  obtain ⟨q, hq, a, ha, h1, h2, h3⟩ := setStatus_entries _ _ _ _ p hp e he
  obtain ⟨q', hq', a', ha', h1', h2', h3'⟩ := setStatus_entries _ _ _ _ q hq a ha
  exact ⟨q', hq', a', ha', h1'.trans h1, h2'.trans h2, h3'.trans h3⟩

theorem positiveCosts_updateTraffic {nav : NavigationSystem} (h : PositiveCosts nav)
    (u v : Int) (s : RoadStatus) : PositiveCosts (updateTraffic nav u v s) := by
  intro p hp e he
  obtain ⟨q, hq, a, ha, _, _, h3⟩ := updateTraffic_entries nav u v s p hp e he
  rw [← h3]
  exact h q hq a ha

theorem endpointsRegistered_updateTraffic {nav : NavigationSystem}
    (h : EndpointsRegistered nav) (u v : Int) (s : RoadStatus) :
    EndpointsRegistered (updateTraffic nav u v s) := by
  intro p hp e he
  obtain ⟨q, hq, a, ha, h1, h2, _⟩ := updateTraffic_entries nav u v s p hp e he
  rw [registered_updateTraffic, registered_updateTraffic, ← h1, ← h2]
  exact h q hq a ha

theorem mapFind_pushEdge (adj : List (Int × List Edge)) (u : Int) (e : Edge) (x : Int) :
    (mapFind (pushEdge adj u e) x).getD [] =
      (mapFind adj x).getD [] ++ (if x = u then [e] else []) := by
  unfold pushEdge
  rw [mapFind_mapSet]
  by_cases h : x = u
  · subst h; simp
  · simp [h]

theorem adjOf_addRoad (nav : NavigationSystem) (u v : Int) (d : ℚ) (x : Int) :
    adjOf (addRoad nav u v d) x =
      adjOf nav x ++ (if x = u then [⟨v, d, RoadStatus.CLEAR⟩] else []) ++
        (if x = v then [⟨u, d, RoadStatus.CLEAR⟩] else []) := by
  unfold adjOf addRoad
  simp only
  rw [mapFind_pushEdge, mapFind_pushEdge]

theorem adjOf_addLocation (nav : NavigationSystem) (id : Int) (name : String) (x : Int) :
    adjOf (addLocation nav id name) x = adjOf nav x := rfl

theorem roadView_addRoad (nav : NavigationSystem) (u v : Int) (d : ℚ) (a b : Int) :
    roadView (addRoad nav u v d) a b =
      roadView nav a b ++ (if a = u ∧ b = v then [(d, RoadStatus.CLEAR)] else []) ++
        (if a = v ∧ b = u then [(d, RoadStatus.CLEAR)] else []) := by
  unfold roadView
  rw [adjOf_addRoad]
  simp only [List.filter_append, List.map_append]
  congr 1
  · congr 1
    by_cases h1 : a = u <;> by_cases h2 : b = v <;> simp [h1, h2, List.filter_cons, eq_comm]
  · by_cases h1 : a = v <;> by_cases h2 : b = u <;> simp [h1, h2, List.filter_cons, eq_comm]

theorem roadView_retag (u v : Int) (s : RoadStatus) (a b : Int) (es : List Edge) :
    ((es.map (retag u v s a)).filter (fun e => decide (e.to_ = b))).map
        (fun e => (e.baseWeight, e.status)) =
      if (a = u ∧ b = v) ∨ (a = v ∧ b = u) then
        ((es.filter (fun e => decide (e.to_ = b))).map (fun e => (e.baseWeight, e.status))).map
          (fun q => (q.1, s))
      else (es.filter (fun e => decide (e.to_ = b))).map (fun e => (e.baseWeight, e.status)) := by
  induction es with
  | nil => simp
  | cons e es ih =>
    have hto : (retag u v s a e).to_ = e.to_ := by unfold retag; split_ifs <;> rfl
    simp only [List.map_cons, List.filter_cons, hto]
    by_cases hb : e.to_ = b
    · simp only [hb, decide_True, if_true, List.map_cons, ih]
      by_cases hc : (a = u ∧ b = v) ∨ (a = v ∧ b = u)
      · have : retag u v s a e = { e with status := s } := by
          unfold retag; rw [hb, if_pos hc]
        simp [hc, this]
      · have : retag u v s a e = e := by
          unfold retag; rw [hb, if_neg hc]
        simp [hc, this]
    · have hd : decide (e.to_ = b) = false := by simp [hb]
      simp only [hd, Bool.false_eq_true, if_false]
      exact ih

theorem roadView_updateTraffic (nav : NavigationSystem) (u v : Int) (s : RoadStatus)
    (a b : Int) :
    roadView (updateTraffic nav u v s) a b =
      if (a = u ∧ b = v) ∨ (a = v ∧ b = u) then (roadView nav a b).map (fun q => (q.1, s))
      else roadView nav a b := by
  unfold roadView
  rw [adjOf_updateTraffic]
  exact roadView_retag u v s a b (adjOf nav a)

/-- Each of the three methods keeps the two directional views of every pair equal. -/
theorem roadView_applyOp (nav : NavigationSystem) (op : Op)
    (h : ∀ a b, roadView nav a b = roadView nav b a) :
    ∀ a b, roadView (applyOp nav op) a b = roadView (applyOp nav op) b a := by
  intro a b
  cases op with
  | addLocation id name => exact h a b
  | addRoad u v d =>
    simp only [applyOp]
    rw [roadView_addRoad, roadView_addRoad, h a b]
    have e1 : (b = u ∧ a = v) ↔ (a = v ∧ b = u) := and_comm
    have e2 : (b = v ∧ a = u) ↔ (a = u ∧ b = v) := and_comm
    simp only [e1, e2]
    split_ifs <;> simp
  | updateTraffic u v s =>
    simp only [applyOp]
    rw [roadView_updateTraffic, roadView_updateTraffic, h a b]
    have : ((a = u ∧ b = v) ∨ (a = v ∧ b = u)) ↔ ((b = u ∧ a = v) ∨ (b = v ∧ a = u)) := by
      constructor <;> rintro (⟨h1, h2⟩ | ⟨h1, h2⟩)
      · exact Or.inr ⟨h2, h1⟩
      · exact Or.inl ⟨h2, h1⟩
      · exact Or.inr ⟨h2, h1⟩
      · exact Or.inl ⟨h2, h1⟩
    simp only [this]

theorem roadView_foldl (ops : List Op) :
    ∀ nav : NavigationSystem, (∀ a b, roadView nav a b = roadView nav b a) →
      ∀ a b, roadView (ops.foldl applyOp nav) a b = roadView (ops.foldl applyOp nav) b a := by
  induction ops with
  | nil => intro nav h; exact h
  | cons op ops ih => intro nav h; exact ih _ (roadView_applyOp nav op h)

/-- C10 (undirected view): in every store reached from the empty one by calls of
`addLocation`, `addRoad` and `updateTraffic`, for all ids `a` and `b` the list of
`(base cost, status)` of the entries of `adj[a]` pointing to `b` equals the list of the
entries of `adj[b]` pointing to `a`. -/
theorem undirected_view (ops : List Op) (a b : Int) :
    roadView (runOps ops) a b = roadView (runOps ops) b a := by
  unfold runOps
  apply roadView_foldl
  intro x y
  rfl

/-! ### Writing twice -/

theorem placed_mapSet {α : Type} (m : List (Int × α)) (k : Int) (v : α) :
    placed (mapSet m k v) k v := by
  induction m with
  | nil => simp [mapSet, placed]
  | cons p rest ih =>
    obtain ⟨k', w⟩ := p
    simp only [mapSet]
    split_ifs with h1 h2
    · simp [placed]
    · simp [placed]
    · right
      exact ⟨lt_of_le_of_ne (not_lt.mp h1) (Ne.symm h2), ih⟩

theorem mapSet_placed {α : Type} (m : List (Int × α)) (k : Int) (v : α)
    (h : placed m k v) : mapSet m k v = m := by
  induction m with
  | nil => simp [placed] at h
  | cons p rest ih =>
    obtain ⟨k', w⟩ := p
    simp only [placed] at h
    rcases h with ⟨h1, h2⟩ | ⟨h1, h2⟩
    · subst h1; subst h2
      simp [mapSet]
    · have hn : ¬ k < k' := not_lt.mpr (le_of_lt h1)
      have hne : k ≠ k' := ne_of_gt h1
      simp [mapSet, hn, hne, ih h2]

theorem mapFind_placed {α : Type} (m : List (Int × α)) (k : Int) (v : α)
    (h : placed m k v) : mapFind m k = some v := by
  induction m with
  | nil => simp [placed] at h
  | cons p rest ih =>
    obtain ⟨k', w⟩ := p
    simp only [placed] at h
    rcases h with ⟨h1, h2⟩ | ⟨h1, h2⟩
    · subst h1; subst h2
      simp [mapFind]
    · have hne : k ≠ k' := ne_of_gt h1
      simp [mapFind, hne, ih h2]

theorem placed_mapSet_other {α : Type} (m : List (Int × α)) (k j : Int) (v w : α)
    (hjk : j ≠ k) (h : placed m k v) : placed (mapSet m j w) k v := by
  induction m with
  | nil => simp [placed] at h
  | cons p rest ih =>
    obtain ⟨k', x⟩ := p
    simp only [placed] at h
    simp only [mapSet]
    split_ifs with h1 h2
    · right
      refine ⟨?_, by simpa [placed] using h⟩
      rcases h with ⟨h3, _⟩ | ⟨h3, _⟩
      · rw [← h3]; exact h1
      · exact lt_trans h1 h3
    · rcases h with ⟨h3, _⟩ | ⟨h3, h4⟩
      · exact absurd (h2.trans h3) hjk
      · right; exact ⟨by rw [h2]; exact h3, h4⟩
    · rcases h with ⟨h3, h4⟩ | ⟨h3, h4⟩
      · left; exact ⟨h3, h4⟩
      · right; exact ⟨h3, ih h4⟩

theorem retagMap_idem (v : Int) (s : RoadStatus) (es : List Edge) :
    (es.map (fun e => if e.to_ = v then { e with status := s } else e)).map
        (fun e => if e.to_ = v then { e with status := s } else e) =
      es.map (fun e => if e.to_ = v then { e with status := s } else e) := by
  rw [List.map_map]
  apply List.map_congr_left
  intro e _
  simp only [Function.comp]
  split_ifs <;> simp_all

theorem setStatus_placed (adj : List (Int × List Edge)) (u v : Int) (s : RoadStatus) :
    placed (setStatus adj u v s) u
      (((mapFind adj u).getD []).map (fun e => if e.to_ = v then { e with status := s } else e)) :=
  placed_mapSet _ _ _

/-- Writing a status again where it was just written changes nothing. -/
theorem setStatus_fix (m : List (Int × List Edge)) (u v : Int) (s : RoadStatus)
    (es : List Edge)
    (h : placed m u (es.map (fun e => if e.to_ = v then { e with status := s } else e))) :
    setStatus m u v s = m := by
  unfold setStatus
  rw [mapFind_placed m u _ h]
  simp only [Option.getD_some]
  rw [retagMap_idem]
  exact mapSet_placed m u _ h

/-! ## The claims about the store -/

/-- C11 (effect of `updateTraffic`): after `updateTraffic a b s` every entry of `adj[a]`
pointing to `b` and of `adj[b]` pointing to `a` has status `s`; the labels are untouched;
every adjacency list keeps its entries' targets and base costs in place, and the status of
every entry that is not between `a` and `b`; when no entry joins `a` and `b`, every
adjacency list reads as before. -/
theorem update_status_effect (nav : NavigationSystem) (a b : Int) (s : RoadStatus) :
    (∀ e ∈ adjOf (updateTraffic nav a b s) a, e.to_ = b → e.status = s) ∧
    (∀ e ∈ adjOf (updateTraffic nav a b s) b, e.to_ = a → e.status = s) ∧
    (updateTraffic nav a b s).cityNodes = nav.cityNodes ∧
    (∀ x, List.Forall₂
      (fun e' e => e'.to_ = e.to_ ∧ e'.baseWeight = e.baseWeight ∧
        (¬ ((x = a ∧ e.to_ = b) ∨ (x = b ∧ e.to_ = a)) → e'.status = e.status))
      (adjOf (updateTraffic nav a b s) x) (adjOf nav x)) ∧
    ((∀ e ∈ adjOf nav a, e.to_ ≠ b) → (∀ e ∈ adjOf nav b, e.to_ ≠ a) →
      ∀ x, adjOf (updateTraffic nav a b s) x = adjOf nav x) := by
  have hto : ∀ x e, (retag a b s x e).to_ = e.to_ := by
    intro x e; unfold retag; split_ifs <;> rfl
  refine ⟨?_, ?_, rfl, ?_, ?_⟩
  · intro e he hb
    rw [adjOf_updateTraffic, List.mem_map] at he
    obtain ⟨e0, _, rfl⟩ := he
    rw [hto] at hb
    simp [retag, hb]
  · intro e he ha
    rw [adjOf_updateTraffic, List.mem_map] at he
    obtain ⟨e0, _, rfl⟩ := he
    rw [hto] at ha
    simp [retag, ha]
  · intro x
    rw [adjOf_updateTraffic, List.forall₂_map_left_iff, List.forall₂_same]
    intro e _
    refine ⟨hto x e, ?_, ?_⟩
    · unfold retag; split_ifs <;> rfl
    · intro hn; unfold retag; rw [if_neg hn]
  · intro h1 h2 x
    rw [adjOf_updateTraffic]
    conv_rhs => rw [← List.map_id (adjOf nav x)]
    apply List.map_congr_left
    intro e he
    unfold retag
    rw [if_neg, id]
    rintro (⟨hx, hb⟩ | ⟨hx, ha⟩)
    · exact h1 e (hx ▸ he) hb
    · exact h2 e (hx ▸ he) ha

/-- C12 (idempotence of `updateTraffic`): for every store and all `a`, `b`, `s`, applying
`updateTraffic a b s` twice gives the same store as applying it once. -/
theorem update_status_idempotent (nav : NavigationSystem) (a b : Int) (s : RoadStatus) :
    updateTraffic (updateTraffic nav a b s) a b s = updateTraffic nav a b s := by
  have h1 : setStatus (setStatus nav.adj a b s) a b s = setStatus nav.adj a b s :=
    setStatus_fix _ a b s _ (setStatus_placed nav.adj a b s)
  have h2 : setStatus (setStatus (setStatus nav.adj a b s) b a s) b a s =
      setStatus (setStatus nav.adj a b s) b a s :=
    setStatus_fix _ b a s _ (setStatus_placed _ b a s)
  have h3 : setStatus (setStatus (setStatus nav.adj a b s) b a s) a b s =
      setStatus (setStatus nav.adj a b s) b a s := by
    by_cases hab : a = b
    · subst hab
      rw [h1, h1]
    · apply setStatus_fix _ a b s ((mapFind nav.adj a).getD [])
      exact placed_mapSet_other _ a b _ _ (Ne.symm hab) (setStatus_placed nav.adj a b s)
  unfold updateTraffic
  simp only
  rw [h3, h2]

/-! ### Calls with accepted arguments -/

theorem registered_addLocation (nav : NavigationSystem) (id : Int) (name : String) (x : Int) :
    registered (addLocation nav id name) x = (decide (x = id) || registered nav x) := by
  unfold registered addLocation
  simp only
  rw [mapFind_mapSet]
  by_cases h : x = id <;> simp [h]

theorem pushEdge_entries (adj : List (Int × List Edge)) (u : Int) (e0 : Edge)
    (p : Int × List Edge) (hp : p ∈ pushEdge adj u e0) (e : Edge) (he : e ∈ p.2) :
    (∃ q ∈ adj, q.1 = p.1 ∧ e ∈ q.2) ∨ (p.1 = u ∧ e = e0) := by
  rcases mem_mapSet _ _ _ _ hp with h | h
  · exact Or.inl ⟨p, h, rfl, he⟩
  · subst h
    simp only [List.mem_append, List.mem_singleton] at he
    rcases he with he | he
    · left
      cases hf : mapFind adj u with
      | none => simp [hf] at he
      | some es =>
        rw [hf] at he
        exact ⟨(u, es), mapFind_mem _ _ _ hf, rfl, he⟩
    · exact Or.inr ⟨rfl, he⟩

theorem addRoad_entries (nav : NavigationSystem) (u v : Int) (d : ℚ)
    (p : Int × List Edge) (hp : p ∈ (addRoad nav u v d).adj) (e : Edge) (he : e ∈ p.2) :
    (∃ q ∈ nav.adj, q.1 = p.1 ∧ e ∈ q.2) ∨ (p.1 = u ∧ e = ⟨v, d, RoadStatus.CLEAR⟩) ∨
      (p.1 = v ∧ e = ⟨u, d, RoadStatus.CLEAR⟩) := by
  rcases pushEdge_entries _ _ _ p hp e he with ⟨q, hq, h1, h2⟩ | h
  · rcases pushEdge_entries _ _ _ q hq e h2 with ⟨q', hq', h1', h2'⟩ | ⟨h3, h4⟩
    · exact Or.inl ⟨q', hq', h1'.trans h1, h2'⟩
    · exact Or.inr (Or.inl ⟨h1 ▸ h3, h4⟩)
  · exact Or.inr (Or.inr h)

theorem roadView_nil_of_no_entry (nav : NavigationSystem) (u v : Int)
    (h : ∀ e ∈ adjOf nav u, e.to_ ≠ v) : roadView nav u v = [] := by
  unfold roadView
  rw [List.map_eq_nil_iff, List.filter_eq_nil_iff]
  intro e he
  simpa using h e he

theorem edgeInv_applyOp {nav : NavigationSystem} (hinv : EdgeInv nav) (op : Op)
    (hop : op.accepted nav) : EdgeInv (applyOp nav op) := by
  refine ⟨?_, ?_, ?_, ?_, roadView_applyOp nav op hinv.sym⟩
  · cases op with
    | addLocation id name => exact hinv.pos
    | updateTraffic u v s => exact positiveCosts_updateTraffic hinv.pos u v s
    | addRoad u v d =>
      intro p hp e he
      rcases addRoad_entries nav u v d p hp e he with ⟨q, hq, _, h2⟩ | ⟨_, h⟩ | ⟨_, h⟩
      · exact hinv.pos q hq e h2
      · rw [h]; exact hop.1
      · rw [h]; exact hop.1
  · cases op with
    | addLocation id name =>
      intro p hp e he
      have := hinv.reg p hp e he
      simp only [TrafficNav.applyOp, registered_addLocation, this.1, this.2, Bool.or_true,
        and_self]
    | updateTraffic u v s => exact endpointsRegistered_updateTraffic hinv.reg u v s
    | addRoad u v d =>
      intro p hp e he
      have hr : ∀ x, registered (addRoad nav u v d) x = registered nav x := fun _ => rfl
      simp only [TrafficNav.applyOp, hr]
      rcases addRoad_entries nav u v d p hp e he with ⟨q, hq, h1, h2⟩ | ⟨h1, h⟩ | ⟨h1, h⟩
      · rw [← h1]; exact hinv.reg q hq e h2
      · rw [h1, h]; exact ⟨hop.2.2.1, hop.2.2.2.1⟩
      · rw [h1, h]; exact ⟨hop.2.2.2.1, hop.2.2.1⟩
  · cases op with
    | addLocation id name => exact hinv.distinct
    | updateTraffic u v s =>
      intro p hp e he
      obtain ⟨q, hq, a, ha, h1, h2, _⟩ := updateTraffic_entries nav u v s p hp e he
      rw [← h1, ← h2]
      exact hinv.distinct q hq a ha
    | addRoad u v d =>
      intro p hp e he
      rcases addRoad_entries nav u v d p hp e he with ⟨q, hq, h1, h2⟩ | ⟨h1, h⟩ | ⟨h1, h⟩
      · rw [← h1]; exact hinv.distinct q hq e h2
      · rw [h1, h]; exact Ne.symm hop.2.1
      · rw [h1, h]; exact hop.2.1
  · intro a b
    cases op with
    | addLocation id name => exact hinv.single a b
    | updateTraffic u v s =>
      simp only [TrafficNav.applyOp]
      rw [roadView_updateTraffic]
      split_ifs
      · rw [List.length_map]; exact hinv.single a b
      · exact hinv.single a b
    | addRoad u v d =>
      simp only [TrafficNav.applyOp]
      rw [roadView_addRoad]
      have huv : roadView nav u v = [] := roadView_nil_of_no_entry nav u v hop.2.2.2.2
      have hvu : roadView nav v u = [] := by rw [hinv.sym v u]; exact huv
      have hne := hop.2.1
      by_cases h1 : a = u ∧ b = v
      · have h2 : ¬ (a = v ∧ b = u) := fun h => hne (h1.1.symm.trans h.1)
        rw [if_pos h1, if_neg h2, h1.1, h1.2, huv]
        simp
      · by_cases h2 : a = v ∧ b = u
        · rw [if_neg h1, if_pos h2, h2.1, h2.2, hvu]
          simp
        · rw [if_neg h1, if_neg h2]
          simpa using hinv.single a b

theorem edgeInv_foldl (ops : List Op) :
    ∀ nav : NavigationSystem, EdgeInv nav → acceptedRun nav ops →
      EdgeInv (ops.foldl TrafficNav.applyOp nav) := by
  induction ops with
  | nil => intro nav h _; exact h
  | cons op ops ih =>
    intro nav h hrun
    exact ih _ (edgeInv_applyOp h op hrun.1) hrun.2

theorem edgeInv_empty : EdgeInv NavigationSystem.empty := by
  refine ⟨?_, ?_, ?_, ?_, ?_⟩
  · intro p hp; simp [NavigationSystem.empty] at hp
  · intro p hp; simp [NavigationSystem.empty] at hp
  · intro p hp; simp [NavigationSystem.empty] at hp
  · intro a b; simp [roadView, adjOf, NavigationSystem.empty, mapFind]
  · intro a b; rfl

/-- C14, as stated, fails: `addRoad` checks nothing. Two calls `addRoad(0, 0, -5)` on the
empty store leave four entries from `0` to `0`, of base cost `-5`, and `0` is not a
registered location. -/
theorem add_road_checks_nothing :
    adjOf (runOps [Op.addRoad 0 0 (-5), Op.addRoad 0 0 (-5)]) 0 =
      [⟨0, -5, RoadStatus.CLEAR⟩, ⟨0, -5, RoadStatus.CLEAR⟩, ⟨0, -5, RoadStatus.CLEAR⟩,
        ⟨0, -5, RoadStatus.CLEAR⟩] ∧
    registered (runOps [Op.addRoad 0 0 (-5), Op.addRoad 0 0 (-5)]) 0 = false ∧
    ¬ PositiveCosts (runOps [Op.addRoad 0 0 (-5), Op.addRoad 0 0 (-5)]) ∧
    ¬ EndpointsRegistered (runOps [Op.addRoad 0 0 (-5), Op.addRoad 0 0 (-5)]) :=
  ⟨by decide!, by decide!, by decide!, by decide!⟩

/-- C14, amended: the store rejects nothing, so the invariants are the callers' to keep.
In every store reached from the empty one by calls whose `addRoad` arguments have a
positive cost, two distinct ids registered at the time of the call and no road yet between
them, every stored road has base cost `> 0`, joins two distinct ids, has both ends
registered, and is the only road between its two ends. -/
theorem edge_invariants_of_accepted_calls (ops : List Op)
    (h : acceptedRun NavigationSystem.empty ops) :
    PositiveCosts (runOps ops) ∧ EndpointsRegistered (runOps ops) ∧
    (∀ p ∈ (runOps ops).adj, ∀ e ∈ p.2, e.to_ ≠ p.1) ∧
    ∀ a b, (roadView (runOps ops) a b).length ≤ 1 := by
  have hinv := edgeInv_foldl ops NavigationSystem.empty edgeInv_empty h
  exact ⟨hinv.pos, hinv.reg, hinv.distinct, hinv.single⟩

theorem edge_invariants_of_accepted_calls_witness :
    acceptedRun NavigationSystem.empty seedOps ∧
    PositiveCosts (runOps seedOps) ∧ EndpointsRegistered (runOps seedOps) ∧
    (∀ p ∈ (runOps seedOps).adj, ∀ e ∈ p.2, e.to_ ≠ p.1) ∧
    ∀ a b, (roadView (runOps seedOps) a b).length ≤ 1 :=
  ⟨by decide!, edge_invariants_of_accepted_calls seedOps (by decide!)⟩

/-- C15, as stated, fails: `addLocation` on an id that is registered does not fail and does
not keep the store: the label read for the id afterwards is the new one. -/
theorem add_location_overwrites :
    registered (addLocation NavigationSystem.empty 0 "A") 0 = true ∧
    lookupLabel (addLocation NavigationSystem.empty 0 "A") 0 = "A" ∧
    lookupLabel (addLocation (addLocation NavigationSystem.empty 0 "A") 0 "B") 0 = "B" ∧
    (addLocation (addLocation NavigationSystem.empty 0 "A") 0 "B").cityNodes ≠
      (addLocation NavigationSystem.empty 0 "A").cityNodes :=
  ⟨by decide, by decide, by decide, by decide⟩

/-- C15, amended: `addLocation` never fails. On an id that is already registered it
replaces the label: the label read for `id` afterwards is the new one, every other label
reads as before, the set of registered ids and the adjacency are unchanged. -/
theorem add_location_replaces_label (nav : NavigationSystem) (id : Int) (name : String)
    (hreg : registered nav id = true) :
    lookupLabel (addLocation nav id name) id = name ∧
    (∀ j, j ≠ id → lookupLabel (addLocation nav id name) j = lookupLabel nav j) ∧
    (∀ j, registered (addLocation nav id name) j = registered nav j) ∧
    (addLocation nav id name).adj = nav.adj := by
  refine ⟨?_, ?_, ?_, rfl⟩
  · simp [lookupLabel, addLocation, mapFind_mapSet]
  · intro j hj
    simp [lookupLabel, addLocation, mapFind_mapSet, hj]
  · intro j
    rw [registered_addLocation]
    by_cases h : j = id
    · subst h; simp [hreg]
    · simp [h]

theorem add_location_replaces_label_witness :
    registered seed 0 = true ∧
    lookupLabel (addLocation seed 0 "Depot") 0 = "Depot" ∧
    (∀ j, j ≠ 0 → lookupLabel (addLocation seed 0 "Depot") j = lookupLabel seed j) ∧
    (∀ j, registered (addLocation seed 0 "Depot") j = registered seed j) ∧
    (addLocation seed 0 "Depot").adj = seed.adj :=
  ⟨by decide!, add_location_replaces_label seed 0 "Depot" (by decide!)⟩

/-! ### The store after a query -/

theorem mapFind_mapTouch {α : Type} (m : List (Int × α)) (k : Int) (dflt : α) (j : Int) :
    (mapFind (mapTouch m k dflt) j).getD dflt = (mapFind m j).getD dflt := by
  unfold mapTouch
  cases h : mapFind m k with
  | some v => rfl
  | none =>
    simp only
    rw [mapFind_mapSet]
    by_cases hj : j = k
    · subst hj; simp [h]
    · simp [hj]

theorem mapTouch_of_isSome {α : Type} (m : List (Int × α)) (k : Int) (dflt : α)
    (h : (mapFind m k).isSome = true) : mapTouch m k dflt = m := by
  unfold mapTouch
  cases hf : mapFind m k with
  | some v => rfl
  | none => rw [hf] at h; simp at h

/-- The loop with the map threaded through computes the same search state as `searchLoop`,
and the map it ends with reads like the one it started with. -/
theorem searchLoopAdj_spec (nav : NavigationSystem) (t : Int) :
    ∀ (fuel : Nat) (adj : List (Int × List Edge)) (st : SearchState),
      (∀ x, (mapFind adj x).getD [] = adjOf nav x) →
      (searchLoopAdj t fuel adj st).map Prod.snd = searchLoop nav t fuel st ∧
      ∀ r, searchLoopAdj t fuel adj st = some r → ∀ x, (mapFind r.1 x).getD [] = adjOf nav x := by
  intro fuel
  induction fuel with
  | zero => intro adj st _; simp [searchLoopAdj, searchLoop]
  | succ n ih =>
    intro adj st hadj
    rw [searchLoopAdj, searchLoop]
    cases htop : pqTop st.pq with
    | none =>
      refine ⟨rfl, ?_⟩
      intro r hr
      simp only [Option.some.injEq] at hr
      subst hr
      exact hadj
    | some top =>
      simp only
      split_ifs with hu
      · refine ⟨rfl, ?_⟩
        intro r hr
        simp only [Option.some.injEq] at hr
        subst hr
        exact hadj
      · rw [hadj top.2]
        exact ih _ _ (fun x => by rw [mapFind_mapTouch]; exact hadj x)

/-- The answer of `findOptimizedPath` exists exactly when the store after the call does. -/
theorem findOptimizedPathStore_isSome (fuel : Nat) (nav : NavigationSystem) (s t : Int) :
    (findOptimizedPathStore fuel nav s t).isSome = (findOptimizedPath fuel nav s t).isSome := by
  unfold findOptimizedPathStore findOptimizedPath
  have h := (searchLoopAdj_spec nav t fuel nav.adj (initState nav s) (fun _ => rfl)).1
  cases hl : searchLoopAdj t fuel nav.adj (initState nav s) with
  | none =>
    rw [hl] at h
    simp only [Option.map_none'] at h
    rw [← h]
    rfl
  | some r =>
    obtain ⟨adj, st⟩ := r
    rw [hl] at h
    simp only [Option.map_some'] at h
    rw [← h]
    simp only
    split_ifs
    · rfl
    · cases walkBack st.parent fuel t [] <;> rfl

/-- Every adjacency list reads the same after a query, whatever the store and the ids. -/
theorem findOptimizedPathStore_adj (fuel : Nat) (nav nav' : NavigationSystem) (s t : Int)
    (h : findOptimizedPathStore fuel nav s t = some nav') :
    ∀ x, adjOf nav' x = adjOf nav x := by
  unfold findOptimizedPathStore at h
  cases hl : searchLoopAdj t fuel nav.adj (initState nav s) with
  | none => rw [hl] at h; simp at h
  | some r =>
    obtain ⟨adj, st⟩ := r
    have hr := (searchLoopAdj_spec nav t fuel nav.adj (initState nav s) (fun _ => rfl)).2 _ hl
    rw [hl] at h
    simp only at h hr
    split_ifs at h
    · simp only [Option.some.injEq] at h
      subst h
      exact hr
    · cases hw : walkBack st.parent fuel t [] with
      | none => rw [hw] at h; simp at h
      | some path =>
        rw [hw] at h
        simp only [Option.some.injEq] at h
        subst h
        exact hr

theorem walkBack_nodes (parent : Int → Option Int) :
    ∀ (fuel : Nat) (curr : Int) (path r : List Int), walkBack parent fuel curr path = some r →
      ∀ x ∈ r, x ∈ path ∨ parent x ≠ none := by
  intro fuel
  induction fuel with
  | zero => intro curr path r h; simp [walkBack] at h
  | succ n ih =>
    intro curr path r h x hx
    rw [walkBack] at h
    cases hp : parent curr with
    | none =>
      rw [hp] at h
      simp only [Option.some.injEq] at h
      subst h
      exact Or.inl hx
    | some p =>
      rw [hp] at h
      simp only at h
      rcases ih p (path ++ [curr]) r h x hx with h1 | h1
      · rcases List.mem_append.mp h1 with h2 | h2
        · exact Or.inl h2
        · simp only [List.mem_singleton] at h2
          right; rw [h2, hp]; simp
      · exact Or.inr h1

theorem Core.parent_registered {nav : NavigationSystem} (hpos : PositiveCosts nav) {s : Int}
    {st : SearchState} (hc : Core nav s st) {v u : Int} (h : st.parent v = some u) :
    registered nav v = true := by
  obtain ⟨_, e, he, _, _, hd⟩ := hc.tree v u h
  have hw := activeAdj_pos hpos s u e he
  have h1 := hc.nonneg u
  have h2 := hc.le_init v
  exact (initDist_pos nav s v (by linarith)).2

theorem foldl_mapTouch_registered (ids : List Int) :
    ∀ m : List (Int × String), (∀ x ∈ ids, (mapFind m x).isSome = true) →
      ids.foldl (fun m id => mapTouch m id "") m = m := by
  induction ids with
  | nil => intro m _; rfl
  | cons a ids ih =>
    intro m h
    rw [List.foldl_cons, mapTouch_of_isSome m a "" (h a (List.mem_cons_self _ _))]
    exact ih m (fun x hx => h x (List.mem_cons_of_mem _ hx))

/-- With positive base costs and a registered start a query leaves `cityNodes` as it is:
every id of a printed path is registered. -/
theorem findOptimizedPathStore_labels {nav : NavigationSystem} (hpos : PositiveCosts nav)
    {s t : Int} (hs : registered nav s = true) {fuel : Nat} {nav' : NavigationSystem}
    (h : findOptimizedPathStore fuel nav s t = some nav') :
    nav'.cityNodes = nav.cityNodes := by
  unfold findOptimizedPathStore at h
  cases hl : searchLoopAdj t fuel nav.adj (initState nav s) with
  | none => rw [hl] at h; simp at h
  | some r =>
    obtain ⟨adj, st⟩ := r
    have hsl := (searchLoopAdj_spec nav t fuel nav.adj (initState nav s) (fun _ => rfl)).1
    rw [hl] at hsl h
    simp only [Option.map_some'] at hsl
    obtain ⟨hc, _⟩ := searchLoop_post hpos fuel _ _ (initState_inv nav hpos s) hsl.symm
    simp only at h
    split_ifs at h
    · simp only [Option.some.injEq] at h
      subst h
      rfl
    · cases hw : walkBack st.parent fuel t [] with
      | none => rw [hw] at h; simp at h
      | some path =>
        rw [hw] at h
        simp only [Option.some.injEq] at h
        subst h
        simp only
        apply foldl_mapTouch_registered
        intro x hx
        have hx2 : x = s ∨ x ∈ path := by simpa using hx
        rcases hx2.symm with hx2 | hx2
        · rcases walkBack_nodes st.parent fuel t [] path hw x hx2 with h1 | h1
          · simp at h1
          · cases hp : st.parent x with
            | none => exact absurd hp h1
            | some u => exact hc.parent_registered hpos hp
        · rw [hx2]; exact hs

/-- C16 at the failing input: on the seed network the query from `7` to `7` answers
`[7]` with cost `0` and leaves `7` as a key of `cityNodes`; a query from `0` to `7`, which
answered a route before, answers `NoPath` afterwards. -/
theorem find_route_registers_start :
    registered seed 7 = false ∧
    findOptimizedPath 14 seed 7 7 = some (RouteResult.Route [7] 0) ∧
    (findOptimizedPathStore 14 seed 7 7).map (fun nav => registered nav 7) = some true ∧
    findOptimizedPath 14 seed 0 7 = some (RouteResult.Route [0] 0) ∧
    (findOptimizedPathStore 14 seed 7 7).map (fun nav => findOptimizedPath 14 nav 0 7) =
      some (some RouteResult.NoPath) :=
  ⟨by decide!, by decide!, by decide!, by decide!, by decide!⟩

/-! ### The printed table -/

theorem keysSorted_mapSet {α : Type} (m : List (Int × α)) (k : Int) (v : α)
    (h : keysSorted m) : keysSorted (mapSet m k v) := by
  unfold keysSorted at h ⊢
  induction m with
  | nil => simp [mapSet]
  | cons p rest ih =>
    obtain ⟨k', w⟩ := p
    rw [List.pairwise_cons] at h
    simp only [mapSet]
    split_ifs with h1 h2
    · rw [List.pairwise_cons]
      refine ⟨?_, List.pairwise_cons.mpr h⟩
      intro q hq
      rcases List.mem_cons.mp hq with hq | hq
      · rw [hq]; exact h1
      · exact lt_trans h1 (h.1 q hq)
    · rw [List.pairwise_cons]
      refine ⟨?_, h.2⟩
      intro q hq
      rw [h2]; exact h.1 q hq
    · rw [List.pairwise_cons]
      refine ⟨?_, ih h.2⟩
      intro q hq
      rcases mem_mapSet _ _ _ _ hq with hq | hq
      · exact h.1 q hq
      · rw [hq]
        exact lt_of_le_of_ne (not_lt.mp h1) (Ne.symm h2)

theorem keysSorted_applyOp (nav : NavigationSystem) (op : Op) (h : keysSorted nav.adj) :
    keysSorted (applyOp nav op).adj := by
  cases op with
  | addLocation id name => exact h
  | addRoad u v d => exact keysSorted_mapSet _ _ _ (keysSorted_mapSet _ _ _ h)
  | updateTraffic u v s => exact keysSorted_mapSet _ _ _ (keysSorted_mapSet _ _ _ h)

theorem keysSorted_runOps (ops : List Op) : keysSorted (runOps ops).adj := by
  have : ∀ nav : NavigationSystem, keysSorted nav.adj →
      keysSorted (ops.foldl applyOp nav).adj := by
    induction ops with
    | nil => intro nav h; exact h
    | cons op ops ih => intro nav h; exact ih _ (keysSorted_applyOp nav op h)
  exact this _ List.Pairwise.nil

theorem rowsOf_filter_ne (p : Int × List Edge) (a b : Int) (h : p.1 ≠ a) :
    (rowsOf p).filter (fun r => decide (r.1 = a ∧ r.2.1 = b)) = [] := by
  rw [List.filter_eq_nil_iff]
  intro r hr
  simp only [rowsOf, List.mem_map, List.mem_filter] at hr
  obtain ⟨e, _, rfl⟩ := hr
  simp [h]

theorem rowsOf_filter_eq (es : List Edge) (a b : Int) (hab : a < b) :
    (rowsOf (a, es)).filter (fun r => decide (r.1 = a ∧ r.2.1 = b)) =
      (es.filter (fun e => decide (e.to_ = b))).map (fun e => (a, b, e.status)) := by
  induction es with
  | nil => rfl
  | cons e es ih =>
    have hcons : rowsOf (a, e :: es) =
        (if a < e.to_ then [(a, e.to_, e.status)] else []) ++ rowsOf (a, es) := by
      simp only [rowsOf, List.filter_cons]
      split_ifs <;> simp_all
    rw [hcons, List.filter_append, ih]
    by_cases hb : e.to_ = b
    · have h1 : a < e.to_ := by rw [hb]; exact hab
      simp [hab, hb, List.filter_cons]
    · by_cases h1 : a < e.to_ <;> simp [h1, hb, List.filter_cons]

/-- In a map with increasing keys the rows of the pair `(a, b)` come from the entry that
`adj[a]` reads. -/
theorem rows_of_pair (m : List (Int × List Edge)) (h : keysSorted m) (a b : Int)
    (hab : a < b) :
    ((m.map rowsOf).flatten).filter (fun r => decide (r.1 = a ∧ r.2.1 = b)) =
      (((mapFind m a).getD []).filter (fun e => decide (e.to_ = b))).map
        (fun e => (a, b, e.status)) := by
  unfold keysSorted at h
  induction m with
  | nil => rfl
  | cons p rest ih =>
    obtain ⟨k, es⟩ := p
    rw [List.pairwise_cons] at h
    simp only [List.map_cons, List.flatten_cons, List.filter_append]
    by_cases hk : k = a
    · subst hk
      have hrest : ((rest.map rowsOf).flatten).filter
          (fun r => decide (r.1 = k ∧ r.2.1 = b)) = [] := by
        rw [List.filter_eq_nil_iff]
        intro r hr
        simp only [List.mem_flatten, List.mem_map] at hr
        obtain ⟨l, ⟨q, hq, rfl⟩, hrl⟩ := hr
        simp only [rowsOf, List.mem_map, List.mem_filter] at hrl
        obtain ⟨e, _, rfl⟩ := hrl
        have := h.1 q hq
        simp only at this
        simp [ne_of_gt this]
      rw [hrest, List.append_nil, rowsOf_filter_eq es k b hab]
      simp [mapFind]
    · rw [rowsOf_filter_ne (k, es) a b hk, List.nil_append, ih h.2]
      simp [mapFind, Ne.symm hk]

theorem roadView_length_applyOp (nav : NavigationSystem) (op : Op) (a b : Int) (hab : a ≠ b) :
    (roadView (applyOp nav op) a b).length =
      (roadView nav a b).length + (if op.joins a b = true then 1 else 0) := by
  cases op with
  | addLocation id name => simp [Op.joins, applyOp, roadView, adjOf_addLocation]
  | updateTraffic u v s =>
    simp only [applyOp, Op.joins, Bool.false_eq_true, if_false, add_zero]
    rw [roadView_updateTraffic]
    split_ifs <;> simp
  | addRoad u v d =>
    simp only [applyOp, Op.joins]
    rw [roadView_addRoad]
    by_cases h1 : a = u ∧ b = v
    · have h2 : ¬ (a = v ∧ b = u) := fun h => hab (h.1.trans h1.2.symm)
      have h3 : (u = a ∧ v = b) ∨ (u = b ∧ v = a) := Or.inl ⟨h1.1.symm, h1.2.symm⟩
      rw [if_pos h1, if_neg h2, if_pos (decide_eq_true h3)]
      simp
    · by_cases h2 : a = v ∧ b = u
      · have h3 : (u = a ∧ v = b) ∨ (u = b ∧ v = a) := Or.inr ⟨h2.2.symm, h2.1.symm⟩
        rw [if_neg h1, if_pos h2, if_pos (decide_eq_true h3)]
        simp
      · have h3 : ¬ ((u = a ∧ v = b) ∨ (u = b ∧ v = a)) := by
          rintro (⟨h, h'⟩ | ⟨h, h'⟩)
          · exact h1 ⟨h.symm, h'.symm⟩
          · exact h2 ⟨h'.symm, h.symm⟩
        rw [if_neg h1, if_neg h2, if_neg (by simpa using h3)]
        simp

theorem roadView_length_foldl (ops : List Op) (a b : Int) (hab : a ≠ b) :
    ∀ nav : NavigationSystem, (roadView (ops.foldl applyOp nav) a b).length =
      (roadView nav a b).length + (ops.filter (fun op => op.joins a b)).length := by
  induction ops with
  | nil => intro nav; simp
  | cons op ops ih =>
    intro nav
    rw [List.foldl_cons, ih, roadView_length_applyOp nav op a b hab, List.filter_cons]
    split_ifs <;> simp
    omega

/-! ## The claims about the seed scenario and the printed table -/

/-- C17 (seed scenario S2): on the seed network of `main` the query from `1` to `3`
answers the path `[1, 0, 2, 3]` with cost `30`, with any fuel from `14` on. -/
theorem seed_route_airport_east (fuel : Nat) :
    runOps seedOps = seed ∧
    findOptimizedPath (fuel + 14) seed 1 3 = some (RouteResult.Route [1, 0, 2, 3] 30) :=
  ⟨rfl, findOptimizedPath_mono seed 1 3 (Nat.le_add_left 14 fuel) _ (by decide!)⟩

/-- C18 (the table lists each road once): in every store reached from the empty one by
calls of `addLocation`, `addRoad` and `updateTraffic`, for `a < b` the rows `(a, b)` of
`showNetworkStatus` are the entries of `adj[a]` pointing to `b`, each with its current
status, there are as many of them as there were `addRoad` calls joining `a` and `b`, and no
row has a first id that is not below its second. -/
theorem network_rows_once (ops : List Op) (a b : Int) (hab : a < b) :
    (showNetworkStatus (runOps ops)).filter (fun r => decide (r.1 = a ∧ r.2.1 = b)) =
      ((adjOf (runOps ops) a).filter (fun e => decide (e.to_ = b))).map
        (fun e => (a, b, e.status)) ∧
    ((showNetworkStatus (runOps ops)).filter (fun r => decide (r.1 = a ∧ r.2.1 = b))).length =
      (ops.filter (fun op => op.joins a b)).length ∧
    ∀ r ∈ showNetworkStatus (runOps ops), r.1 < r.2.1 := by
  have hrows := rows_of_pair (runOps ops).adj (keysSorted_runOps ops) a b hab
  refine ⟨hrows, ?_, ?_⟩
  · unfold showNetworkStatus
    rw [hrows, List.length_map]
    have := roadView_length_foldl ops a b (ne_of_lt hab) NavigationSystem.empty
    simp only [roadView, List.length_map] at this
    show ((adjOf (runOps ops) a).filter (fun e => decide (e.to_ = b))).length = _
    unfold runOps
    rw [this]
    simp [adjOf, NavigationSystem.empty, mapFind]
  · intro r hr
    simp only [showNetworkStatus, List.mem_flatten, List.mem_map] at hr
    obtain ⟨l, ⟨q, _, rfl⟩, hrl⟩ := hr
    simp only [rowsOf, List.mem_map, List.mem_filter] at hrl
    obtain ⟨e, ⟨_, he⟩, rfl⟩ := hrl
    simpa using he

theorem network_rows_once_witness :
    (0 : Int) < 3 ∧
    (showNetworkStatus (runOps seedOps)).filter (fun r => decide (r.1 = 0 ∧ r.2.1 = 3)) =
      ((adjOf (runOps seedOps) 0).filter (fun e => decide (e.to_ = 3))).map
        (fun e => (0, 3, e.status)) ∧
    ((showNetworkStatus (runOps seedOps)).filter
        (fun r => decide (r.1 = 0 ∧ r.2.1 = 3))).length =
      (seedOps.filter (fun op => op.joins 0 3)).length ∧
    ∀ r ∈ showNetworkStatus (runOps seedOps), r.1 < r.2.1 :=
  ⟨by decide, network_rows_once seedOps 0 3 (by decide)⟩

/-! ### Stale entries and termination -/

theorem roundHalfEven_cases (y : ℚ) : roundHalfEven y = ⌊y⌋ ∨ roundHalfEven y = ⌊y⌋ + 1 := by
  unfold roundHalfEven
  split_ifs <;> simp

theorem roundHalfEven_intCast (n : ℤ) : roundHalfEven (n : ℚ) = n := by
  unfold roundHalfEven
  simp

theorem roundHalfEven_mono {a b : ℚ} (h : a ≤ b) : roundHalfEven a ≤ roundHalfEven b := by
  have hf : ⌊a⌋ ≤ ⌊b⌋ := Int.floor_mono h
  rcases lt_or_eq_of_le hf with hlt | heq
  · have h1 : roundHalfEven a ≤ ⌊a⌋ + 1 := by
      rcases roundHalfEven_cases a with h | h <;> omega
    have h2 : ⌊b⌋ ≤ roundHalfEven b := by
      rcases roundHalfEven_cases b with h | h <;> omega
    omega
  · have hd : a - ⌊a⌋ ≤ b - ⌊b⌋ := by rw [heq]; linarith
    unfold roundHalfEven
    rw [heq]
    split_ifs <;> first | omega | (exfalso; linarith)

theorem roundHalfEven_le_of_le {y : ℚ} {n : ℤ} (h : y ≤ n) : roundHalfEven y ≤ n := by
  have := roundHalfEven_mono h
  rwa [roundHalfEven_intCast] at this

theorem roundHalfEven_ge_of_ge {y : ℚ} {n : ℤ} (h : (n : ℚ) ≤ y) : n ≤ roundHalfEven y := by
  have := roundHalfEven_mono h
  rwa [roundHalfEven_intCast] at this

theorem two_zpow_pos (k : ℤ) : (0 : ℚ) < 2 ^ k := zpow_pos (by norm_num) k

theorem two_zpow_le {a b : ℤ} (h : a ≤ b) : (2 : ℚ) ^ a ≤ 2 ^ b :=
  zpow_le_zpow_right₀ (by norm_num) h

theorem two_zpow_lt {a b : ℤ} (h : a < b) : (2 : ℚ) ^ a < 2 ^ b :=
  zpow_lt_zpow_right₀ (by norm_num) h

theorem log_le_self (x : ℚ) (hx : 0 < x) : (2 : ℚ) ^ Int.log 2 x ≤ x := by
  have := Int.zpow_log_le_self (b := 2) (r := x) (by norm_num) hx
  simpa using this

theorem self_lt_log_succ (x : ℚ) : x < (2 : ℚ) ^ (Int.log 2 x + 1) := by
  have := Int.lt_zpow_succ_log_self (b := 2) (by norm_num) x
  simpa using this

theorem log_two_zpow (z : ℤ) : Int.log 2 ((2 : ℚ) ^ z) = z := by
  have := Int.log_zpow (R := ℚ) (b := 2) (by norm_num) z
  simpa using this

theorem log_lt_of_lt_zpow {x : ℚ} (hx : 0 < x) {z : ℤ} (h : x < (2 : ℚ) ^ z) :
    Int.log 2 x < z := by
  have := (Int.lt_zpow_iff_log_lt (R := ℚ) (b := 2) (by norm_num) (x := z) hx).mp
    (by simpa using h)
  exact this

theorem log2Aux_eq : ∀ (fuel n : ℕ), n ≤ fuel → log2Aux fuel n = Nat.log 2 n := by
  intro fuel
  induction fuel with
  | zero =>
    intro n hn
    have : n = 0 := by omega
    subst this
    simp [log2Aux]
  | succ k ih =>
    intro n hn
    simp only [log2Aux]
    split_ifs with h
    · rw [ih (n / 2) (by omega), Nat.log_of_one_lt_of_le (by norm_num) h]
    · rw [Nat.log_of_lt (by omega)]

theorem natLog2_eq (n : ℕ) : natLog2 n = Nat.log 2 n := log2Aux_eq n n (le_refl n)

theorem log_eq_of_bounds {x : ℚ} (hx : 0 < x) {e : ℤ} (h1 : (2 : ℚ) ^ e ≤ x)
    (h2 : x < (2 : ℚ) ^ (e + 1)) : Int.log 2 x = e := by
  have ha : e ≤ Int.log 2 x :=
    (Int.zpow_le_iff_le_log (R := ℚ) (b := 2) (by norm_num) (x := e) hx).mp (by simpa using h1)
  have hb : Int.log 2 x < e + 1 := log_lt_of_lt_zpow hx h2
  omega

theorem floorLog2_bounds {x : ℚ} (hx : 0 < x) :
    (2 : ℚ) ^ ((Nat.log 2 x.num.natAbs : ℤ) - (Nat.log 2 x.den : ℤ) - 1) ≤ x ∧
    x < (2 : ℚ) ^ ((Nat.log 2 x.num.natAbs : ℤ) - (Nat.log 2 x.den : ℤ) + 1) ∧ True := by
  have hnum : 0 < x.num := Rat.num_pos.mpr hx
  have hn0 : x.num.natAbs ≠ 0 := by omega
  have hd0 : x.den ≠ 0 := x.den_nz
  have hxe : x = (x.num.natAbs : ℚ) / (x.den : ℚ) := by
    have h1 : ((x.num.natAbs : ℤ) : ℚ) = (x.num : ℚ) := by
      rw [Int.natAbs_of_nonneg (le_of_lt hnum)]
    have h2 : ((x.num.natAbs : ℕ) : ℚ) = (x.num : ℚ) := by
      rw [← h1, Int.cast_natCast]
    rw [h2]
    exact (Rat.num_div_den x).symm
  have hdpos : (0 : ℚ) < (x.den : ℚ) := by exact_mod_cast Nat.pos_of_ne_zero hd0
  have hn1 : ((2 : ℚ) ^ (Nat.log 2 x.num.natAbs : ℤ)) ≤ (x.num.natAbs : ℚ) := by
    rw [zpow_natCast]
    exact_mod_cast Nat.pow_log_le_self 2 hn0
  have hn2 : (x.num.natAbs : ℚ) < (2 : ℚ) ^ ((Nat.log 2 x.num.natAbs : ℤ) + 1) := by
    have : (x.num.natAbs : ℚ) < (2 : ℚ) ^ (Nat.log 2 x.num.natAbs + 1) := by
      exact_mod_cast Nat.lt_pow_succ_log_self (by norm_num) x.num.natAbs
    rw [← zpow_natCast] at this
    push_cast at this
    exact this
  have hd1 : ((2 : ℚ) ^ (Nat.log 2 x.den : ℤ)) ≤ (x.den : ℚ) := by
    rw [zpow_natCast]
    exact_mod_cast Nat.pow_log_le_self 2 hd0
  have hd2 : (x.den : ℚ) < (2 : ℚ) ^ ((Nat.log 2 x.den : ℤ) + 1) := by
    have : (x.den : ℚ) < (2 : ℚ) ^ (Nat.log 2 x.den + 1) := by
      exact_mod_cast Nat.lt_pow_succ_log_self (by norm_num) x.den
    rw [← zpow_natCast] at this
    push_cast at this
    exact this
  have e1 : (2 : ℚ) ^ ((Nat.log 2 x.num.natAbs : ℤ) - (Nat.log 2 x.den : ℤ) - 1) =
      (2 : ℚ) ^ (Nat.log 2 x.num.natAbs : ℤ) / (2 : ℚ) ^ ((Nat.log 2 x.den : ℤ) + 1) := by
    rw [← zpow_sub₀ (by norm_num : (2 : ℚ) ≠ 0)]
    congr 1
    ring
  have e2 : (2 : ℚ) ^ ((Nat.log 2 x.num.natAbs : ℤ) - (Nat.log 2 x.den : ℤ) + 1) =
      (2 : ℚ) ^ ((Nat.log 2 x.num.natAbs : ℤ) + 1) / (2 : ℚ) ^ (Nat.log 2 x.den : ℤ) := by
    rw [← zpow_sub₀ (by norm_num : (2 : ℚ) ≠ 0)]
    congr 1
    ring
  refine ⟨?_, ?_, trivial⟩
  · rw [e1]
    conv_rhs => rw [hxe]
    rw [div_le_div_iff₀ (two_zpow_pos _) hdpos]
    have := two_zpow_pos (Nat.log 2 x.num.natAbs : ℤ)
    nlinarith
  · rw [e2]
    conv_lhs => rw [hxe]
    rw [div_lt_div_iff₀ hdpos (two_zpow_pos _)]
    have := two_zpow_pos (Nat.log 2 x.den : ℤ)
    have hnpos : (0 : ℚ) < (x.num.natAbs : ℚ) := by
      exact_mod_cast Nat.pos_of_ne_zero hn0
    nlinarith

theorem floorLog2_eq (x : ℚ) : floorLog2 x = Int.log 2 x := by
  unfold floorLog2
  split_ifs with h0 h1
  · exact (Int.log_of_right_le_zero 2 h0).symm
  · have hx : 0 < x := not_le.mp h0
    obtain ⟨_, hup, _⟩ := floorLog2_bounds hx
    rw [natLog2_eq, natLog2_eq] at h1 ⊢
    exact (log_eq_of_bounds hx h1 hup).symm
  · have hx : 0 < x := not_le.mp h0
    obtain ⟨hlow, _, _⟩ := floorLog2_bounds hx
    rw [natLog2_eq, natLog2_eq] at h1 ⊢
    refine (log_eq_of_bounds hx hlow ?_).symm
    rw [sub_add_cancel]
    exact not_le.mp h1

theorem quantumExp_eq (x : ℚ) : quantumExp x = max (Int.log 2 |x|) (-1022) - 52 := by
  unfold quantumExp
  rw [floorLog2_eq]

theorem quantumExp_ge (x : ℚ) : -1074 ≤ quantumExp x := by
  rw [quantumExp_eq]
  have := le_max_right (Int.log 2 |x|) (-1022)
  omega

theorem roundQ_zero : roundQ 0 = 0 := by
  unfold roundQ
  simp [roundHalfEven]

theorem roundQ_nonneg {x : ℚ} (hx : 0 ≤ x) : 0 ≤ roundQ x := by
  unfold roundQ
  have h1 : (0 : ℚ) ≤ x / 2 ^ quantumExp x := div_nonneg hx (le_of_lt (two_zpow_pos _))
  have h2 : (0 : ℤ) ≤ roundHalfEven (x / 2 ^ quantumExp x) :=
    roundHalfEven_ge_of_ge (by simpa using h1)
  exact mul_nonneg (by exact_mod_cast h2) (le_of_lt (two_zpow_pos _))

/-- A rounded value does not leave the binade of its argument upwards. -/
theorem roundQ_le_top {x : ℚ} (hx : 0 ≤ x) : roundQ x ≤ 2 ^ (quantumExp x + 53) := by
  have hlt : x < 2 ^ (quantumExp x + 53) := by
    have h1 := self_lt_log_succ x
    have h2 : Int.log 2 x + 1 ≤ quantumExp x + 53 := by
      rw [quantumExp_eq]
      rw [abs_of_nonneg hx]
      have := le_max_left (Int.log 2 x) (-1022)
      omega
    exact lt_of_lt_of_le h1 (two_zpow_le h2)
  have hq := two_zpow_pos (quantumExp x)
  have hdiv : x / 2 ^ quantumExp x ≤ ((2 ^ 53 : ℤ) : ℚ) := by
    rw [div_le_iff₀ hq]
    have : (2 : ℚ) ^ (quantumExp x + 53) = ((2 ^ 53 : ℤ) : ℚ) * 2 ^ quantumExp x := by
      rw [zpow_add₀ (by norm_num : (2 : ℚ) ≠ 0), mul_comm]
      norm_num
    rw [← this]
    exact le_of_lt hlt
  have hr := roundHalfEven_le_of_le hdiv
  unfold roundQ
  have : (2 : ℚ) ^ (quantumExp x + 53) = ((2 ^ 53 : ℤ) : ℚ) * 2 ^ quantumExp x := by
    rw [zpow_add₀ (by norm_num : (2 : ℚ) ≠ 0), mul_comm]
    norm_num
  rw [this]
  exact mul_le_mul_of_nonneg_right (by exact_mod_cast hr) (le_of_lt hq)

/-- A rounded value does not leave the binade of its argument downwards, in the normal
range. -/
theorem roundQ_ge_bottom {x : ℚ} (hx : 0 < x) (hn : -1022 ≤ Int.log 2 x) :
    (2 : ℚ) ^ (quantumExp x + 52) ≤ roundQ x := by
  have hqe : quantumExp x + 52 = Int.log 2 x := by
    rw [quantumExp_eq]
    rw [abs_of_pos hx, max_eq_left hn]
    omega
  have hge : (2 : ℚ) ^ (quantumExp x + 52) ≤ x := by
    rw [hqe]; exact log_le_self x hx
  have hq := two_zpow_pos (quantumExp x)
  have hsplit : (2 : ℚ) ^ (quantumExp x + 52) = ((2 ^ 52 : ℤ) : ℚ) * 2 ^ quantumExp x := by
    rw [zpow_add₀ (by norm_num : (2 : ℚ) ≠ 0), mul_comm]
    norm_num
  have hdiv : ((2 ^ 52 : ℤ) : ℚ) ≤ x / 2 ^ quantumExp x := by
    rw [le_div_iff₀ hq, ← hsplit]
    exact hge
  have hr := roundHalfEven_ge_of_ge hdiv
  unfold roundQ
  rw [hsplit]
  exact mul_le_mul_of_nonneg_right (by exact_mod_cast hr) (le_of_lt hq)

theorem quantumExp_mono {x y : ℚ} (hx : 0 < x) (h : x ≤ y) : quantumExp x ≤ quantumExp y := by
  rw [quantumExp_eq, quantumExp_eq]
  rw [abs_of_pos hx, abs_of_pos (lt_of_lt_of_le hx h)]
  have := Int.log_mono_right (b := 2) hx h
  have := max_le_max_right (-1022 : ℤ) this
  omega

/-- Rounding is monotone on the non-negative values. -/
theorem roundQ_mono {x y : ℚ} (hx : 0 ≤ x) (h : x ≤ y) : roundQ x ≤ roundQ y := by
  rcases eq_or_lt_of_le hx with h0 | hpos
  · rw [← h0, roundQ_zero]
    exact roundQ_nonneg (le_trans hx h)
  · have hy : 0 < y := lt_of_lt_of_le hpos h
    rcases lt_or_eq_of_le (quantumExp_mono hpos h) with hlt | heq
    · have h1 := roundQ_le_top hx
      have hn : -1022 ≤ Int.log 2 y := by
        by_contra hcon
        have hq : quantumExp y = -1074 := by
          rw [quantumExp_eq]
          rw [abs_of_pos hy, max_eq_right (by omega)]
          norm_num
        have := quantumExp_ge x
        omega
      have h2 := roundQ_ge_bottom hy hn
      have h3 : (2 : ℚ) ^ (quantumExp x + 53) ≤ 2 ^ (quantumExp y + 52) :=
        two_zpow_le (by omega)
      exact le_trans h1 (le_trans h3 h2)
    · unfold roundQ
      rw [heq]
      have hq := two_zpow_pos (quantumExp y)
      have hdiv : x / 2 ^ quantumExp y ≤ y / 2 ^ quantumExp y :=
        div_le_div_of_nonneg_right h (le_of_lt hq)
      have := roundHalfEven_mono hdiv
      exact mul_le_mul_of_nonneg_right (by exact_mod_cast this) (le_of_lt hq)

/-- Rounding a rounded value changes nothing. -/
theorem roundQ_idem {x : ℚ} (hx : 0 ≤ x) : roundQ (roundQ x) = roundQ x := by
  have hr0 := roundQ_nonneg hx
  have htop := roundQ_le_top hx
  have hk1074 := quantumExp_ge x
  obtain ⟨m, hm⟩ : ∃ m : ℤ, roundQ x = m * 2 ^ quantumExp x := ⟨_, rfl⟩
  obtain ⟨r, hrdef⟩ : ∃ r, r = roundQ x := ⟨_, rfl⟩
  rw [← hrdef] at hr0 htop hm ⊢
  rcases eq_or_lt_of_le hr0 with h0 | hpos
  · rw [← h0, roundQ_zero]
  · have hq := two_zpow_pos (quantumExp r)
    suffices hj : ∃ j : ℤ, r = j * 2 ^ quantumExp r by
      obtain ⟨j, hj⟩ := hj
      unfold roundQ
      have hdiv : r / 2 ^ quantumExp r = (j : ℚ) := by
        rw [div_eq_iff (ne_of_gt hq)]
        exact hj
      rw [hdiv, roundHalfEven_intCast]
      exact hj.symm
    rcases lt_or_eq_of_le htop with hlt | heq
    · have hlog : Int.log 2 r < quantumExp x + 53 := log_lt_of_lt_zpow hpos hlt
      have hqr : quantumExp r ≤ quantumExp x := by
        have hdef : quantumExp r = max (Int.log 2 r) (-1022) - 52 := by
          rw [quantumExp_eq]
          rw [abs_of_pos hpos]
        have : max (Int.log 2 r) (-1022) ≤ quantumExp x + 52 := max_le (by omega) (by omega)
        omega
      obtain ⟨d, hd⟩ : ∃ d : ℕ, quantumExp x = quantumExp r + d :=
        ⟨(quantumExp x - quantumExp r).toNat, by omega⟩
      refine ⟨m * 2 ^ d, ?_⟩
      have h2 : (2 : ℚ) ^ quantumExp x = 2 ^ quantumExp r * 2 ^ d := by
        rw [hd, zpow_add₀ (by norm_num : (2 : ℚ) ≠ 0), zpow_natCast]
      calc r = m * 2 ^ quantumExp x := hm
        _ = ((m * 2 ^ d : ℤ) : ℚ) * 2 ^ quantumExp r := by
          rw [h2]; push_cast; ring
    · have hlog : Int.log 2 r = quantumExp x + 53 := by rw [heq]; exact log_two_zpow _
      have hqr : quantumExp r = quantumExp x + 1 := by
        have hdef : quantumExp r = max (Int.log 2 r) (-1022) - 52 := by
          rw [quantumExp_eq]
          rw [abs_of_pos hpos]
        rw [hdef, hlog, max_eq_left (by omega)]
        omega
      refine ⟨2 ^ 52, ?_⟩
      calc r = 2 ^ (quantumExp x + 53) := heq
        _ = ((2 ^ 52 : ℤ) : ℚ) * 2 ^ quantumExp r := by
          rw [hqr, zpow_add₀ (by norm_num : (2 : ℚ) ≠ 0),
            zpow_add₀ (by norm_num : (2 : ℚ) ≠ 0)]
          norm_num
          ring

/-! ### Non-negative doubles -/

theorem Dbl.NN.val_nonneg {a : Dbl} (h : a.NN) : 0 ≤ a.val := by
  cases a with
  | fin q => exact h.1
  | pinf => exact le_of_lt (two_zpow_pos _)
  | ninf => exact absurd h id
  | nan => exact absurd h id

theorem Dbl.NN.val_le_top {a : Dbl} (h : a.NN) : a.val ≤ 2 ^ (1024 : ℤ) := by
  cases a with
  | fin q => exact le_of_lt h.2.2
  | pinf => exact le_refl _
  | ninf => exact absurd h id
  | nan => exact absurd h id

theorem ofRat_nn {x : ℚ} (hx : 0 ≤ x) : (Dbl.ofRat x).NN := by
  unfold Dbl.ofRat
  have h0 := roundQ_nonneg hx
  split_ifs with h1 h2
  · trivial
  · exfalso
    have := two_zpow_pos 1024
    linarith
  · exact ⟨h0, roundQ_idem hx, not_le.mp h1⟩

theorem val_ofRat {x : ℚ} (hx : 0 ≤ x) :
    (Dbl.ofRat x).val = min (roundQ x) (2 ^ (1024 : ℤ)) := by
  unfold Dbl.ofRat
  have h0 := roundQ_nonneg hx
  split_ifs with h1 h2
  · simp [Dbl.val, min_eq_right h1]
  · exfalso
    have := two_zpow_pos 1024
    linarith
  · simp [Dbl.val, min_eq_left (le_of_lt (not_le.mp h1))]

theorem val_ofRat_mono {x y : ℚ} (hx : 0 ≤ x) (h : x ≤ y) :
    (Dbl.ofRat x).val ≤ (Dbl.ofRat y).val := by
  rw [val_ofRat hx, val_ofRat (le_trans hx h)]
  exact min_le_min (roundQ_mono hx h) (le_refl _)

theorem ofRat_of_nn {q : ℚ} (h : (Dbl.fin q).NN) : Dbl.ofRat q = Dbl.fin q := by
  unfold Dbl.ofRat
  rw [h.2.1]
  have h1 : ¬ (2 : ℚ) ^ (1024 : ℤ) ≤ q := not_le.mpr h.2.2
  have h2 : ¬ q ≤ -(2 : ℚ) ^ (1024 : ℤ) := by
    have := two_zpow_pos 1024
    have := h.1
    intro hc; linarith
  rw [if_neg h1, if_neg h2]

theorem Dbl.NN.sum {a w : Dbl} (ha : a.NN) (hw : w.NN) : (Dbl.add a w).NN := by
  cases a <;> cases w <;> first | exact absurd ha id | exact absurd hw id | trivial | skip
  exact ofRat_nn (add_nonneg ha.1 hw.1)

/-- Adding a non-negative double does not take a double down. -/
theorem Dbl.NN.le_sum {a w : Dbl} (ha : a.NN) (hw : w.NN) : a.val ≤ (Dbl.add a w).val := by
  cases a with
  | fin q =>
    cases w with
    | fin r =>
      have h1 : (Dbl.ofRat q).val ≤ (Dbl.ofRat (q + r)).val :=
        val_ofRat_mono ha.1 (by have := hw.1; linarith)
      rw [ofRat_of_nn ha] at h1
      exact h1
    | pinf => exact le_of_lt ha.2.2
    | ninf => exact absurd hw id
    | nan => exact absurd hw id
  | pinf =>
    cases w with
    | fin r => exact le_refl _
    | pinf => exact le_refl _
    | ninf => exact absurd hw id
    | nan => exact absurd hw id
  | ninf => exact absurd ha id
  | nan => exact absurd ha id

/-- Rounded addition is monotone in its first argument. -/
theorem Dbl.NN.sum_mono {a b w : Dbl} (ha : a.NN) (hb : b.NN) (hw : w.NN)
    (h : a.val ≤ b.val) : (Dbl.add a w).val ≤ (Dbl.add b w).val := by
  cases w with
  | ninf => exact absurd hw id
  | nan => exact absurd hw id
  | pinf =>
    cases a <;> cases b <;> first | exact absurd ha id | exact absurd hb id | exact le_refl _
  | fin r =>
    cases a with
    | ninf => exact absurd ha id
    | nan => exact absurd ha id
    | fin q =>
      cases b with
      | ninf => exact absurd hb id
      | nan => exact absurd hb id
      | fin q' =>
        exact val_ofRat_mono (add_nonneg ha.1 hw.1) (by simp only [Dbl.val] at h; linarith)
      | pinf => exact (ofRat_nn (add_nonneg ha.1 hw.1)).val_le_top
    | pinf =>
      cases b with
      | ninf => exact absurd hb id
      | nan => exact absurd hb id
      | fin q' =>
        exfalso
        simp only [Dbl.val] at h
        have := hb.2.2
        linarith
      | pinf => exact le_refl _

theorem Dbl.NN.lt_iff {a b : Dbl} (ha : a.NN) (hb : b.NN) :
    Dbl.lt a b = true ↔ a.val < b.val := by
  cases a with
  | ninf => exact absurd ha id
  | nan => exact absurd ha id
  | fin q =>
    cases b with
    | ninf => exact absurd hb id
    | nan => exact absurd hb id
    | fin r => simp [Dbl.lt, Dbl.val]
    | pinf => simpa [Dbl.lt, Dbl.val] using ha.2.2
  | pinf =>
    cases b with
    | ninf => exact absurd hb id
    | nan => exact absurd hb id
    | fin r => simpa [Dbl.lt, Dbl.val] using le_of_lt hb.2.2
    | pinf => simp [Dbl.lt, Dbl.val]

theorem Dbl.NN.ge_iff {a b : Dbl} (ha : a.NN) (hb : b.NN) :
    Dbl.ge a b = true ↔ b.val ≤ a.val := by
  have h : Dbl.ge a b = !(Dbl.lt a b) := by
    cases a <;> cases b <;> first | exact absurd ha id | exact absurd hb id | rfl
  rw [h, ← not_lt, ← Dbl.NN.lt_iff ha hb]
  simp

theorem Dbl.NN.eq_of_val {a b : Dbl} (ha : a.NN) (hb : b.NN) (h : a.val = b.val) : a = b := by
  cases a with
  | ninf => exact absurd ha id
  | nan => exact absurd ha id
  | fin q =>
    cases b with
    | ninf => exact absurd hb id
    | nan => exact absurd hb id
    | fin r => simp only [Dbl.val] at h; rw [h]
    | pinf => simp only [Dbl.val] at h; exact absurd ha.2.2 (by rw [h]; exact lt_irrefl _)
  | pinf =>
    cases b with
    | ninf => exact absurd hb id
    | nan => exact absurd hb id
    | fin r => simp only [Dbl.val] at h; exact absurd hb.2.2 (by rw [← h]; exact lt_irrefl _)
    | pinf => rfl

/-! ### Constants and weights in double arithmetic -/

theorem ofRat_heavy : Dbl.ofRat (7 / 2) = Dbl.fin (7 / 2) := by decide!

theorem ofRat_moderate :
    Dbl.ofRat (9 / 5) = Dbl.fin (8106479329266893 / 4503599627370496) := by decide!

theorem ofRat_INF : Dbl.ofRat 1000000000 = Dbl.fin 1000000000 := by decide!

theorem nn_zero : (Dbl.fin 0).NN := ⟨le_refl _, roundQ_zero, two_zpow_pos _⟩

theorem nn_INF : (Dbl.fin 1000000000).NN := by
  rw [← ofRat_INF]
  exact ofRat_nn (by norm_num)

theorem nn_scale {a : Dbl} (ha : a.NN) {c : ℚ} (hc : 0 < c) : (Dbl.mul a (Dbl.fin c)).NN := by
  cases a with
  | ninf => exact absurd ha id
  | nan => exact absurd ha id
  | fin q => exact ofRat_nn (mul_nonneg ha.1 (le_of_lt hc))
  | pinf =>
    have : Dbl.mul Dbl.pinf (Dbl.fin c) = Dbl.pinf := by
      simp [Dbl.mul, Dbl.infTimes, ne_of_gt hc, hc]
    rw [this]
    trivial

theorem getEffectiveWeightD_nn (e : Edge) (h : 0 ≤ e.baseWeight) : e.getEffectiveWeightD.NN := by
  unfold Edge.getEffectiveWeightD
  split_ifs
  · exact ofRat_nn (by norm_num)
  · rw [ofRat_heavy]; exact nn_scale (ofRat_nn h) (by norm_num)
  · rw [ofRat_moderate]; exact nn_scale (ofRat_nn h) (by norm_num)
  · exact ofRat_nn h

theorem adjOf_weight_nn {nav : NavigationSystem} (hpos : PositiveCosts nav) {u : Int} {e : Edge}
    (he : e ∈ adjOf nav u) : e.getEffectiveWeightD.NN := by
  obtain ⟨p, hp, _, hep⟩ := adjOf_mem nav u e he
  exact getEffectiveWeightD_nn e (le_of_lt (hpos p hp e hep))

theorem walkWeightD_nil : walkWeightD [] = Dbl.fin 0 := rfl

theorem walkWeightD_snoc (es : List Edge) (e : Edge) :
    walkWeightD (es ++ [e]) = Dbl.add (walkWeightD es) e.getEffectiveWeightD := by
  simp [walkWeightD, List.foldl_append]

/-! ### The queue over doubles -/

theorem pqTopD_fold (xs : List (Dbl × Int)) (x : Dbl × Int)
    (hnn : ∀ y ∈ x :: xs, y.1.NN) :
    xs.foldl (fun m y => if pairLtD y m then y else m) x ∈ x :: xs ∧
    ∀ y ∈ x :: xs, (xs.foldl (fun m y => if pairLtD y m then y else m) x).1.val ≤ y.1.val := by
  induction xs generalizing x with
  | nil => simp
  | cons a xs ih =>
    simp only [List.foldl_cons]
    have hx : x.1.NN := hnn x (List.mem_cons_self _ _)
    have ha : a.1.NN := hnn a (List.mem_cons_of_mem _ (List.mem_cons_self _ _))
    have hnn2 : ∀ y ∈ (if pairLtD a x then a else x) :: xs, y.1.NN := by
      intro y hy
      rcases List.mem_cons.mp hy with h | h
      · rw [h]; split_ifs
        · exact ha
        · exact hx
      · exact hnn y (List.mem_cons_of_mem _ (List.mem_cons_of_mem _ h))
    obtain ⟨h1, h2⟩ := ih (if pairLtD a x then a else x) hnn2
    have hle : (if pairLtD a x then a else x).1.val ≤ a.1.val ∧
        (if pairLtD a x then a else x).1.val ≤ x.1.val := by
      split_ifs with hp
      · refine ⟨le_refl _, ?_⟩
        simp only [pairLtD, Bool.or_eq_true, Bool.and_eq_true, Bool.not_eq_true',
          decide_eq_true_eq] at hp
        rcases hp with hp | hp
        · exact le_of_lt ((Dbl.NN.lt_iff ha hx).mp hp)
        · have := hp.1
          by_contra hc
          have hlt : Dbl.lt x.1 a.1 = true := (Dbl.NN.lt_iff hx ha).mpr (not_le.mp hc)
          rw [hlt] at this
          exact absurd this (by simp)
      · refine ⟨?_, le_refl _⟩
        simp only [pairLtD, Bool.or_eq_true, Bool.and_eq_true, Bool.not_eq_true',
          decide_eq_true_eq, not_or] at hp
        by_contra hc
        exact hp.1 ((Dbl.NN.lt_iff ha hx).mpr (not_le.mp hc))
    constructor
    · rcases List.mem_cons.mp h1 with h | h
      · rw [h]; split_ifs <;> simp
      · exact List.mem_cons_of_mem _ (List.mem_cons_of_mem _ h)
    · intro y hy
      rcases List.mem_cons.mp hy with h | h
      · subst h; exact le_trans (h2 _ (List.mem_cons_self _ _)) hle.2
      · rcases List.mem_cons.mp h with h | h
        · subst h; exact le_trans (h2 _ (List.mem_cons_self _ _)) hle.1
        · exact h2 _ (List.mem_cons_of_mem _ h)

theorem pqTopD_none {pq : List (Dbl × Int)} (h : pqTopD pq = none) : pq = [] := by
  cases pq with
  | nil => rfl
  | cons x xs => simp [pqTopD] at h

theorem pqTopD_some {pq : List (Dbl × Int)} {top : Dbl × Int} (hnn : ∀ y ∈ pq, y.1.NN)
    (h : pqTopD pq = some top) : top ∈ pq ∧ ∀ x ∈ pq, top.1.val ≤ x.1.val := by
  cases pq with
  | nil => simp [pqTopD] at h
  | cons x xs =>
    simp only [pqTopD, Option.some.injEq] at h
    rw [← h]
    exact pqTopD_fold xs x hnn

/-! ### One relaxation over doubles -/

theorem finalD_not_relax {nav : NavigationSystem} {s u : Int} {st : SearchStateD} {e : Edge}
    (hw : AttainedD nav s st u) (he : e ∈ adjOf nav u) (hf : FinalD nav s st e.to_) :
    (st.dist e.to_).val ≤ (Dbl.add (st.dist u) e.getEffectiveWeightD).val := by
  obtain ⟨es, h1, h3⟩ := hw
  have := hf _ (h1.snoc he)
  rw [walkWeightD_snoc, h3] at this
  exact this

theorem relaxEdgeD_step {nav : NavigationSystem} (hpos : PositiveCosts nav) {s u : Int}
    {st : SearchStateD} (hm : MidD nav s u st) {e : Edge} (he : e ∈ adjOf nav u) :
    RelaxRunD nav s u 1 st (relaxEdgeD u st e) ∧
      ((relaxEdgeD u st e).dist e.to_).val ≤
        (Dbl.add (st.dist u) e.getEffectiveWeightD).val := by
  have hw := adjOf_weight_nn hpos he
  have hnd : (Dbl.add (st.dist u) e.getEffectiveWeightD).NN := (hm.core.nn u).sum hw
  have hge : (st.dist u).val ≤ (Dbl.add (st.dist u) e.getEffectiveWeightD).val :=
    (hm.core.nn u).le_sum hw
  by_cases hlt : Dbl.lt (Dbl.add (st.dist u) e.getEffectiveWeightD) (st.dist e.to_) = true
  · -- the relaxation succeeds
    have hlt2 : (Dbl.add (st.dist u) e.getEffectiveWeightD).val < (st.dist e.to_).val :=
      (Dbl.NN.lt_iff hnd (hm.core.nn _)).mp hlt
    have hne : e.to_ ≠ u := by
      intro h; rw [h] at hlt2; linarith
    have hnf : ¬ FinalD nav s st e.to_ := fun hf =>
      absurd (finalD_not_relax hm.walk he hf) (not_le.mpr hlt2)
    have hst : relaxEdgeD u st e =
        { pq := (Dbl.add (st.dist u) e.getEffectiveWeightD, e.to_) :: st.pq
          dist := Function.update st.dist e.to_ (Dbl.add (st.dist u) e.getEffectiveWeightD)
          parent := Function.update st.parent e.to_ (some u) } := by
      simp [relaxEdgeD, hlt]
    have hd : ∀ v, (relaxEdgeD u st e).dist v =
        if v = e.to_ then Dbl.add (st.dist u) e.getEffectiveWeightD else st.dist v := by
      intro v; rw [hst]; simp [Function.update_apply]
    have hp : ∀ v, (relaxEdgeD u st e).parent v =
        if v = e.to_ then some u else st.parent v := by
      intro v; rw [hst]; simp [Function.update_apply]
    have hq : (relaxEdgeD u st e).pq =
        (Dbl.add (st.dist u) e.getEffectiveWeightD, e.to_) :: st.pq := by
      rw [hst]
    have hdu : (relaxEdgeD u st e).dist u = st.dist u := by
      rw [hd]; simp [Ne.symm hne]
    have hdle : ∀ v, ((relaxEdgeD u st e).dist v).val ≤ (st.dist v).val := by
      intro v; rw [hd]; split_ifs with h
      · rw [h]; exact le_of_lt hlt2
      · exact le_refl _
    have hdf : ∀ x, FinalD nav s st x → (relaxEdgeD u st e).dist x = st.dist x := by
      intro x hx
      rw [hd]; split_ifs with h
      · exact absurd (h ▸ hx) hnf
      · rfl
    have hnew : AttainedD nav s (relaxEdgeD u st e) e.to_ := by
      obtain ⟨es, h1, h3⟩ := hm.walk
      refine ⟨es ++ [e], h1.snoc he, ?_⟩
      rw [walkWeightD_snoc, h3, hd, if_pos rfl]
    have hold : ∀ v, AttainedD nav s st v → AttainedD nav s (relaxEdgeD u st e) v := by
      intro v hv
      by_cases h : v = e.to_
      · rw [h]; exact hnew
      · obtain ⟨es, h1, h3⟩ := hv
        exact ⟨es, h1, by rw [hd, if_neg h]; exact h3⟩
    have hfin : ∀ x, FinalD nav s st x → FinalD nav s (relaxEdgeD u st e) x := by
      intro x hx es hes
      rw [hdf x hx]; exact hx es hes
    refine ⟨⟨⟨⟨?_, ?_, ?_, ?_, ?_⟩, ?_, ?_, ?_⟩, hdu, hdle, hdf, ?_⟩, ?_⟩
    · intro v; rw [hd]; split_ifs
      · exact hnd
      · exact hm.core.nn v
    · rw [hd, if_neg, hm.core.start]
      intro h
      rw [← h, hm.core.start] at hlt2
      have := hnd.val_nonneg
      have h0 : (Dbl.fin 0).val = 0 := rfl
      rw [h0] at hlt2
      linarith
    · intro x hx
      rw [hq] at hx
      rcases List.mem_cons.mp hx with hx | hx
      · subst hx
        refine ⟨hnd, ?_, hnew⟩
        simp only [hd, if_true]; exact le_refl _
      · obtain ⟨h1, h2, h3⟩ := hm.core.queued x hx
        exact ⟨h1, le_trans (hdle _) h2, hold _ h3⟩
    · intro v p hvp
      rw [hp] at hvp
      by_cases h : v = e.to_
      · rw [if_pos h] at hvp
        simp only [Option.some.injEq] at hvp
        subst hvp
        exact ⟨hfin _ hm.final, e, he, h.symm⟩
      · rw [if_neg h] at hvp
        obtain ⟨h1, a, ha1, ha2⟩ := hm.core.tree v p hvp
        exact ⟨hfin _ h1, a, ha1, ha2⟩
    · obtain ⟨r, hr⟩ := hm.core.ranked
      refine ⟨Function.update r e.to_ (r u + 1), ?_⟩
      intro v p hvp
      rw [hp] at hvp
      by_cases h : v = e.to_
      · rw [if_pos h] at hvp
        simp only [Option.some.injEq] at hvp
        subst hvp
        rw [h]
        simp [Function.update_apply, Ne.symm hne]
      · rw [if_neg h] at hvp
        have hpne : p ≠ e.to_ := by
          intro hc
          exact hnf (hc ▸ (hm.core.tree v p hvp).1)
        simp only [Function.update_apply, if_neg h, if_neg hpne]
        exact hr v p hvp
    · exact hfin _ hm.final
    · exact hold _ hm.walk
    · intro x hx
      by_cases h : x = e.to_
      · right; rw [hq, hd, if_pos h, h]; exact List.mem_cons_self _ _
      · rcases hm.frontier x hx with hc | hc
        · left
          intro a ha
          rw [hd x, if_neg h]
          exact le_trans (hdle _) (hc a ha)
        · right; rw [hq, hd, if_neg h]; exact List.mem_cons_of_mem _ hc
    · rw [hq]; simp
    · rw [hd, if_pos rfl]
  · -- nothing changes
    have hst : relaxEdgeD u st e = st := by simp [relaxEdgeD, hlt]
    rw [hst]
    refine ⟨⟨hm, rfl, fun _ => le_refl _, fun _ _ => rfl, Nat.le_succ _⟩, ?_⟩
    by_contra hc
    exact hlt ((Dbl.NN.lt_iff hnd (hm.core.nn _)).mpr (not_le.mp hc))

theorem relaxAllD_run {nav : NavigationSystem} (hpos : PositiveCosts nav) {s u : Int}
    (es : List Edge) (hes : ∀ e ∈ es, e ∈ adjOf nav u) :
    ∀ st : SearchStateD, MidD nav s u st →
      RelaxRunD nav s u es.length st (relaxAllD u st es) ∧
        ∀ e ∈ es, ((relaxAllD u st es).dist e.to_).val ≤
          (Dbl.add (st.dist u) e.getEffectiveWeightD).val := by
  induction es with
  | nil =>
    intro st hm
    exact ⟨⟨hm, rfl, fun _ => le_refl _, fun _ _ => rfl, le_refl _⟩, by simp⟩
  | cons a es ih =>
    intro st hm
    have ha : a ∈ adjOf nav u := hes a (List.mem_cons_self _ _)
    obtain ⟨h1, h1a⟩ := relaxEdgeD_step hpos hm ha
    obtain ⟨h2, h2a⟩ := ih (fun e he => hes e (List.mem_cons_of_mem _ he)) (relaxEdgeD u st a)
      h1.mid
    have hfold : relaxAllD u st (a :: es) = relaxAllD u (relaxEdgeD u st a) es := rfl
    rw [hfold]
    refine ⟨⟨h2.mid, by rw [h2.dist_self, h1.dist_self],
      fun v => le_trans (h2.dist_le v) (h1.dist_le v), ?_, ?_⟩, ?_⟩
    · intro x hx
      have hx1 : FinalD nav s (relaxEdgeD u st a) x := by
        intro ws hws; rw [h1.dist_final x hx]; exact hx ws hws
      rw [h2.dist_final x hx1, h1.dist_final x hx]
    · have := h2.pq_len
      have := h1.pq_len
      simp only [List.length_cons]
      omega
    · intro e he
      rcases List.mem_cons.mp he with he | he
      · subst he; exact le_trans (h2.dist_le _) h1a
      · have := h2a e he
        rw [h1.dist_self] at this
        exact this

theorem relaxAllD_closed {nav : NavigationSystem} (hpos : PositiveCosts nav) {u : Int}
    (es : List Edge) (hsub : ∀ e ∈ es, e ∈ adjOf nav u)
    (st : SearchStateD) (hnn : ∀ v, (st.dist v).NN)
    (hes : ∀ e ∈ es, (st.dist e.to_).val ≤ (Dbl.add (st.dist u) e.getEffectiveWeightD).val) :
    relaxAllD u st es = st := by
  induction es with
  | nil => rfl
  | cons a es ih =>
    have h1 : relaxEdgeD u st a = st := by
      have hle := hes a (List.mem_cons_self _ _)
      have hw := adjOf_weight_nn hpos (hsub a (List.mem_cons_self _ _))
      have hn : ¬ Dbl.lt (Dbl.add (st.dist u) a.getEffectiveWeightD) (st.dist a.to_) = true :=
        fun hc => absurd ((Dbl.NN.lt_iff ((hnn u).sum hw) (hnn _)).mp hc) (not_lt.mpr hle)
      simp [relaxEdgeD, hn]
    have hfold : relaxAllD u st (a :: es) = relaxAllD u (relaxEdgeD u st a) es := rfl
    rw [hfold, h1]
    exact ih (fun e he => hsub e (List.mem_cons_of_mem _ he))
      (fun e he => hes e (List.mem_cons_of_mem _ he))

/-! ### The loop invariant over doubles -/

/-- Every walk from `s` either has been accounted for in `dist`, or costs at least as much
as every queued key. -/
theorem walk_boundD {nav : NavigationSystem} (hpos : PositiveCosts nav) {s : Int}
    {st : SearchStateD} (hinv : InvD nav s st) (m : ℚ) (hm : ∀ x ∈ st.pq, m ≤ x.1.val)
    (es : List Edge) :
    ∀ v, IsWalk (adjOf nav) s es v → (walkWeightD es).NN ∧
      ((st.dist v).val ≤ (walkWeightD es).val ∨ m ≤ (walkWeightD es).val) := by
  induction es using List.reverseRecOn with
  | nil =>
    intro v hv
    simp only [IsWalk] at hv
    subst hv
    refine ⟨nn_zero, Or.inl ?_⟩
    rw [hinv.core.start, walkWeightD_nil]
  | append_singleton es e ih =>
    intro v hv
    obtain ⟨x, hx1, hx2, hx3⟩ := hv.of_snoc
    have hw := adjOf_weight_nn hpos hx2
    obtain ⟨hnn, hcase⟩ := ih x hx1
    rw [walkWeightD_snoc]
    have hup := hnn.le_sum hw
    refine ⟨hnn.sum hw, ?_⟩
    rcases hcase with h | h
    · rcases hinv.frontier x with hc | hq
      · left
        have h1 := hc e hx2
        rw [hx3] at h1
        exact le_trans h1 ((hinv.core.nn x).sum_mono hnn hw h)
      · right
        have := hm _ hq
        simp only at this
        linarith
    · right; linarith

theorem finalD_of_top {nav : NavigationSystem} (hpos : PositiveCosts nav) {s : Int}
    {st : SearchStateD} (hinv : InvD nav s st) {top : Dbl × Int}
    (htop : pqTopD st.pq = some top) : FinalD nav s st top.2 := by
  obtain ⟨hmem, hmin⟩ := pqTopD_some (fun y hy => (hinv.core.queued y hy).1) htop
  intro es hes
  rcases (walk_boundD hpos hinv top.1.val hmin es top.2 hes).2 with h | h
  · exact h
  · exact le_trans (hinv.core.queued top hmem).2.1 h

theorem finalD_of_empty {nav : NavigationSystem} (hpos : PositiveCosts nav) {s : Int}
    {st : SearchStateD} (hinv : InvD nav s st) (hq : st.pq = []) (v : Int) :
    FinalD nav s st v := by
  intro es hes
  rcases (walk_boundD hpos hinv ((walkWeightD es).val + 1) (by simp [hq]) es v hes).2 with h | h
  · exact h
  · linarith

theorem coreD_erase {nav : NavigationSystem} {s : Int} {st : SearchStateD}
    (h : CoreD nav s st) (top : Dbl × Int) :
    CoreD nav s { st with pq := st.pq.erase top } :=
  ⟨h.nn, h.start, fun x hx => h.queued x (List.mem_of_mem_erase hx), h.tree, h.ranked⟩

theorem invD_pop {nav : NavigationSystem} (hpos : PositiveCosts nav) {s : Int}
    {st : SearchStateD} (hinv : InvD nav s st) {top : Dbl × Int}
    (htop : pqTopD st.pq = some top) :
    MidD nav s top.2 { st with pq := st.pq.erase top } := by
  obtain ⟨hmem, _⟩ := pqTopD_some (fun y hy => (hinv.core.queued y hy).1) htop
  obtain ⟨_, _, hw⟩ := hinv.core.queued top hmem
  refine ⟨coreD_erase hinv.core top, finalD_of_top hpos hinv htop, hw, ?_⟩
  intro x hx
  rcases hinv.frontier x with hc | hq
  · exact Or.inl hc
  · right
    have hne : (st.dist x, x) ≠ top := by
      intro h; apply hx; rw [← h]
    exact (List.mem_erase_of_ne hne).mpr hq

/-- One full turn of the `while` loop over doubles keeps the invariant. -/
theorem invD_turn {nav : NavigationSystem} (hpos : PositiveCosts nav) {s : Int}
    {st : SearchStateD} (hinv : InvD nav s st) {top : Dbl × Int}
    (htop : pqTopD st.pq = some top) :
    InvD nav s (relaxAllD top.2 { st with pq := st.pq.erase top } (adjOf nav top.2)) ∧
    RelaxRunD nav s top.2 (adjOf nav top.2).length { st with pq := st.pq.erase top }
      (relaxAllD top.2 { st with pq := st.pq.erase top } (adjOf nav top.2)) ∧
    ClosedD nav (relaxAllD top.2 { st with pq := st.pq.erase top } (adjOf nav top.2)) top.2 := by
  have hmid := invD_pop hpos hinv htop
  obtain ⟨hrun, hcl⟩ := relaxAllD_run hpos (adjOf nav top.2) (fun e he => he) _ hmid
  have hclosed : ClosedD nav
      (relaxAllD top.2 { st with pq := st.pq.erase top } (adjOf nav top.2)) top.2 := by
    intro e he
    have := hcl e he
    rw [hrun.dist_self]
    exact this
  refine ⟨⟨hrun.mid.core, ?_⟩, hrun, hclosed⟩
  intro x
  by_cases hx : x = top.2
  · left; rw [hx]; exact hclosed
  · exact hrun.mid.frontier x hx

theorem initStateD_inv (nav : NavigationSystem) (hpos : PositiveCosts nav)
    (hreg : EndpointsRegistered nav) (s : Int) : InvD nav s (initStateD nav s) := by
  have hdist : ∀ v, (initStateD nav s).dist v = Dbl.fin 0 ∨
      (initStateD nav s).dist v = Dbl.fin 1000000000 := by
    intro v
    simp only [initStateD]
    split_ifs
    · exact Or.inl rfl
    · exact Or.inr ofRat_INF
    · exact Or.inl rfl
  have hnn : ∀ v, ((initStateD nav s).dist v).NN := by
    intro v
    rcases hdist v with h | h <;> rw [h]
    · exact nn_zero
    · exact nn_INF
  have hs0 : (initStateD nav s).dist s = Dbl.fin 0 := by simp [initStateD]
  refine ⟨⟨hnn, hs0, ?_, ?_, ⟨fun _ => 0, ?_⟩⟩, ?_⟩
  · intro x hx
    have : x = (Dbl.fin 0, s) := by simpa [initStateD] using hx
    subst this
    refine ⟨nn_zero, ?_, ⟨[], rfl, ?_⟩⟩
    · simp only [hs0]; exact le_refl _
    · simp only [hs0]; rfl
  · intro v u h
    simp [initStateD] at h
  · intro v u h
    simp [initStateD] at h
  · intro x
    by_cases hx : x = s
    · right; subst hx; simp [initStateD]
    · left
      intro e he
      have hw := adjOf_weight_nn hpos he
      obtain ⟨p, hp, hpx, hep⟩ := adjOf_mem nav x e he
      have hrx : registered nav x = true := by
        rw [← hpx]; exact (hreg p hp e hep).1
      have h1 : (initStateD nav s).dist x = Dbl.fin 1000000000 := by
        simp [initStateD, hx, hrx, ofRat_INF]
      have h2 : ((initStateD nav s).dist e.to_).val ≤ 1000000000 := by
        rcases hdist e.to_ with h | h <;> rw [h] <;> simp [Dbl.val]
      have h3 := (hnn x).le_sum hw
      rw [h1] at h3 ⊢
      have h0 : (Dbl.fin 1000000000).val = 1000000000 := rfl
      rw [h0] at h3
      linarith

/-- Partial correctness of the search loop over doubles. -/
theorem searchLoopD_post {nav : NavigationSystem} (hpos : PositiveCosts nav) {s t : Int} :
    ∀ (fuel : Nat) (st st' : SearchStateD), InvD nav s st →
      searchLoopD nav t fuel st = some st' → CoreD nav s st' ∧ FinalD nav s st' t := by
  intro fuel
  induction fuel with
  | zero => intro st st' _ h; simp [searchLoopD] at h
  | succ n ih =>
    intro st st' hinv h
    simp only [searchLoopD] at h
    cases htop : pqTopD st.pq with
    | none =>
      rw [htop] at h
      simp only [Option.some.injEq] at h
      subst h
      exact ⟨hinv.core, finalD_of_empty hpos hinv (pqTopD_none htop) t⟩
    | some top =>
      rw [htop] at h
      simp only at h
      split_ifs at h with hu
      · simp only [Option.some.injEq] at h
        subst h
        refine ⟨coreD_erase hinv.core top, ?_⟩
        have := finalD_of_top hpos hinv htop
        rw [hu] at this
        exact this
      · exact ih _ _ (invD_turn hpos hinv htop).1 h

/-! ### Termination over doubles -/

/-- The search loop over doubles stops: every turn pops one entry, and only the first
visit of a node can push, at most once per adjacency entry. -/
theorem searchLoopD_terminates {nav : NavigationSystem} (hpos : PositiveCosts nav)
    {s t : Int} :
    ∀ (n : Nat) (st : SearchStateD) (S : List Int), InvD nav s st →
      (∀ x ∈ S, ClosedD nav st x ∧ FinalD nav s st x) →
      st.pq.length + remaining nav.adj S < n →
      ∃ st', searchLoopD nav t n st = some st' := by
  intro n
  induction n with
  | zero => intro st S _ _ h; omega
  | succ n ih =>
    intro st S hinv hS hlt
    simp only [searchLoopD]
    cases htop : pqTopD st.pq with
    | none => exact ⟨st, rfl⟩
    | some top =>
      simp only
      split_ifs with hu
      · exact ⟨_, rfl⟩
      · obtain ⟨hinv2, hrun, hclosed⟩ := invD_turn hpos hinv htop
        have hmem := (pqTopD_some (fun y hy => (hinv.core.queued y hy).1) htop).1
        have hlen : (st.pq.erase top).length = st.pq.length - 1 := List.length_erase_of_mem hmem
        have hpos1 : 0 < st.pq.length := List.length_pos_of_mem hmem
        by_cases hc : ClosedD nav st top.2
        · have hsame : relaxAllD top.2 { st with pq := st.pq.erase top } (adjOf nav top.2) =
              { st with pq := st.pq.erase top } :=
            relaxAllD_closed hpos _ (fun e he => he) _ hinv.core.nn hc
          rw [hsame] at hinv2 ⊢
          apply ih _ S hinv2 (fun x hx => hS x hx)
          simp only [hlen]
          omega
        · have hne : adjOf nav top.2 ≠ [] := by
            intro h
            apply hc
            intro e he
            rw [h] at he
            simp at he
          have huS : top.2 ∉ S := fun h => hc (hS _ h).1
          have hrem := remaining_settle nav.adj top.2 (adjOf nav top.2) S
            (adjOf_entry nav top.2 hne) huS
          have hpl := hrun.pq_len
          simp only [hlen] at hpl
          apply ih _ (top.2 :: S) hinv2
          · intro x hx
            rcases List.mem_cons.mp hx with hx | hx
            · subst hx
              exact ⟨hclosed, hrun.mid.final⟩
            · obtain ⟨h1, h2⟩ := hS x hx
              have hdx := hrun.dist_final x h2
              refine ⟨?_, ?_⟩
              · intro e he
                rw [hdx]
                exact le_trans (hrun.dist_le _) (h1 e he)
              · intro es hes
                rw [hdx]
                exact h2 es hes
          · omega

/-- The walk along the parent links stops: the links go down a rank, and every node with
a parent is the target of a stored road. -/
theorem walkBackD_terminates {nav : NavigationSystem} {s : Int} {st : SearchStateD}
    (hcore : CoreD nav s st) (r : Int → ℕ)
    (hr : ∀ v u, st.parent v = some u → r u < r v) :
    ∀ (n : Nat) (curr : Int) (path : List Int),
      (((targets nav).toFinset).filter (fun x => r x < r curr)).card + 2 ≤ n →
      ∃ p, walkBack st.parent n curr path = some p := by
  intro n
  induction n with
  | zero => intro curr path h; omega
  | succ n ih =>
    intro curr path h
    simp only [walkBack]
    cases hp : st.parent curr with
    | none => exact ⟨path, rfl⟩
    | some p =>
      simp only
      have hlt : r p < r curr := hr curr p hp
      cases hq : st.parent p with
      | none =>
        cases n with
        | zero => omega
        | succ k => exact ⟨path ++ [curr], by simp [walkBack, hq]⟩
      | some q =>
        obtain ⟨_, a, ha1, ha2⟩ := hcore.tree p q hq
        have hpF : p ∈ (targets nav).toFinset := by
          rw [List.mem_toFinset, ← ha2]
          exact adjOf_target nav q a ha1
        apply ih
        have hss : ((targets nav).toFinset).filter (fun x => r x < r p) ⊂
            ((targets nav).toFinset).filter (fun x => r x < r curr) := by
          rw [Finset.ssubset_iff_of_subset]
          · exact ⟨p, Finset.mem_filter.mpr ⟨hpF, hlt⟩, fun h =>
              lt_irrefl _ (Finset.mem_filter.mp h).2⟩
          · intro x hx
            obtain ⟨hx1, hx2⟩ := Finset.mem_filter.mp hx
            exact Finset.mem_filter.mpr ⟨hx1, lt_trans hx2 hlt⟩
        have := Finset.card_lt_card hss
        omega

/-! ### Fuel, over doubles -/

theorem searchLoopD_succ (nav : NavigationSystem) (t : Int) :
    ∀ (n : Nat) (st r : SearchStateD), searchLoopD nav t n st = some r →
      searchLoopD nav t (n + 1) st = some r := by
  intro n
  induction n with
  | zero => intro st r h; simp [searchLoopD] at h
  | succ n ih =>
    intro st r h
    rw [searchLoopD] at h ⊢
    cases htop : pqTopD st.pq with
    | none => rw [htop] at h; exact h
    | some top =>
      rw [htop] at h
      simp only at h ⊢
      split_ifs at h ⊢ with hu
      · exact h
      · exact ih _ _ h

theorem searchLoopD_mono (nav : NavigationSystem) (t : Int) {n m : Nat} (hnm : n ≤ m)
    (st r : SearchStateD) (h : searchLoopD nav t n st = some r) :
    searchLoopD nav t m st = some r := by
  induction hnm with
  | refl => exact h
  | step _ ih => exact searchLoopD_succ nav t _ st r ih

/-- A result obtained over doubles with some fuel is the result with any larger fuel. -/
theorem findOptimizedPathD_mono (nav : NavigationSystem) (s t : Int) {n m : Nat} (hnm : n ≤ m)
    (r : RouteResultD) (h : findOptimizedPathD n nav s t = some r) :
    findOptimizedPathD m nav s t = some r := by
  unfold findOptimizedPathD at h ⊢
  cases hl : searchLoopD nav t n (initStateD nav s) with
  | none => rw [hl] at h; simp at h
  | some st =>
    rw [hl] at h
    rw [searchLoopD_mono nav t hnm _ _ hl]
    simp only at h ⊢
    split_ifs at h ⊢ with hd
    · exact h
    · cases hw : walkBack st.parent n t [] with
      | none => rw [hw] at h; simp at h
      | some path =>
        rw [hw] at h
        rw [walkBack_mono st.parent hnm _ _ _ hw]
        exact h

/-! ### What a call computes, over doubles -/

/-- The state a finished call over doubles stopped in, and how the answer is read off. -/
theorem findOptimizedPathD_some {nav : NavigationSystem} (hpos : PositiveCosts nav)
    (hreg : EndpointsRegistered nav) {s t : Int} {fuel : Nat} {r : RouteResultD}
    (h : findOptimizedPathD fuel nav s t = some r) :
    ∃ st, CoreD nav s st ∧ FinalD nav s st t ∧
      ((1000000000 ≤ (st.dist t).val ∧ r = RouteResultD.NoPath) ∨
       ((st.dist t).val < 1000000000 ∧ ∃ path, walkBack st.parent fuel t [] = some path ∧
          r = RouteResultD.Route (path ++ [s]).reverse (st.dist t))) := by
  unfold findOptimizedPathD at h
  cases hl : searchLoopD nav t fuel (initStateD nav s) with
  | none => rw [hl] at h; simp at h
  | some st =>
    rw [hl] at h
    simp only at h
    obtain ⟨hc, hf⟩ := searchLoopD_post hpos fuel _ _ (initStateD_inv nav hpos hreg s) hl
    refine ⟨st, hc, hf, ?_⟩
    have hge : Dbl.ge (st.dist t) (Dbl.ofRat 1000000000) = true ↔
        1000000000 ≤ (st.dist t).val := by
      rw [ofRat_INF, Dbl.NN.ge_iff (hc.nn t) nn_INF]
      rfl
    split_ifs at h with hd
    · left; exact ⟨hge.mp hd, by simpa using h.symm⟩
    · right
      refine ⟨not_le.mp (fun hc2 => hd (hge.mpr hc2)), ?_⟩
      cases hw : walkBack st.parent fuel t [] with
      | none => rw [hw] at h; simp at h
      | some path =>
        rw [hw] at h
        exact ⟨path, rfl, by simpa using h.symm⟩

/-- With `fuelBound nav` fuel both loops finish, over doubles too. -/
theorem findOptimizedPathD_terminates {nav : NavigationSystem} (hpos : PositiveCosts nav)
    (hreg : EndpointsRegistered nav) (s t : Int) {fuel : Nat} (hfuel : fuelBound nav ≤ fuel) :
    ∃ r, findOptimizedPathD fuel nav s t = some r := by
  have hinit := initStateD_inv nav hpos hreg s
  obtain ⟨st, hst⟩ := searchLoopD_terminates hpos (t := t) fuel (initStateD nav s) [] hinit
    (by simp) (by
      rw [remaining_nil]
      simp only [initStateD, List.length_singleton]
      unfold fuelBound at hfuel
      omega)
  obtain ⟨hc, _⟩ := searchLoopD_post hpos fuel _ _ hinit hst
  obtain ⟨r, hr⟩ := hc.ranked
  obtain ⟨path, hpath⟩ := walkBackD_terminates hc r hr fuel t []
    (le_trans (targets_card_le nav _) hfuel)
  unfold findOptimizedPathD
  rw [hst]
  simp only
  split_ifs
  · exact ⟨_, rfl⟩
  · rw [hpath]; exact ⟨_, rfl⟩

/-! ### Rounding error -/

theorem roundHalfEven_near (y : ℚ) : |(roundHalfEven y : ℚ) - y| ≤ 1 / 2 := by
  have h1 := Int.floor_le y
  have h2 := Int.lt_floor_add_one y
  rw [abs_le]
  unfold roundHalfEven
  split_ifs <;> push_cast <;> constructor <;> linarith

theorem roundQ_near (x : ℚ) : |roundQ x - x| ≤ 2 ^ quantumExp x / 2 := by
  have hq := two_zpow_pos (quantumExp x)
  have h := roundHalfEven_near (x / 2 ^ quantumExp x)
  have he : roundQ x - x =
      ((roundHalfEven (x / 2 ^ quantumExp x) : ℚ) - x / 2 ^ quantumExp x) * 2 ^ quantumExp x := by
    unfold roundQ
    field_simp
  rw [he, abs_mul, abs_of_pos hq]
  calc |(roundHalfEven (x / 2 ^ quantumExp x) : ℚ) - x / 2 ^ quantumExp x| * 2 ^ quantumExp x
      ≤ 1 / 2 * 2 ^ quantumExp x := mul_le_mul_of_nonneg_right h (le_of_lt hq)
    _ = 2 ^ quantumExp x / 2 := by ring

/-- In the normal range a rounded value is within the relative error `2^-53`. -/
theorem roundQ_rel_err {x : ℚ} (hx : (2 : ℚ) ^ (-1022 : ℤ) ≤ x) :
    |roundQ x - x| ≤ x / 2 ^ 53 := by
  have hpos : 0 < x := lt_of_lt_of_le (two_zpow_pos _) hx
  have hlog : -1022 ≤ Int.log 2 x :=
    (Int.zpow_le_iff_le_log (R := ℚ) (b := 2) (by norm_num) (x := -1022) hpos).mp
      (by simpa using hx)
  have hqe : quantumExp x = Int.log 2 x - 52 := by
    rw [quantumExp_eq, abs_of_pos hpos, max_eq_left hlog]
  have h1 := roundQ_near x
  have h2 : (2 : ℚ) ^ quantumExp x = 2 ^ Int.log 2 x / 2 ^ 52 := by
    rw [hqe, zpow_sub₀ (by norm_num : (2 : ℚ) ≠ 0)]
    norm_num
  have h3 := log_le_self x hpos
  rw [h2] at h1
  have h4 : (2 : ℚ) ^ Int.log 2 x / 2 ^ 52 / 2 ≤ x / 2 ^ 53 := by
    rw [div_div, div_le_div_iff₀ (by positivity) (by positivity)]
    have : (2 : ℚ) ^ 52 * 2 = 2 ^ 53 := by norm_num
    rw [this]
    nlinarith [two_zpow_pos (Int.log 2 x)]
  exact le_trans h1 h4

theorem ofRat_fin {x w : ℚ} (h : Dbl.ofRat x = Dbl.fin w) : w = roundQ x := by
  unfold Dbl.ofRat at h
  split_ifs at h
  simp only [Dbl.fin.injEq] at h
  exact h.symm

theorem walkWeightD_nn {nav : NavigationSystem} (hpos : PositiveCosts nav) {s : Int}
    (es : List Edge) : ∀ v, IsWalk (adjOf nav) s es v → (walkWeightD es).NN := by
  induction es using List.reverseRecOn with
  | nil => intro v _; exact nn_zero
  | append_singleton es e ih =>
    intro v hv
    obtain ⟨x, hx1, hx2, _⟩ := hv.of_snoc
    rw [walkWeightD_snoc]
    exact (ih x hx1).sum (adjOf_weight_nn hpos hx2)

/-! ### The weight of one road in double arithmetic -/

theorem mul_fin (a b : ℚ) : Dbl.mul (Dbl.fin a) (Dbl.fin b) = Dbl.ofRat (a * b) := rfl

theorem getEffectiveWeightD_clear (t : Int) (b : ℚ) :
    (Edge.mk t b RoadStatus.CLEAR).getEffectiveWeightD = Dbl.ofRat b := by
  unfold Edge.getEffectiveWeightD
  rw [if_neg (by simp), if_neg (by simp), if_neg (by simp)]

theorem getEffectiveWeightD_moderate (t : Int) (b : ℚ) :
    (Edge.mk t b RoadStatus.MODERATE).getEffectiveWeightD =
      Dbl.mul (Dbl.ofRat b) (Dbl.fin (8106479329266893 / 4503599627370496)) := by
  unfold Edge.getEffectiveWeightD
  rw [if_neg (by simp), if_neg (by simp), if_pos rfl, ofRat_moderate]

theorem getEffectiveWeightD_heavy (t : Int) (b : ℚ) :
    (Edge.mk t b RoadStatus.HEAVY).getEffectiveWeightD =
      Dbl.mul (Dbl.ofRat b) (Dbl.fin (7 / 2)) := by
  unfold Edge.getEffectiveWeightD
  rw [if_neg (by simp), if_pos rfl, ofRat_heavy]

theorem getEffectiveWeightD_blocked (t : Int) (b : ℚ) :
    (Edge.mk t b RoadStatus.BLOCKED).getEffectiveWeightD = Dbl.fin 1000000000 := by
  unfold Edge.getEffectiveWeightD
  rw [if_pos rfl, ofRat_INF]

theorem moderate_err {b w : ℚ} (hlow : (2 : ℚ) ^ (-1022 : ℤ) ≤ b)
    (hw : Dbl.ofRat (b * (8106479329266893 / 4503599627370496)) = Dbl.fin w) :
    |w - 9 * b / 5| ≤ 9 * b / 5 / 2 ^ 52 := by
  have hbpos : 0 < b := lt_of_lt_of_le (two_zpow_pos _) hlow
  have hx : (2 : ℚ) ^ (-1022 : ℤ) ≤ b * (8106479329266893 / 4503599627370496) := by
    have : b ≤ b * (8106479329266893 / 4503599627370496) := by
      have : (1 : ℚ) ≤ 8106479329266893 / 4503599627370496 := by norm_num
      nlinarith
    exact le_trans hlow this
  have herr := roundQ_rel_err hx
  rw [← ofRat_fin hw] at herr
  have hsplit : w - 9 * b / 5 =
      (w - b * (8106479329266893 / 4503599627370496)) + b / (5 * 2 ^ 52) := by
    norm_num
    ring
  rw [hsplit]
  have h2 : |b / (5 * 2 ^ 52)| = b / (5 * 2 ^ 52) := abs_of_pos (by positivity)
  have h3 := abs_add (w - b * (8106479329266893 / 4503599627370496)) (b / (5 * 2 ^ 52))
  rw [h2] at h3
  have h4 : b * (8106479329266893 / 4503599627370496) / 2 ^ 53 + b / (5 * 2 ^ 52) ≤
      9 * b / 5 / 2 ^ 52 := by
    norm_num
    linarith
  linarith

theorem heavy_err {b w : ℚ} (hlow : (2 : ℚ) ^ (-1022 : ℤ) ≤ b)
    (hw : Dbl.ofRat (b * (7 / 2)) = Dbl.fin w) :
    |w - 7 * b / 2| ≤ 7 * b / 2 / 2 ^ 53 := by
  have hbpos : 0 < b := lt_of_lt_of_le (two_zpow_pos _) hlow
  have hx : (2 : ℚ) ^ (-1022 : ℤ) ≤ b * (7 / 2) := by
    have : b ≤ b * (7 / 2) := by linarith
    exact le_trans hlow this
  have herr := roundQ_rel_err hx
  rw [← ofRat_fin hw] at herr
  have e1 : b * (7 / 2) = 7 * b / 2 := by ring
  rw [e1] at herr
  exact herr

theorem nn_below_INF {a : Dbl} (ha : a.NN) (h : a.val < 1000000000) :
    ∃ q : ℚ, a = Dbl.fin q ∧ 0 ≤ q ∧ q < 1000000000 := by
  cases a with
  | fin q => exact ⟨q, rfl, ha.1, h⟩
  | pinf =>
    exfalso
    have h1 : (2 : ℚ) ^ (30 : ℤ) ≤ 2 ^ (1024 : ℤ) := two_zpow_le (by norm_num)
    have h2 : (2 : ℚ) ^ (30 : ℤ) = 1073741824 := by norm_num
    have h3 : (Dbl.pinf).val = 2 ^ (1024 : ℤ) := rfl
    rw [h3] at h
    rw [h2] at h1
    exact absurd (lt_of_le_of_lt h1 h) (by norm_num)
  | ninf => exact absurd ha id
  | nan => exact absurd ha id

/-! ## The claims that depend on rounding -/

/-- C1, as stated, fails: the one road of `moderateRoad` is `MODERATE` with base cost `3`;
the reported cost is the double `3 * 1.8 = 5.4000000000000004`, which is above `27 / 5`,
the weight of that road in exact arithmetic. -/
theorem find_route_cost_above_exact_weight :
    PositiveCosts moderateRoad ∧ EndpointsRegistered moderateRoad ∧
    registered moderateRoad 0 = true ∧ registered moderateRoad 1 = true ∧
    (∀ fuel, 3 ≤ fuel → findOptimizedPathD fuel moderateRoad 0 1 =
      some (RouteResultD.Route [0, 1] (Dbl.fin (3039929748475085 / 562949953421312)))) ∧
    IsWalk (adjOf moderateRoad) 0 [⟨1, 3, RoadStatus.MODERATE⟩] 1 ∧
    Unblocked [⟨1, 3, RoadStatus.MODERATE⟩] ∧
    walkWeight [⟨1, 3, RoadStatus.MODERATE⟩] = 27 / 5 ∧
    walkWeight [⟨1, 3, RoadStatus.MODERATE⟩] < 3039929748475085 / 562949953421312 :=
  ⟨by decide!, by decide!, by decide!, by decide!,
    fun _ hfuel => findOptimizedPathD_mono moderateRoad 0 1 hfuel _ (by decide!),
    by decide!, by decide!, by decide!, by decide!⟩

/-- C1, amended: in a store whose roads have positive base cost and registered endpoints,
when `findOptimizedPath`, run in double arithmetic, reports a route of cost `c` between
registered `s` and `t`, then `c` is a finite double with `0 ≤ c < 1e9`, and for every walk
from `s` to `t` over roads that are not `BLOCKED` the comparison `w >= c` holds, `w` being
the cost of the walk as the search accumulates it: from `0`, one rounded addition of the
road's rounded weight per road. -/
theorem find_route_optimal_rounded (nav : NavigationSystem) (s t : Int) (fuel : Nat)
    (p : List Int) (c : Dbl)
    (hpos : PositiveCosts nav) (hreg : EndpointsRegistered nav)
    (_hs : registered nav s = true) (_ht : registered nav t = true)
    (h : findOptimizedPathD fuel nav s t = some (RouteResultD.Route p c))
    (es : List Edge) (hwalk : IsWalk (adjOf nav) s es t) (_hub : Unblocked es) :
    (∃ q : ℚ, c = Dbl.fin q ∧ 0 ≤ q ∧ q < 1000000000) ∧
    Dbl.ge (walkWeightD es) c = true := by
  obtain ⟨st, hc, hf, hcase⟩ := findOptimizedPathD_some hpos hreg h
  rcases hcase with ⟨_, hr⟩ | ⟨hlt, path, _, hr⟩
  · simp at hr
  · simp only [RouteResultD.Route.injEq] at hr
    rw [hr.2]
    refine ⟨nn_below_INF (hc.nn t) hlt, ?_⟩
    rw [Dbl.NN.ge_iff (walkWeightD_nn hpos es t hwalk) (hc.nn t)]
    exact hf es hwalk

theorem find_route_optimal_rounded_witness :
    PositiveCosts tieRoads ∧ EndpointsRegistered tieRoads ∧
    registered tieRoads 0 = true ∧ registered tieRoads 1 = true ∧
    findOptimizedPathD 14 tieRoads 0 1 =
      some (RouteResultD.Route [0, 1] (Dbl.fin (3602879701896397 / 562949953421312))) ∧
    IsWalk (adjOf tieRoads) 0 [⟨2, 3, RoadStatus.MODERATE⟩, ⟨1, 1, RoadStatus.CLEAR⟩] 1 ∧
    Unblocked [⟨2, 3, RoadStatus.MODERATE⟩, ⟨1, 1, RoadStatus.CLEAR⟩] ∧
    (∃ q : ℚ, Dbl.fin (3602879701896397 / 562949953421312) = Dbl.fin q ∧ 0 ≤ q ∧
      q < 1000000000) ∧
    Dbl.ge (walkWeightD [⟨2, 3, RoadStatus.MODERATE⟩, ⟨1, 1, RoadStatus.CLEAR⟩])
      (Dbl.fin (3602879701896397 / 562949953421312)) = true :=
  ⟨by decide!, by decide!, by decide!, by decide!, by decide!, by decide!, by decide!,
    find_route_optimal_rounded tieRoads 0 1 14 [0, 1] _ (by decide!) (by decide!) (by decide!)
      (by decide!) (by decide!) _ (by decide!) (by decide!)⟩

/-- C5, as stated, fails: the road of `longRoad` is clear and joins `0` and `1`, yet the
answer is `NoPath`, in exact and in double arithmetic alike, because its cost is not below
the `1e9` the search starts from. -/
theorem find_route_nopath_despite_path :
    PositiveCosts longRoad ∧ EndpointsRegistered longRoad ∧
    registered longRoad 0 = true ∧ registered longRoad 1 = true ∧
    IsWalk (adjOf longRoad) 0 [⟨1, 1000000000, RoadStatus.CLEAR⟩] 1 ∧
    Unblocked [⟨1, 1000000000, RoadStatus.CLEAR⟩] ∧
    (∀ fuel, 3 ≤ fuel → findOptimizedPath fuel longRoad 0 1 = some RouteResult.NoPath) ∧
    ∀ fuel, 3 ≤ fuel → findOptimizedPathD fuel longRoad 0 1 = some RouteResultD.NoPath :=
  ⟨by decide!, by decide!, by decide!, by decide!, by decide!, by decide!,
    fun _ hfuel => findOptimizedPath_mono longRoad 0 1 hfuel _ (by decide!),
    fun _ hfuel => findOptimizedPathD_mono longRoad 0 1 hfuel _ (by decide!)⟩

/-- The bound of the amended C5 is on the accumulated double, not on the sum in exact
arithmetic: the two clear roads of `nearLimit` weigh `1e9 - 2^-31` together, the rounded
sum is `1e9`, and the answer in double arithmetic is `NoPath`. -/
theorem find_route_nopath_below_limit :
    PositiveCosts nearLimit ∧ EndpointsRegistered nearLimit ∧
    IsWalk (adjOf nearLimit) 0
      [⟨1, 999999999, RoadStatus.CLEAR⟩, ⟨2, 2147483647 / 2147483648, RoadStatus.CLEAR⟩] 2 ∧
    walkWeight
      [⟨1, 999999999, RoadStatus.CLEAR⟩, ⟨2, 2147483647 / 2147483648, RoadStatus.CLEAR⟩] < INF ∧
    walkWeightD
      [⟨1, 999999999, RoadStatus.CLEAR⟩, ⟨2, 2147483647 / 2147483648, RoadStatus.CLEAR⟩] =
      Dbl.fin 1000000000 ∧
    ∀ fuel, 6 ≤ fuel → findOptimizedPathD fuel nearLimit 0 2 = some RouteResultD.NoPath :=
  ⟨by decide!, by decide!, by decide!, by decide!, by decide!,
    fun _ hfuel => findOptimizedPathD_mono nearLimit 0 2 hfuel _ (by decide!)⟩

/-- C5, amended: in a store whose roads have positive base cost and registered endpoints,
for registered `s` and `t`, when some walk from `s` to `t` over roads that are not
`BLOCKED` has an accumulated cost (from `0`, one rounded addition of the road's rounded
weight per road) that compares below `1e9`, `findOptimizedPath`, run in double arithmetic,
finishes with any fuel from `fuelBound nav` on and reports a route, not `NoPath`. -/
theorem find_route_finds_cheap_path_rounded (nav : NavigationSystem) (s t : Int) (fuel : Nat)
    (hpos : PositiveCosts nav) (hreg : EndpointsRegistered nav)
    (_hs : registered nav s = true) (_ht : registered nav t = true)
    (hex : ∃ es, IsWalk (adjOf nav) s es t ∧ Unblocked es ∧
      Dbl.lt (walkWeightD es) (Dbl.fin 1000000000) = true)
    (hfuel : fuelBound nav ≤ fuel) :
    ∃ p c, findOptimizedPathD fuel nav s t = some (RouteResultD.Route p c) := by
  obtain ⟨r, hr⟩ := findOptimizedPathD_terminates hpos hreg s t hfuel
  cases r with
  | Route p c => exact ⟨p, c, hr⟩
  | NoPath =>
    exfalso
    obtain ⟨st, _, hf, hcase⟩ := findOptimizedPathD_some hpos hreg hr
    obtain ⟨es, hwalk, _, hlt⟩ := hex
    have hle := hf es hwalk
    have hlt2 := (Dbl.NN.lt_iff (walkWeightD_nn hpos es t hwalk) nn_INF).mp hlt
    have h0 : (Dbl.fin 1000000000).val = 1000000000 := rfl
    rw [h0] at hlt2
    rcases hcase with ⟨hinf, _⟩ | ⟨_, _, _, habs⟩
    · linarith
    · simp at habs

theorem find_route_finds_cheap_path_rounded_witness :
    PositiveCosts tieRoads ∧ EndpointsRegistered tieRoads ∧
    registered tieRoads 0 = true ∧ registered tieRoads 1 = true ∧
    (∃ es, IsWalk (adjOf tieRoads) 0 es 1 ∧ Unblocked es ∧
      Dbl.lt (walkWeightD es) (Dbl.fin 1000000000) = true) ∧
    fuelBound tieRoads ≤ 8 ∧
    ∃ p c, findOptimizedPathD 8 tieRoads 0 1 = some (RouteResultD.Route p c) :=
  have hex : ∃ es, IsWalk (adjOf tieRoads) 0 es 1 ∧ Unblocked es ∧
      Dbl.lt (walkWeightD es) (Dbl.fin 1000000000) = true :=
    ⟨[⟨2, 3, RoadStatus.MODERATE⟩, ⟨1, 1, RoadStatus.CLEAR⟩], by decide!, by decide!,
      by decide!⟩
  ⟨by decide!, by decide!, by decide!, by decide!, hex, by decide!,
    find_route_finds_cheap_path_rounded tieRoads 0 1 8 (by decide!) (by decide!) (by decide!)
      (by decide!) hex (by decide!)⟩

/-- C13, as stated, fails in double arithmetic: for base cost `3` the `MODERATE` weight is
the double `5.4000000000000004`, not `27 / 5`; for base cost `13` it is not even the double
nearest to `117 / 5`; and for base cost `1e308` the `HEAVY` weight is `+inf`. -/
theorem effective_weight_not_exact :
    (Edge.mk 1 3 RoadStatus.MODERATE).getEffectiveWeightD =
      Dbl.fin (3039929748475085 / 562949953421312) ∧
    (3039929748475085 / 562949953421312 : ℚ) ≠ 9 * 3 / 5 ∧
    (Edge.mk 1 13 RoadStatus.MODERATE).getEffectiveWeightD =
      Dbl.fin (6586514455029351 / 281474976710656) ∧
    Dbl.ofRat (9 * 13 / 5) = Dbl.fin (3293257227514675 / 140737488355328) ∧
    (6586514455029351 / 281474976710656 : ℚ) ≠ 3293257227514675 / 140737488355328 ∧
    (Edge.mk 1 (10 ^ 308) RoadStatus.HEAVY).getEffectiveWeightD = Dbl.pinf :=
  ⟨by decide!, by decide!, by decide!, by decide!, by decide!, by decide!⟩

/-- C13, amended: for a base cost `b` that is a double, the effective weight is `b` when
the road is `CLEAR` and the marker `1e9`, whatever `b` is, when `BLOCKED`; when `MODERATE`
it is the double nearest to `b * d`, where `d = 8106479329266893 / 2^52` is the double of
the literal `1.8`, and when `HEAVY` the double nearest to `b * 3.5` (`+inf` on overflow).
For `b` from `2^-1022` on, a finite `MODERATE` weight is within `2^-52` of `9 * b / 5` in
relative terms and a finite `HEAVY` weight within `2^-53` of `7 * b / 2`. -/
theorem effective_weight_table_rounded (t : Int) (b : ℚ) (hb : Dbl.ofRat b = Dbl.fin b) :
    (Edge.mk t b RoadStatus.CLEAR).getEffectiveWeightD = Dbl.fin b ∧
    (Edge.mk t b RoadStatus.MODERATE).getEffectiveWeightD =
      Dbl.ofRat (b * (8106479329266893 / 4503599627370496)) ∧
    (Edge.mk t b RoadStatus.HEAVY).getEffectiveWeightD = Dbl.ofRat (b * (7 / 2)) ∧
    (Edge.mk t b RoadStatus.BLOCKED).getEffectiveWeightD = Dbl.fin 1000000000 ∧
    (∀ w, (2 : ℚ) ^ (-1022 : ℤ) ≤ b →
      (Edge.mk t b RoadStatus.MODERATE).getEffectiveWeightD = Dbl.fin w →
      |w - 9 * b / 5| ≤ 9 * b / 5 / 2 ^ 52) ∧
    (∀ w, (2 : ℚ) ^ (-1022 : ℤ) ≤ b →
      (Edge.mk t b RoadStatus.HEAVY).getEffectiveWeightD = Dbl.fin w →
      |w - 7 * b / 2| ≤ 7 * b / 2 / 2 ^ 53) := by
  have hm : (Edge.mk t b RoadStatus.MODERATE).getEffectiveWeightD =
      Dbl.ofRat (b * (8106479329266893 / 4503599627370496)) := by
    rw [getEffectiveWeightD_moderate, hb, mul_fin]
  have hh : (Edge.mk t b RoadStatus.HEAVY).getEffectiveWeightD = Dbl.ofRat (b * (7 / 2)) := by
    rw [getEffectiveWeightD_heavy, hb, mul_fin]
  refine ⟨?_, hm, hh, getEffectiveWeightD_blocked t b, ?_, ?_⟩
  · rw [getEffectiveWeightD_clear, hb]
  · intro w hlow hw
    rw [hm] at hw
    exact moderate_err hlow hw
  · intro w hlow hw
    rw [hh] at hw
    exact heavy_err hlow hw

theorem effective_weight_table_rounded_witness :
    Dbl.ofRat 13 = Dbl.fin 13 ∧ (2 : ℚ) ^ (-1022 : ℤ) ≤ 13 ∧
    (Edge.mk 1 13 RoadStatus.MODERATE).getEffectiveWeightD =
      Dbl.fin (6586514455029351 / 281474976710656) ∧
    |(6586514455029351 / 281474976710656 : ℚ) - 9 * 13 / 5| ≤ 9 * 13 / 5 / 2 ^ 52 ∧
    (Edge.mk 1 13 RoadStatus.HEAVY).getEffectiveWeightD = Dbl.fin (91 / 2) ∧
    |(91 / 2 : ℚ) - 7 * 13 / 2| ≤ 7 * 13 / 2 / 2 ^ 53 ∧
    (Edge.mk 1 13 RoadStatus.CLEAR).getEffectiveWeightD = Dbl.fin 13 ∧
    (Edge.mk 1 13 RoadStatus.MODERATE).getEffectiveWeightD =
      Dbl.ofRat (13 * (8106479329266893 / 4503599627370496)) ∧
    (Edge.mk 1 13 RoadStatus.HEAVY).getEffectiveWeightD = Dbl.ofRat (13 * (7 / 2)) ∧
    (Edge.mk 1 13 RoadStatus.BLOCKED).getEffectiveWeightD = Dbl.fin 1000000000 ∧
    (∀ w, (2 : ℚ) ^ (-1022 : ℤ) ≤ 13 →
      (Edge.mk 1 13 RoadStatus.MODERATE).getEffectiveWeightD = Dbl.fin w →
      |w - 9 * 13 / 5| ≤ 9 * 13 / 5 / 2 ^ 52) ∧
    (∀ w, (2 : ℚ) ^ (-1022 : ℤ) ≤ 13 →
      (Edge.mk 1 13 RoadStatus.HEAVY).getEffectiveWeightD = Dbl.fin w →
      |w - 7 * 13 / 2| ≤ 7 * 13 / 2 / 2 ^ 53) :=
  have h := effective_weight_table_rounded 1 13 (by decide!)
  ⟨by decide!, by decide!, by decide!, h.2.2.2.2.1 _ (by decide!) (by decide!), by decide!,
    h.2.2.2.2.2 _ (by decide!) (by decide!), h⟩

end TrafficNav
